import Mathlib

/-!
Verification of the digtick boolean-minimization core (expression AST,
packed ternary storage, value tables, and the Quine-McCluskey minimizer)
against its natural-language specification.  All definitions are shallow
embeddings of the Python source in `src/digtick/`; machine integers are
modelled as `Nat` (Python ints are unbounded non-negative in every use
below), Python `raise` paths as `Option`/`Except`, Python sets as
`Finset`/lists, and dictionaries as association lists.
-/

namespace Digtick

/-! ### Bit utilities

Python `int.bit_count()` and `int.bit_length()` on non-negative ints,
modelled with fuel so that they are structurally recursive (evaluable by
`decide`).  Python `v & ~m` on non-negative `v` equals `v ^^^ (v &&& m)`,
which is what the embedding uses, since `Nat` has no complement.
-/

/-- Fuel-driven helper for `bitCount`; `fuel ≥ n` gives the true popcount. -/
def bitCountAux : Nat → Nat → Nat
  | 0, _ => 0
  | fuel + 1, n => if n = 0 then 0 else n % 2 + bitCountAux fuel (n / 2)

/-- Population count of a natural number, as Python `int.bit_count()`. -/
def bitCount (n : Nat) : Nat := bitCountAux n n

/-- Fuel-driven helper for `bitLength`. -/
def bitLengthAux : Nat → Nat → Nat
  | 0, _ => 0
  | fuel + 1, n => if n = 0 then 0 else bitLengthAux fuel (n / 2) + 1

/-- Bit length of a natural number, as Python `int.bit_length()`. -/
def bitLength (n : Nat) : Nat := bitLengthAux n n

theorem bitCountAux_congr (fuel₁ : Nat) : ∀ fuel₂ n, n ≤ fuel₁ → n ≤ fuel₂ →
    bitCountAux fuel₁ n = bitCountAux fuel₂ n := by
  induction fuel₁ with
  | zero =>
    intro fuel₂ n h₁ _
    have : n = 0 := Nat.le_zero.mp h₁
    subst this
    cases fuel₂ <;> simp [bitCountAux]
  | succ f ih =>
    intro fuel₂ n h₁ h₂
    cases fuel₂ with
    | zero =>
      have : n = 0 := Nat.le_zero.mp h₂
      subst this
      simp [bitCountAux]
    | succ f₂ =>
      by_cases hn : n = 0
      · simp [bitCountAux, hn]
      · have hlt : n / 2 < n := Nat.div_lt_self (Nat.pos_of_ne_zero hn) one_lt_two
        simp only [bitCountAux, hn, if_false]
        rw [ih f₂ (n / 2) (by omega) (by omega)]

/-- Defining recurrence of `bitCount`. -/
theorem bitCount_rec (n : Nat) : bitCount n = if n = 0 then 0 else n % 2 + bitCount (n / 2) := by
  by_cases hn : n = 0
  · simp [bitCount, hn, bitCountAux]
  · unfold bitCount
    cases hn' : n with
    | zero => exact absurd hn' hn
    | succ m =>
      simp only [bitCountAux, if_neg (Nat.succ_ne_zero m)]
      congr 1
      exact bitCountAux_congr m _ _ (by omega) (le_refl _)

theorem bitCount_zero : bitCount 0 = 0 := by simp [bitCount_rec]

theorem bitCount_of_pos (n : Nat) (h : n ≠ 0) : bitCount n = n % 2 + bitCount (n / 2) := by
  rw [bitCount_rec, if_neg h]

theorem bitLengthAux_congr (fuel₁ : Nat) : ∀ fuel₂ n, n ≤ fuel₁ → n ≤ fuel₂ →
    bitLengthAux fuel₁ n = bitLengthAux fuel₂ n := by
  induction fuel₁ with
  | zero =>
    intro fuel₂ n h₁ _
    have : n = 0 := Nat.le_zero.mp h₁
    subst this
    cases fuel₂ <;> simp [bitLengthAux]
  | succ f ih =>
    intro fuel₂ n h₁ h₂
    cases fuel₂ with
    | zero =>
      have : n = 0 := Nat.le_zero.mp h₂
      subst this
      simp [bitLengthAux]
    | succ f₂ =>
      by_cases hn : n = 0
      · simp [bitLengthAux, hn]
      · have hlt : n / 2 < n := Nat.div_lt_self (Nat.pos_of_ne_zero hn) one_lt_two
        simp only [bitLengthAux, hn, if_false]
        rw [ih f₂ (n / 2) (by omega) (by omega)]

/-- Defining recurrence of `bitLength`. -/
theorem bitLength_rec (n : Nat) :
    bitLength n = if n = 0 then 0 else bitLength (n / 2) + 1 := by
  by_cases hn : n = 0
  · simp [bitLength, hn, bitLengthAux]
  · unfold bitLength
    cases hn' : n with
    | zero => exact absurd hn' hn
    | succ m =>
      simp only [bitLengthAux, if_neg (Nat.succ_ne_zero m)]
      congr 1
      exact bitLengthAux_congr m _ _ (by omega) (le_refl _)

/-- Bit length of a power of two. -/
theorem bitLength_two_pow (r : Nat) : bitLength (2 ^ r) = r + 1 := by
  induction r with
  | zero => simp [bitLength_rec]
  | succ r ih =>
    have hpos : (0 : Nat) < 2 ^ (r + 1) := Nat.pos_pow_of_pos _ two_pos
    rw [bitLength_rec, if_neg hpos.ne']
    have : 2 ^ (r + 1) / 2 = 2 ^ r := by
      rw [pow_succ, Nat.mul_div_cancel _ two_pos]
    rw [this, ih]

/-- Unconditional form of the `bitCount` recurrence. -/
theorem bitCount_eq (x : Nat) : bitCount x = x % 2 + bitCount (x / 2) := by
  by_cases hx : x = 0
  · subst hx; simp [bitCount_zero]
  · exact bitCount_of_pos x hx

/-- Population count as a sum of bit indicators below any bound. -/
theorem bitCount_eq_sum (n : Nat) : ∀ x, x < 2 ^ n →
    bitCount x = ∑ b ∈ Finset.range n, (if x.testBit b then 1 else 0) := by
  induction n with
  | zero =>
    intro x hx
    have : x = 0 := by omega
    subst this
    simp [bitCount_zero]
  | succ n ih =>
    intro x hx
    have hdiv : x / 2 < 2 ^ n := by
      have h2 : 2 ^ (n + 1) = 2 ^ n * 2 := pow_succ 2 n
      omega
    rw [bitCount_eq, ih (x / 2) hdiv, Finset.sum_range_succ']
    have h0 : (if x.testBit 0 then (1 : Nat) else 0) = x % 2 := by
      rcases Nat.mod_two_eq_zero_or_one x with h | h <;> simp [Nat.testBit_zero, h]
    have hsum : ∀ b, (x / 2).testBit b = x.testBit (b + 1) := by
      intro b
      rw [Nat.testBit_add_one]
    simp only [hsum]
    omega

/-- Population count as the cardinality of the set of set bits below a bound. -/
theorem bitCount_eq_card (n x : Nat) (hx : x < 2 ^ n) :
    bitCount x = ((Finset.range n).filter (fun b => x.testBit b)).card := by
  rw [bitCount_eq_sum n x hx, Finset.card_filter]

theorem bitCount_le (n x : Nat) (hx : x < 2 ^ n) : bitCount x ≤ n := by
  rw [bitCount_eq_card n x hx]
  calc ((Finset.range n).filter (fun b => x.testBit b)).card
      ≤ (Finset.range n).card := Finset.card_filter_le _ _
    _ = n := Finset.card_range n

theorem bitCount_two_pow (b : Nat) : bitCount (2 ^ b) = 1 := by
  induction b with
  | zero => simp [bitCount_eq 1, bitCount_zero]
  | succ b ih =>
    rw [bitCount_eq]
    have h1 : 2 ^ (b + 1) % 2 = 0 := by
      simp [pow_succ, Nat.mul_mod_left]
    have h2 : 2 ^ (b + 1) / 2 = 2 ^ b := by
      rw [pow_succ, Nat.mul_div_cancel _ two_pos]
    rw [h1, h2, ih]

/-- Every nonzero natural has a set bit. -/
theorem exists_testBit_of_ne_zero (x : Nat) (hx : x ≠ 0) : ∃ b, x.testBit b := by
  induction x using Nat.strong_induction_on with
  | _ x ih =>
    rcases Nat.mod_two_eq_zero_or_one x with h | h
    · have hdiv : x / 2 ≠ 0 := by omega
      obtain ⟨b, hb⟩ := ih (x / 2) (Nat.div_lt_self (Nat.pos_of_ne_zero hx) one_lt_two) hdiv
      exact ⟨b + 1, by rwa [Nat.testBit_add_one]⟩
    · exact ⟨0, by simp [Nat.testBit_zero, h]⟩

/-- Bits at or above the bound of a bounded natural are clear. -/
theorem testBit_eq_false_of_lt {x n b : Nat} (hx : x < 2 ^ n) (hb : n ≤ b) :
    x.testBit b = false :=
  Nat.testBit_lt_two_pow (lt_of_lt_of_le hx (Nat.pow_le_pow_right two_pos hb))

/-- A natural with popcount one is a power of two. -/
theorem eq_two_pow_of_bitCount_eq_one (x : Nat) (h : bitCount x = 1) :
    ∃ b, x = 2 ^ b := by
  have hx : x ≠ 0 := by
    intro h0
    rw [h0, bitCount_zero] at h
    exact absurd h (by omega)
  have hlt : x < 2 ^ x := Nat.lt_two_pow x
  rw [bitCount_eq_card x x hlt] at h
  obtain ⟨p, hp⟩ := Finset.card_eq_one.mp h
  have hmem : ∀ c, x.testBit c = true ↔ c = p := by
    intro c
    constructor
    · intro hc
      have hcx : c < x := by
        by_contra hge
        rw [testBit_eq_false_of_lt hlt (by omega)] at hc
        exact Bool.false_ne_true hc
      have hcin : c ∈ (Finset.range x).filter (fun q => x.testBit q) := by
        simp [Finset.mem_filter, Finset.mem_range, hcx, hc]
      rw [hp] at hcin
      simpa using hcin
    · intro hc
      subst hc
      have hpin : c ∈ (Finset.range x).filter (fun q => x.testBit q) := by
        rw [hp]; simp
      exact (Finset.mem_filter.mp hpin).2
  refine ⟨p, Nat.eq_of_testBit_eq fun i => ?_⟩
  rw [Nat.testBit_two_pow]
  by_cases hip : i = p
  · simp [hip, (hmem p).mpr rfl]
  · have hfalse : x.testBit i = false := by
      rcases Bool.eq_false_or_eq_true (x.testBit i) with hcase | hcase
      · exact absurd ((hmem i).mp hcase) hip
      · exact hcase
    simp [hfalse, hip, Ne.symm hip]

/-! ### Expression AST (`ExpressionParser.py`)

The closed variant set Variable / Constant / UnaryOperator / BinaryOperator /
Parenthesis becomes one inductive type.  Python dicts of variable values
become association lists; a `KeyError` (missing variable) and the failing
`assert`/lookup paths of `evaluate` become `none`.
-/

/-- The `Operator` enum of `ExpressionParser.py`. -/
inductive Operator where
  | Or | And | Xor | Not | Nand | Nor
deriving DecidableEq

/-- The expression tree: closed variant set of `ParseTreeElement` subclasses. -/
inductive ParseTreeElement where
  | Variable (varname : String)
  | Constant (value : Nat)
  | UnaryOperator (op : Operator) (rhs : ParseTreeElement)
  | BinaryOperator (lhs : ParseTreeElement) (op : Operator) (rhs : ParseTreeElement)
  | Parenthesis (inner : ParseTreeElement)
deriving DecidableEq

/-- Expression evaluation against a variable dictionary.  Mirrors the
`evaluate` methods: variables look up the dict (`KeyError` = `none`), the
unary node asserts its operator is `Not`, the binary node evaluates both
sides and then dispatches on a function table that has no entry for
`Not`. -/
def evaluate : ParseTreeElement → List (String × Nat) → Option Nat
  | .Variable v, d => d.lookup v
  | .Constant c, _ => some c
  | .UnaryOperator op rhs, d =>
      if op = Operator.Not then
        (evaluate rhs d).map (fun x => if x = 0 then 1 else 0)
      else
        none
  | .BinaryOperator lhs op rhs, d => do
      let x ← evaluate lhs d
      let y ← evaluate rhs d
      match op with
      | .Or => some (x ||| y)
      | .And => some (x &&& y)
      | .Xor => some (x ^^^ y)
      | .Nand => some (if x &&& y = 0 then 1 else 0)
      | .Nor => some (if x ||| y = 0 then 1 else 0)
      | .Not => none
  | .Parenthesis inner, d => evaluate inner d

namespace BinaryOperator

/-- `BinaryOperator.join`: left fold of `op` over the terms; joining an
empty sequence raises `ValueError`, modelled as `none`. -/
def join (op : Operator) : List ParseTreeElement → Option ParseTreeElement
  | [] => none
  | t :: ts => some (ts.foldl (fun acc term => ParseTreeElement.BinaryOperator acc op term) t)

end BinaryOperator

/-- Variable occurrences collected by the `_traverse` walk of a tree. -/
def varList : ParseTreeElement → List String
  | .Variable v => [v]
  | .Constant _ => []
  | .UnaryOperator _ rhs => varList rhs
  | .BinaryOperator lhs _ rhs => varList lhs ++ varList rhs
  | .Parenthesis inner => varList inner

/-- Byte-wise comparison of characters, as Python string comparison. -/
def charListLe : List Char → List Char → Bool
  | [], _ => true
  | _ :: _, [] => false
  | a :: as, b :: bs =>
      if a.toNat < b.toNat then true
      else if a.toNat = b.toNat then charListLe as bs
      else false

/-- Python string `<=` (code-point lexicographic). -/
def strLe (a b : String) : Bool := charListLe a.data b.data

/-- The `variables` property: deduplicated, sorted tuple of variable names. -/
def variablesOf (e : ParseTreeElement) : List String :=
  (varList e).dedup.insertionSort (fun a b => strLe a b = true)

/-- The `table()` generator: all `2^n` assignments over the sorted variable
tuple, first variable most significant, paired with the evaluation. -/
def tableOf (e : ParseTreeElement) : List (List (String × Nat) × Option Nat) :=
  let vars := variablesOf e
  (List.range (2 ^ vars.length)).map (fun value =>
    let d := vars.enum.map (fun p =>
      (p.2, if value &&& (1 <<< (vars.length - 1 - p.1)) ≠ 0 then 1 else 0))
    (d, evaluate e d))

/-- `compare_to_expression`: refuses variable sets where neither is a subset
of the other, otherwise evaluates both expressions over the full domain of
the dominant (larger) variable set. -/
def compare_to_expression (e₁ e₂ : ParseTreeElement) :
    Except String (List (List (String × Nat) × Option Nat × Option Nat)) :=
  let s1 := (variablesOf e₁).toFinset
  let s2 := (variablesOf e₂).toFinset
  let inter := s1 ∩ s2
  if inter ≠ s1 ∧ inter ≠ s2 then
    .error "Cannot compare expressions with different variables."
  else
    let pair := if inter = s2 then (e₁, e₂) else (e₂, e₁)
    .ok ((tableOf pair.1).map (fun row => (row.1, row.2, evaluate pair.2 row.1)))

/-- Model of Python `x & ~m` for non-negative ints. -/
def natAndNot (x m : Nat) : Nat := x ^^^ (x &&& m)

theorem testBit_natAndNot (x m b : Nat) :
    (natAndNot x m).testBit b = (x.testBit b && !(m.testBit b)) := by
  unfold natAndNot
  rw [Nat.testBit_xor, Nat.testBit_land]
  cases x.testBit b <;> cases m.testBit b <;> rfl

/-! ### Packed ternary storage (`ValueTable.py`, class `CompactStorage`)

The storage is a single unbounded integer holding `2^k` two-bit entries.
Python `value & ~mask` becomes `natAndNot`; the index assertion of
`__setitem__`/`__getitem__` becomes an `Option` (for the setter) and a
precondition in the theorems (for the getter).
-/

/-- The `CompactStorage.Entry` enum. -/
inductive Entry where
  | Low | High | DontCare | Undefined
deriving DecidableEq

/-- Integer value of an entry, as the `IntEnum` values. -/
def Entry.toNat : Entry → Nat
  | .Low => 0
  | .High => 1
  | .DontCare => 2
  | .Undefined => 3

/-- `Entry(n)` for a two-bit value. -/
def entryOfNat (n : Nat) : Entry :=
  if n = 0 then .Low else if n = 1 then .High else if n = 2 then .DontCare else .Undefined

structure CompactStorage where
  variable_count : Nat
  value : Nat
deriving DecidableEq

namespace CompactStorage

def table_entry_count (s : CompactStorage) : Nat := 2 ^ s.variable_count

/-- `__init__` with `initial_value = None`: all entries Undefined. -/
def init (variable_count : Nat) : CompactStorage :=
  ⟨variable_count, 2 ^ (2 * 2 ^ variable_count) - 1⟩

/-- `__init__` with an explicit initial value (used by `from_string`). -/
def initWith (variable_count : Nat) (initial_value : Nat) : CompactStorage :=
  ⟨variable_count, initial_value⟩

/-- `__getitem__` without its index assertion (theorems carry the bound). -/
def getItem (s : CompactStorage) (index : Nat) : Entry :=
  entryOfNat ((s.value >>> (2 * index)) &&& 3)

/-- The admissible argument forms of `__setitem__`. -/
inductive SetValue where
  | entry (e : Entry)
  | num (n : Nat)
  | str (s : String)
deriving DecidableEq

/-- Conversion performed by `__setitem__`: `"*"` means DontCare, everything
else goes through `int(...)`; inadmissible values fail the assertion
(`none`). -/
def SetValue.toEntryNat : SetValue → Option Nat
  | .entry e => some e.toNat
  | .num 0 => some 0
  | .num 1 => some 1
  | .num _ => none
  | .str s =>
      if s = "*" then some 2
      else if s = "0" then some 0
      else if s = "1" then some 1
      else none

/-- `__setitem__`; `none` models a failed assertion (bad value or index). -/
def setItem (s : CompactStorage) (index : Nat) (v : SetValue) : Option CompactStorage :=
  match v.toEntryNat with
  | none => none
  | some ev =>
      if index < s.table_entry_count then
        let bitpos := 2 * index
        let mask := 3 <<< bitpos
        some ⟨s.variable_count, natAndNot s.value mask ||| (ev <<< bitpos)⟩
      else
        none

/-- Helper for `__iter__`: yields `Entry(value & 3)` and shifts by two,
`table_entry_count` times. -/
def iterAux : Nat → Nat → List Entry
  | 0, _ => []
  | n + 1, value => entryOfNat (value &&& 3) :: iterAux n (value >>> 2)

/-- `__iter__` as a list of entries. -/
def entryList (s : CompactStorage) : List Entry := iterAux s.table_entry_count s.value

/-- `has_undefined_values`. -/
def has_undefined_values (s : CompactStorage) : Bool :=
  s.entryList.any (fun e => e = Entry.Undefined)

/-- `indices_with_value`. -/
def indices_with_value (s : CompactStorage) (search_value : Entry) : List Nat :=
  (s.entryList.enum.filter (fun p => p.2 = search_value)).map (fun p => p.1)

/-- `set_undefined_values_to`: the iterator snapshot is taken before any
write, so the Undefined test runs against the original storage. -/
def set_undefined_values_to (s : CompactStorage) (entryvalue : Entry) : CompactStorage :=
  (List.range s.table_entry_count).foldl
    (fun acc i =>
      if s.getItem i = Entry.Undefined then
        (acc.setItem i (SetValue.entry entryvalue)).getD acc
      else acc)
    s

/-- Value of one hexadecimal digit, as accepted by Python `int(_, 16)`. -/
def hexDigit (c : Char) : Option Nat :=
  if '0' ≤ c ∧ c ≤ '9' then some (c.toNat - '0'.toNat)
  else if 'a' ≤ c ∧ c ≤ 'f' then some (c.toNat - 'a'.toNat + 10)
  else if 'A' ≤ c ∧ c ≤ 'F' then some (c.toNat - 'A'.toNat + 10)
  else none

/-- Python `int(s, 16)` on a plain hex-digit string (`none` = `ValueError`). -/
def hexToNat (s : String) : Option Nat :=
  match s.data with
  | [] => none
  | ds => ds.foldlM (fun acc c => (hexDigit c).map (fun d => acc * 16 + d)) 0

/-- `from_string`. -/
def from_string (variable_count : Nat) (compact_table_str : String) : Option CompactStorage :=
  (hexToNat compact_table_str).map (initWith variable_count)

end CompactStorage

/-! ### Value table (`ValueTable.py`, class `ValueTable`)

Ordered input-variable names plus named output storages.  The
`_named_outputs` and `_index_weights` dicts are modelled by lookups with
the last-write-wins behaviour of dict comprehensions (the reversed zip for
outputs, the first occurrence for weights, which receives the highest and
hence final write of the reversed enumeration).
-/

structure ValueTable where
  input_variable_names : List String
  output_variable_names : List String
  output_values : List CompactStorage
deriving DecidableEq

namespace ValueTable

/-- The two assertions of `__init__`. -/
def WellFormed (vt : ValueTable) : Prop :=
  vt.output_values.length = vt.output_variable_names.length ∧
    ∀ s ∈ vt.output_values, s.variable_count = vt.input_variable_names.length

instance (vt : ValueTable) : Decidable vt.WellFormed := by
  unfold WellFormed
  infer_instance

def input_variable_count (vt : ValueTable) : Nat := vt.input_variable_names.length

/-- Lookup in the `_named_outputs` dict (later duplicate names win). -/
def named_output (vt : ValueTable) (name : String) : Option CompactStorage :=
  ((vt.output_variable_names.zip vt.output_values).reverse).lookup name

/-- Lookup in the `_index_weights` dict: `1 << bitno` over the reversed
name list; for a duplicated name the last write is the one for its first
(leftmost) occurrence. -/
def index_weight (vt : ValueTable) (name : String) : Option Nat :=
  if name ∈ vt.input_variable_names then
    some (1 <<< (vt.input_variable_count - 1 - vt.input_variable_names.indexOf name))
  else
    none

/-- `index_to_list`: bits of the index, first declared variable first. -/
def index_to_list (vt : ValueTable) (index : Nat) : List Nat :=
  ((List.range vt.input_variable_count).reverse).map (fun i => (index >>> i) &&& 1)

/-- `index_to_dict`. -/
def index_to_dict (vt : ValueTable) (index : Nat) : List (String × Nat) :=
  vt.input_variable_names.zip (vt.index_to_list index)

/-- `dict_to_index`: weighted sum over the entries whose bit value is 1;
a name outside the declared inputs raises `KeyError` (`none`). -/
def dict_to_index (vt : ValueTable) (input_var_dict : List (String × Nat)) : Option Nat :=
  input_var_dict.foldlM
    (fun acc p => if p.2 = 1 then (vt.index_weight p.1).map (acc + ·) else some acc)
    0

/-- `at`. -/
def tableAt (vt : ValueTable) (input_var_dict : List (String × Nat)) (output_var_name : String) :
    Option Entry := do
  let index ← vt.dict_to_index input_var_dict
  let st ← vt.named_output output_var_name
  pure (st.getItem index)

/-- `iter_output_variable` (a missing name raises `KeyError`). -/
def iter_output_variable (vt : ValueTable) (output_var_name : String) : Option (List Entry) :=
  (vt.named_output output_var_name).map CompactStorage.entryList

/-- The inner `_minterm` helper of `_cdnf`: one literal per declared input
variable, negated iff the value of that variable in the row dict is
truthy; literals joined by And. -/
def cdnfMinterm (names : List String) (input_values : List (String × Nat)) :
    Option ParseTreeElement := do
  let literals ← names.mapM (fun varname =>
    (input_values.lookup varname).map (fun bit =>
      if bit ≠ 0 then
        ParseTreeElement.UnaryOperator Operator.Not (ParseTreeElement.Variable varname)
      else
        ParseTreeElement.Variable varname))
  BinaryOperator.join Operator.And literals

/-- `_cdnf`: And-terms for every row whose entry equals `search_value`,
joined by Or; no rows gives `Constant(0)`. -/
def cdnfImpl (vt : ValueTable) (varname : String) (search_value : Entry) :
    Option ParseTreeElement := do
  let st ← vt.named_output varname
  let term_input_values := (st.indices_with_value search_value).map vt.index_to_dict
  let terms ← term_input_values.mapM (cdnfMinterm vt.input_variable_names)
  if terms.isEmpty then
    pure (ParseTreeElement.Constant 0)
  else
    BinaryOperator.join Operator.Or terms

/-- `cdnf`. -/
def cdnf (vt : ValueTable) (varname : String) : Option ParseTreeElement :=
  vt.cdnfImpl varname Entry.High

/-- `cdnf_dc`. -/
def cdnf_dc (vt : ValueTable) (varname : String) : Option ParseTreeElement :=
  vt.cdnfImpl varname Entry.DontCare

/-- The inner `_maxterm` helper of `ccnf`: literal plain iff the row value
is truthy, literals joined by Or. -/
def ccnfMaxterm (names : List String) (input_values : List (String × Nat)) :
    Option ParseTreeElement := do
  let literals ← names.mapM (fun varname =>
    (input_values.lookup varname).map (fun bit =>
      if bit ≠ 0 then
        ParseTreeElement.Variable varname
      else
        ParseTreeElement.UnaryOperator Operator.Not (ParseTreeElement.Variable varname)))
  BinaryOperator.join Operator.Or literals

/-- `ccnf`: Or-terms for every Low row, joined by And; no rows gives
`Constant(1)`. -/
def ccnf (vt : ValueTable) (varname : String) : Option ParseTreeElement := do
  let st ← vt.named_output varname
  let term_input_values := (st.indices_with_value Entry.Low).map vt.index_to_dict
  let terms ← term_input_values.mapM (ccnfMaxterm vt.input_variable_names)
  if terms.isEmpty then
    pure (ParseTreeElement.Constant 1)
  else
    BinaryOperator.join Operator.And terms

end ValueTable

/-! ### Table text parsing (`ValueTable.py`, `_parse_from_file`)

Lines are modelled as strings; `str.strip` and the `\s+` separator regex
are implemented over the character lists.  Every `raise ValueError` site
becomes a `TableParseError`; the strict-parsing raise is the one the spec
calls `ConsistencyError`, and failed `assert`s (inadmissible cell tokens or
indices) get their own constructor.
-/

/-- Characters stripped by `line.strip("\r\n\t ")` and matched by `\s+`. -/
def isTableSpace (c : Char) : Bool :=
  c = ' ' || c = '\r' || c = '\n' || c = '\t'

/-- Python `str.strip("\r\n\t ")`. -/
def stripLine (s : String) : String :=
  String.mk (((s.data.dropWhile isTableSpace).reverse.dropWhile isTableSpace).reverse)

/-- Splitting a character list at every occurrence of a separator,
keeping empty pieces (Python `str.split(sep)`). -/
def splitCharAux (sep : Char) : List Char → List (List Char)
  | [] => [[]]
  | c :: rest =>
      match splitCharAux sep rest with
      | [] => [[]]
      | g :: gs => if c = sep then [] :: g :: gs else (c :: g) :: gs

/-- Python `s.split(sep)` for a one-character separator. -/
def splitStr (sep : Char) (s : String) : List String :=
  (splitCharAux sep s.data).map String.mk

/-- Python `re.split(r"\s+", line)` on an already stripped line: the empty
line yields one empty token, otherwise the nonempty runs between
whitespace. -/
def tableTokens (line : String) : List String :=
  if line = "" then [""]
  else ((splitCharAux ' ' (line.data.map (fun c => if isTableSpace c then ' ' else c))).filter
    (fun g => g ≠ [])).map String.mk

/-- Python `s.startswith(c)` for a single character. -/
def strStartsWith (s : String) (c : Char) : Bool :=
  match s.data with
  | [] => false
  | d :: _ => d = c

/-- Python `s[1:]`. -/
def strDropOne (s : String) : String := String.mk (s.data.drop 1)

/-- Value of one decimal digit. -/
def decDigit (c : Char) : Option Nat :=
  if '0' ≤ c ∧ c ≤ '9' then some (c.toNat - '0'.toNat) else none

/-- Python `int(s)` on plain digit strings (`none` = `ValueError`; signs
and underscores are not modelled, they never occur in well-formed
tables). -/
def decToNat (s : String) : Option Nat :=
  match s.data with
  | [] => none
  | ds => ds.foldlM (fun acc c => (decDigit c).map (fun d => acc * 10 + d)) 0

/-- `from_compact_representation`: `:in1,in2:out1,out2:hex,hex`. -/
def from_compact_representation (compact_str : String) : Option ValueTable :=
  if ¬ strStartsWith compact_str ':' then none
  else
    match splitStr ':' (strDropOne compact_str) with
    | [ivn, ovn, cd] =>
        let input_variable_names := splitStr ',' ivn
        let output_variable_names := splitStr ',' ovn
        let compact_data := splitStr ',' cd
        if output_variable_names.length ≠ compact_data.length then none
        else do
          let output_values ← compact_data.mapM
            (CompactStorage.from_string input_variable_names.length)
          pure ⟨input_variable_names, output_variable_names, output_values⟩
    | _ => none

/-- Failure cases of table parsing.  `consistencyErr` is the
strict-parsing raise ("not all input patterns were explicitly
specified"), `syntaxErr` covers the malformed-text `ValueError`s, and
`assertErr` the failed assertions / impossible lookups. -/
inductive TableParseError where
  | syntaxErr
  | consistencyErr
  | assertErr
deriving DecidableEq

/-- Result of processing the header row. -/
structure HeaderInfo where
  input_indices : List Nat
  input_variables : List String
  output_indices : List Nat
  output_variables : List String
deriving DecidableEq

/-- Header-row processing of `_parse_from_file` (`lineno == 1`, non-compact):
fields starting with `>` are outputs; requires at least one input, one
output and no duplicate names. -/
def headerOf (tokens : List String) : HeaderInfo :=
  let classified := tokens.enum.map (fun p =>
    let is_output := strStartsWith p.2 '>'
    (p.1, if is_output then strDropOne p.2 else p.2, is_output))
  { input_indices := (classified.filter (fun c => ¬ c.2.2)).map (fun c => c.1)
    input_variables := (classified.filter (fun c => ¬ c.2.2)).map (fun c => c.2.1)
    output_indices := (classified.filter (fun c => c.2.2)).map (fun c => c.1)
    output_variables := (classified.filter (fun c => c.2.2)).map (fun c => c.2.1) }

def parseHeaderLine (tokens : List String) : Except TableParseError HeaderInfo :=
  let hdr := headerOf tokens
  if hdr.input_variables.length = 0 then
    Except.error TableParseError.syntaxErr
  else if hdr.output_variables.length = 0 then
    Except.error TableParseError.syntaxErr
  else if ¬ (hdr.input_variables ++ hdr.output_variables).Nodup then
    Except.error TableParseError.syntaxErr
  else
    Except.ok hdr

/-- Left-to-right effectful map for `Except`, the semantics of a Python
list comprehension whose body may raise: the first raise aborts. -/
def exceptMapM {α β ε : Type} (f : α → Except ε β) : List α → Except ε (List β)
  | [] => Except.ok []
  | x :: l =>
      match f x with
      | Except.error e => Except.error e
      | Except.ok b =>
          match exceptMapM f l with
          | Except.error e => Except.error e
          | Except.ok out => Except.ok (b :: out)

/-- Left fold for `Except`, the semantics of a Python loop whose body may
raise. -/
def exceptFoldlM {σ α ε : Type} (f : σ → α → Except ε σ) : σ → List α → Except ε σ
  | s, [] => Except.ok s
  | s, x :: l =>
      match f s x with
      | Except.error e => Except.error e
      | Except.ok s2 => exceptFoldlM f s2 l

/-- Row token access `tokens[i]` (an out-of-range index would raise). -/
def rowToken (tokens : List String) (i : Nat) : Except TableParseError String :=
  match tokens.get? i with
  | some t => Except.ok t
  | none => Except.error TableParseError.assertErr

/-- The `int(tokens[i])` reads of a data row at the input columns. -/
def readInputBits (hdr : HeaderInfo) (tokens : List String) :
    Except TableParseError (List Nat) :=
  exceptMapM (fun i =>
    match rowToken tokens i with
    | Except.ok t =>
        match decToNat t with
        | some v => Except.ok v
        | none => Except.error TableParseError.syntaxErr
    | Except.error e => Except.error e) hdr.input_indices

/-- The output-column tokens of a data row. -/
def readOutputBits (hdr : HeaderInfo) (tokens : List String) :
    Except TableParseError (List String) :=
  exceptMapM (rowToken tokens) hdr.output_indices

/-- The `index` computed by a data row: MSB-first weighted sum of the
input bits. -/
def rowIndex (input_bits : List Nat) : Nat :=
  (input_bits.reverse.enum.map (fun p => p.2 <<< p.1)).sum

/-- The per-storage write of a data row cell (`storage[index] = bit`). -/
def writeCell (index : Nat) (p : CompactStorage × String) :
    Except TableParseError CompactStorage :=
  match p.1.setItem index (CompactStorage.SetValue.str p.2) with
  | some st => Except.ok st
  | none => Except.error TableParseError.assertErr

/-- One data row of `_parse_from_file`: checks the token count, decodes the
input bits, computes the row index MSB-first and writes one output token
into every storage (the overwrite warning is non-fatal and not
modelled). -/
def applyDataRow (hdr : HeaderInfo) (storages : List CompactStorage) (tokens : List String) :
    Except TableParseError (List CompactStorage) :=
  if tokens.length ≠ hdr.input_variables.length + hdr.output_variables.length then
    Except.error TableParseError.syntaxErr
  else
    match readInputBits hdr tokens with
    | Except.error e => Except.error e
    | Except.ok input_bits =>
        match readOutputBits hdr tokens with
        | Except.error e => Except.error e
        | Except.ok output_bits =>
            exceptMapM (writeCell (rowIndex input_bits)) (storages.zip output_bits)

/-- The final Undefined check and resolution of `_parse_from_file`:
inspects the first output column, then either rejects (strict), resolves
all columns, or returns them as parsed. -/
def finishParse (hdr : HeaderInfo) (storages : List CompactStorage)
    (set_undefined_values_to : Option Entry) : Except TableParseError ValueTable :=
  match storages.head? with
  | none => Except.error TableParseError.assertErr
  | some first_storage =>
    if first_storage.has_undefined_values then
      match set_undefined_values_to with
      | none => Except.error TableParseError.consistencyErr
      | some e =>
          Except.ok ⟨hdr.input_variables, hdr.output_variables,
            storages.map (fun st => st.set_undefined_values_to e)⟩
    else
      Except.ok ⟨hdr.input_variables, hdr.output_variables, storages⟩

/-- `_parse_from_file` over a list of lines. -/
def parse_from_lines (lines : List String) (set_undefined_values_to : Option Entry) :
    Except TableParseError ValueTable :=
  match lines with
  | [] => Except.error TableParseError.syntaxErr
  | first :: rest =>
      let stripped := stripLine first
      if strStartsWith stripped ':' then
        match from_compact_representation stripped with
        | some vt => Except.ok vt
        | none => Except.error TableParseError.syntaxErr
      else
        match parseHeaderLine (tableTokens stripped) with
        | Except.error e => Except.error e
        | Except.ok hdr =>
            match exceptFoldlM
                (fun sts line => applyDataRow hdr sts (tableTokens (stripLine line)))
                (List.replicate hdr.output_variables.length
                  (CompactStorage.init hdr.input_variables.length)) rest with
            | Except.error e => Except.error e
            | Except.ok storages => finishParse hdr storages set_undefined_values_to

/-- `parse_from_file`: maps the policy string and asserts it is one of
`"0"`, `"1"`, `"*"`, `"forbidden"`; `"forbidden"` maps to strict
parsing. -/
def parse_from_file (lines : List String) (set_undefined_values_to : String) :
    Except TableParseError ValueTable :=
  if set_undefined_values_to = "0" then parse_from_lines lines (some Entry.Low)
  else if set_undefined_values_to = "1" then parse_from_lines lines (some Entry.High)
  else if set_undefined_values_to = "*" then parse_from_lines lines (some Entry.DontCare)
  else if set_undefined_values_to = "forbidden" then parse_from_lines lines none
  else Except.error TableParseError.assertErr

/-! ### Quine-McCluskey minimizer (`QuineMcCluskey.py`)

Frozen `Implicant` dataclasses become a structure with a `Finset` of
minterm indices.  The nested `{bit_count: {mask: [implicants]}}` grouping
dicts of the Python merge stage are an indexing optimisation: two
implicants are paired exactly when their value popcounts are adjacent and
their masks equal, so the embedding merges over the flat list with that
pair filter, which produces the same implicant set; `found_merged`
deduplication by minterm set is kept.  Python `set` iteration order is
unspecified, so wherever the code iterates a set the embedding iterates
the ascending (or canonically sorted) enumeration.
-/

structure Implicant where
  minterms : Finset Nat
  value : Nat
  mask : Nat
deriving DecidableEq

namespace Implicant

/-- `order`: `len(minterms).bit_length() - 1`. -/
def order (imp : Implicant) : Nat := bitLength imp.minterms.card - 1

/-- `literal_count`. -/
def literal_count (variable_count : Nat) (imp : Implicant) : Nat :=
  variable_count - imp.order

/-- `as_mterm`: one literal per unmasked variable position (first variable
highest bit), inverted iff the value bit xor the minterm flag; literals
joined by And for minterms, Or for maxterms. -/
def as_mterm (imp : Implicant) (varNames : List String) (minterm : Bool) :
    Option ParseTreeElement :=
  let literals := varNames.enum.filterMap (fun p =>
    let bit := varNames.length - 1 - p.1
    if (imp.mask >>> bit) &&& 1 = 0 then
      let inverted := xor (decide ((imp.value >>> bit) &&& 1 ≠ 0)) minterm
      some (if inverted then
        ParseTreeElement.UnaryOperator Operator.Not (ParseTreeElement.Variable p.2)
      else
        ParseTreeElement.Variable p.2)
    else
      none)
  BinaryOperator.join (if minterm then Operator.And else Operator.Or) literals

/-- Canonical encoding of the minterm set, used to total-order implicants:
the Python sort key compares frozensets, a partial order, so the embedding
refines it by the set bitmask. -/
def mintermEncoding (imp : Implicant) : Nat := imp.minterms.sum (fun m => 2 ^ m)

/-- Total refinement of the `_cmpkey` sort order `(-order, minterms, value,
mask)`. -/
def implicantLe (a b : Implicant) : Bool :=
  if a.order = b.order then
    if a.mintermEncoding = b.mintermEncoding then
      if a.value = b.value then
        decide (a.mask ≤ b.mask)
      else
        decide (a.value < b.value)
    else
      decide (a.mintermEncoding < b.mintermEncoding)
  else
    decide (b.order < a.order)

end Implicant

/-- The `QuineMcCluskeySolution` dataclass; the stored value table is
reduced to the input-variable names, the only part `__iter__` reads. -/
structure QuineMcCluskeySolution where
  mode_dnf : Bool
  input_variable_names : List String
  required_implicants : List Implicant
  additional_implicants : List (List Implicant)
deriving DecidableEq

namespace QuineMcCluskeySolution

/-- `solution_count`. -/
def solution_count (sol : QuineMcCluskeySolution) : Nat :=
  sol.additional_implicants.length

/-- `__iter__`: for each additional set, the union with the required
implicants, canonically sorted, rendered via `as_mterm` and joined (Or of
And-terms for DNF, And of Or-terms for CNF).  An element is `none` when
the Python generator would raise (`join` of an empty sequence). -/
def exprList (sol : QuineMcCluskeySolution) : List (Option ParseTreeElement) :=
  let varNames := sol.input_variable_names
  sol.additional_implicants.map (fun additional =>
    let solution_implicants := (sol.required_implicants ++ additional).dedup
    let sorted := solution_implicants.insertionSort (fun a b => a.implicantLe b = true)
    if sol.mode_dnf then do
      let mterms ← sorted.mapM (fun imp => imp.as_mterm varNames true)
      BinaryOperator.join Operator.Or mterms
    else do
      let mterms ← sorted.mapM (fun imp => imp.as_mterm varNames false)
      BinaryOperator.join Operator.And mterms)

end QuineMcCluskeySolution

namespace QuineMcCluskey

/-- `_create_size_one_implicants` (flattened over the bit-count groups). -/
def create_size_one_implicants (minterms : List Nat) : List Implicant :=
  minterms.map (fun m => { minterms := {m}, value := m, mask := 0 })

/-- The `found_merged` deduplication: keep the first implicant for every
minterm set. -/
def dedupByMinterms (l : List Implicant) : List Implicant :=
  (l.foldl
    (fun acc imp =>
      if imp.minterms ∈ acc.2 then acc else (acc.1 ++ [imp], insert imp.minterms acc.2))
    (([] : List Implicant), (∅ : Finset (Finset Nat)))).1

/-- All merge results of `_merge_implicants`: pairs whose value popcounts
are adjacent, masks equal and values apart by exactly one bit; the merged
implicant unions the minterm sets, clears the differing bit from the value
and adds it to the mask. -/
def mergeCandidates (implicants : List Implicant) : List Implicant :=
  implicants.flatMap (fun i1 => implicants.filterMap (fun i2 =>
    if bitCount i2.value = bitCount i1.value + 1 ∧ i1.mask = i2.mask ∧
        bitCount (i1.value ^^^ i2.value) = 1 then
      some { minterms := i1.minterms ∪ i2.minterms,
             value := natAndNot i1.value (i1.value ^^^ i2.value),
             mask := i1.mask ||| (i1.value ^^^ i2.value) }
    else
      none))

/-- `_merge_implicants`. -/
def merge_implicants (implicants : List Implicant) : List Implicant :=
  dedupByMinterms (mergeCandidates implicants)

/-- `_create_merged_implicant_groups`: repeat the merge up to the number
of input variables, stopping early when a stage yields nothing. -/
def merge_stages : Nat → List Implicant → List (List Implicant)
  | 0, cur => [cur]
  | n + 1, cur =>
      let merged := merge_implicants cur
      if merged.isEmpty then [cur] else cur :: merge_stages n merged

/-- `_eliminate_suboptimal_implicants`: drop an implicant whose minterm
set is contained in some implicant of the next group; groups left empty
are dropped, the top group is kept whole. -/
def eliminate_suboptimal : List (List Implicant) → List (List Implicant)
  | [] => []
  | [top] => [top]
  | low :: up :: rest =>
      let kept := low.filter (fun li => !(up.any (fun ui => decide (li.minterms ⊆ ui.minterms))))
      let tail := eliminate_suboptimal (up :: rest)
      if kept.isEmpty then tail else kept :: tail

/-- `_determine_required_minterms`: mandatory minterms covered by exactly
one implicant of the pool. -/
def determine_required_minterms (pool : List Implicant) (mandatory_minterms : Finset Nat) :
    Finset Nat :=
  mandatory_minterms.filter (fun m => pool.countP (fun imp => decide (m ∈ imp.minterms)) = 1)

/-- `_eliminate_required_implicants`: split the pool into the implicants
containing a required minterm and the rest. -/
def eliminate_required_implicants (pool : List Implicant) (required_minterms : Finset Nat) :
    List Implicant × List Implicant :=
  (pool.filter (fun imp => decide ((required_minterms ∩ imp.minterms).Nonempty)),
   pool.filter (fun imp => !decide ((required_minterms ∩ imp.minterms).Nonempty)))

/-- `_compute_remaining_minterms`. -/
def compute_remaining_minterms (expr_minterms : Finset Nat) (required_implicants : List Implicant) :
    Finset Nat :=
  required_implicants.foldl (fun s imp => s \ imp.minterms) expr_minterms

/-- The per-minterm lists of `_group_implicants_by_minterm`. -/
def implicants_fulfilling (pool : List Implicant) (m : Nat) : List Implicant :=
  pool.filter (fun imp => decide (m ∈ imp.minterms))

/-- Sort key of `_absorb`: `(term.bit_count(), term)`. -/
def termLe (a b : Nat) : Bool :=
  decide (bitCount a < bitCount b) || (decide (bitCount a = bitCount b) && decide (a ≤ b))

/-- `_absorb`: walk the terms in `(bit_count, term)` order, keeping a term
unless an already kept term with strictly smaller popcount is a bitwise
subset of it (the early `break` of the Python loop only skips comparisons
the popcount guard would reject). -/
def absorb (terms : List Nat) : List Nat :=
  (terms.insertionSort (fun a b => termLe a b = true)).foldl
    (fun kept term =>
      if kept.any (fun kt => decide (bitCount kt < bitCount term) && decide (kt &&& term = kt)) then
        kept
      else
        kept ++ [term])
    []

/-- `_filter_min_bit_count`: `none` for empty input (Python returns
`None`), otherwise the terms of minimal popcount. -/
def filter_min_bit_count (terms : List Nat) : Option (List Nat) :=
  match (terms.map bitCount).min? with
  | none => none
  | some mn => some (terms.filter (fun v => bitCount v = mn))

/-- Candidate implicants of Petrick's method in bit-assignment order:
first occurrence over the remaining minterms (iterated in canonical
ascending order) of the implicants fulfilling each minterm. -/
def petrick_candidates (pool : List Implicant) (remaining_sorted : List Nat) : List Implicant :=
  remaining_sorted.foldl
    (fun acc m =>
      (implicants_fulfilling pool m).foldl
        (fun acc2 imp => if imp ∈ acc2 then acc2 else acc2 ++ [imp]) acc)
    []

/-- Bit decoding of one Petrick solution: the candidate implicant of every
set bit (`none` models the impossible `KeyError` of the inverse dict). -/
def decode_solution (candidates : List Implicant) (x : Nat) : Option (List Implicant) :=
  (List.range (bitLength x)).foldl
    (fun acc bit =>
      match acc with
      | none => none
      | some sol =>
          if (x >>> bit) &&& 1 = 1 then
            (candidates.get? bit).map (fun imp => sol ++ [imp])
          else
            some sol)
    (some [])

/-- `_find_minimal_expression_petricks_method`.  Returns the solutions of
minimal implicant count and, among those, minimal total literal count;
`none` models the crash paths on an uncoverable minterm (Python would
throw `TypeError` on `list(None)`). -/
def find_minimal_expression_petricks_method (variable_count : Nat) (pool : List Implicant)
    (remaining_sorted : List Nat) : Option (List (List Implicant)) :=
  let candidates := petrick_candidates pool remaining_sorted
  let clauses := remaining_sorted.map (fun m =>
    ((implicants_fulfilling pool m).map (fun imp => 1 <<< candidates.indexOf imp)).dedup)
  let possible : Option (List Nat) := clauses.foldl
    (fun acc clause =>
      match acc with
      | none => some clause
      | some sols => some (absorb ((sols.flatMap (fun a => clause.map (fun b => a ||| b))).dedup)))
    none
  match possible with
  | none => none
  | some sols =>
      match filter_min_bit_count sols with
      | none => none
      | some filtered =>
          match filtered.mapM (decode_solution candidates) with
          | none => none
          | some decoded =>
              let categorized := decoded.map (fun imps =>
                ((imps.map (Implicant.literal_count variable_count)).sum, imps))
              match (categorized.map (fun p => p.1)).min? with
              | none => none
              | some mn =>
                  some (((categorized.filter (fun p => p.1 = mn)).map (fun p => p.2)))

/-- The mandatory minterm set of the pipeline: indices whose entry is High
in DNF direction, Low in CNF direction. -/
def mandatorySet (entries : List Entry) (emit_dnf : Bool) : Finset Nat :=
  ((entries.enum.filter (fun p =>
    if emit_dnf then p.2 = Entry.High else p.2 = Entry.Low)).map (fun p => p.1)).toFinset

/-- The don't-care minterm set of the pipeline. -/
def dcSet (entries : List Entry) : Finset Nat :=
  ((entries.enum.filter (fun p => p.2 = Entry.DontCare)).map (fun p => p.1)).toFinset

/-- The body of `all_solutions` after the output column has been read. -/
def all_solutions_core (input_variable_names : List String) (variable_count : Nat)
    (entries : List Entry) (emit_dnf : Bool) :
    Option (ParseTreeElement ⊕ QuineMcCluskeySolution) :=
  let expr_minterms := mandatorySet entries emit_dnf
  let dc_minterms := dcSet entries
  let minterms := expr_minterms ∪ dc_minterms
  let size_one := create_size_one_implicants
    ((List.range entries.length).filter (fun i => i ∈ minterms))
  if size_one.isEmpty then
    some (Sum.inl (ParseTreeElement.Constant (if emit_dnf then 0 else 1)))
  else
    let groups := merge_stages variable_count size_one
    let pool := (eliminate_suboptimal groups).flatten
    let required_minterms := determine_required_minterms pool expr_minterms
    let pair := eliminate_required_implicants pool required_minterms
    let required_implicants := pair.1
    let pool2 := pair.2
    let remaining := compute_remaining_minterms expr_minterms required_implicants
    let remaining_sorted := (List.range entries.length).filter (fun i => i ∈ remaining)
    match (if remaining_sorted.isEmpty then
        some [[]]
      else
        find_minimal_expression_petricks_method variable_count pool2
          remaining_sorted) with
    | none => none
    | some optimal =>
        some (Sum.inr
          { mode_dnf := emit_dnf
            input_variable_names := input_variable_names
            required_implicants := required_implicants
            additional_implicants := optimal })

/-- `all_solutions`: the full pipeline.  The result is `Constant(0)` /
`Constant(1)` when there is no minterm at all (High/Low or DontCare),
otherwise a solution object; `none` models an internal raise (unknown
output name, or a crash inside Petrick's method). -/
def all_solutions (vt : ValueTable) (variable_name : String) (emit_dnf : Bool) :
    Option (ParseTreeElement ⊕ QuineMcCluskeySolution) :=
  match vt.iter_output_variable variable_name with
  | none => none
  | some entries =>
      all_solutions_core vt.input_variable_names vt.input_variable_count entries emit_dnf

/-- The expressions a consumer obtains by iterating the result of
`all_solutions`: iterating the `Constant` edge-case result traverses the
single node, iterating a solution object runs `__iter__`. -/
def all_solution_exprs (res : Option (ParseTreeElement ⊕ QuineMcCluskeySolution)) :
    List (Option ParseTreeElement) :=
  match res with
  | none => []
  | some (Sum.inl c) => [some c]
  | some (Sum.inr sol) => sol.exprList

/-- `optimize`: `any_solution` of the result.  On the `Constant` edge case
the Python attribute access raises `AttributeError` (`none` here); on a
solution object it is the first generated expression. -/
def optimize (vt : ValueTable) (variable_name : String) (emit_dnf : Bool) :
    Option ParseTreeElement :=
  match all_solutions vt variable_name emit_dnf with
  | some (Sum.inr sol) =>
      match sol.exprList with
      | e :: _ => e
      | [] => none
  | _ => none

end QuineMcCluskey

/-! ### Lemmas about the packed storage -/

namespace CompactStorage

theorem iterAux_length (n : Nat) : ∀ v, (iterAux n v).length = n := by
  induction n with
  | zero => intro v; rfl
  | succ n ih => intro v; simp [iterAux, ih]

theorem entryList_length (s : CompactStorage) :
    s.entryList.length = 2 ^ s.variable_count := by
  unfold entryList
  rw [iterAux_length]
  rfl

theorem iterAux_get? (n : Nat) : ∀ v i, (iterAux n v).get? i =
    if i < n then some (entryOfNat ((v >>> (2 * i)) &&& 3)) else none := by
  induction n with
  | zero => intro v i; simp [iterAux]
  | succ n ih =>
    intro v i
    cases i with
    | zero => simp [iterAux]
    | succ i =>
      simp only [iterAux, List.get?_cons_succ, ih (v >>> 2) i]
      have hsh : (v >>> 2) >>> (2 * i) = v >>> (2 * (i + 1)) := by
        rw [← Nat.shiftRight_add]
        congr 1
        omega
      rw [hsh]
      by_cases h : i < n
      · simp [h, Nat.succ_lt_succ h]
      · simp [h, fun hh => h (Nat.lt_of_succ_lt_succ hh)]

theorem entryList_get? (s : CompactStorage) (i : Nat) :
    s.entryList.get? i = if i < s.table_entry_count then some (s.getItem i) else none := by
  unfold entryList getItem
  rw [iterAux_get? ]

/-- Bit `t` of the two-bit extract at position `p`. -/
theorem testBit_extract (v p t : Nat) :
    ((v >>> p) &&& 3).testBit t = (decide (t < 2) && v.testBit (p + t)) := by
  rw [Nat.testBit_land, Nat.testBit_shiftRight]
  have h3 : (3 : Nat) = 2 ^ 2 - 1 := rfl
  rw [h3, Nat.testBit_two_pow_sub_one]
  cases Bool.eq_false_or_eq_true (v.testBit (p + t)) with
  | inl h => simp [h]
  | inr h => simp [h, Bool.and_comm]

theorem toEntryNat_le_three (v : SetValue) (nv : Nat) (h : v.toEntryNat = some nv) :
    nv < 4 := by
  cases v with
  | entry e => cases e <;> simp [SetValue.toEntryNat, Entry.toNat] at h <;> omega
  | num n =>
      match n with
      | 0 => simp [SetValue.toEntryNat] at h; omega
      | 1 => simp [SetValue.toEntryNat] at h; omega
      | (k + 2) => simp [SetValue.toEntryNat] at h
  | str s =>
      simp only [SetValue.toEntryNat] at h
      split_ifs at h <;> simp_all <;> omega

/-- The new packed value after a successful `__setitem__`. -/
theorem setItem_eq (s : CompactStorage) (index : Nat) (v : SetValue) (nv : Nat)
    (hv : v.toEntryNat = some nv) (hi : index < s.table_entry_count) :
    s.setItem index v =
      some ⟨s.variable_count, natAndNot s.value (3 <<< (2 * index)) ||| (nv <<< (2 * index))⟩ := by
  unfold setItem
  rw [hv]
  simp [hi]

/-- Two-bit extract of the written value at the written position. -/
theorem extract_set_self (val index nv : Nat) (hnv : nv < 4) :
    ((natAndNot val (3 <<< (2 * index)) ||| (nv <<< (2 * index))) >>> (2 * index)) &&& 3 = nv := by
  apply Nat.eq_of_testBit_eq
  intro t
  rw [testBit_extract]
  by_cases ht : t < 2
  · rw [Nat.testBit_lor, testBit_natAndNot, Nat.testBit_shiftLeft, Nat.testBit_shiftLeft]
    have hge : 2 * index + t ≥ 2 * index := by omega
    have hsub : 2 * index + t - 2 * index = t := by omega
    have hm3 : (3 : Nat) = 2 ^ 2 - 1 := rfl
    rw [hsub, hm3, Nat.testBit_two_pow_sub_one]
    simp [hge, ht]
  · have h1 : nv.testBit t = false := testBit_eq_false_of_lt (by omega : nv < 2 ^ 2) (by omega)
    simp [ht, h1]

/-- Two-bit extract elsewhere is untouched by a write. -/
theorem extract_set_other (val index j nv : Nat) (hnv : nv < 4) (hij : j ≠ index) :
    ((natAndNot val (3 <<< (2 * index)) ||| (nv <<< (2 * index))) >>> (2 * j)) &&& 3 =
      (val >>> (2 * j)) &&& 3 := by
  apply Nat.eq_of_testBit_eq
  intro t
  rw [testBit_extract, testBit_extract]
  by_cases ht : t < 2
  · rw [Nat.testBit_lor, testBit_natAndNot, Nat.testBit_shiftLeft, Nat.testBit_shiftLeft]
    have hm3 : (3 : Nat) = 2 ^ 2 - 1 := rfl
    have hmaskbit :
        (decide (2 * j + t ≥ 2 * index) && Nat.testBit 3 (2 * j + t - 2 * index)) = false := by
      by_cases hge : 2 * j + t ≥ 2 * index
      · have hbig : ¬ (2 * j + t - 2 * index < 2) := by omega
        rw [hm3, Nat.testBit_two_pow_sub_one]
        simp [hbig]
      · simp [hge]
    have hnvbit :
        (decide (2 * j + t ≥ 2 * index) && nv.testBit (2 * j + t - 2 * index)) = false := by
      by_cases hge : 2 * j + t ≥ 2 * index
      · have hb : nv.testBit (2 * j + t - 2 * index) = false :=
          testBit_eq_false_of_lt (show nv < 2 ^ 2 by omega) (by omega)
        simp [hb]
      · simp [hge]
    rw [hmaskbit, hnvbit]
    simp
  · simp [ht]

end CompactStorage

/-- C9: for every storage, in-range index and admissible written value,
`set` followed by `get` at the same index returns the entry the value
converts to (DontCare for `"*"`, the entry itself for an entry argument),
every other index reads exactly what it read before, and the storage holds
exactly `2^k` entries before and after. -/
theorem claim_C9 (s : CompactStorage) (index : Nat) (v : CompactStorage.SetValue) (nv : Nat)
    (hv : v.toEntryNat = some nv) (hi : index < s.table_entry_count) :
    ∃ s2, s.setItem index v = some s2 ∧
      s2.getItem index = entryOfNat nv ∧
      (v = CompactStorage.SetValue.str "*" → s2.getItem index = Entry.DontCare) ∧
      (∀ e, v = CompactStorage.SetValue.entry e → s2.getItem index = e) ∧
      (∀ j, j ≠ index → s2.getItem j = s.getItem j) ∧
      s2.entryList.length = 2 ^ s.variable_count ∧
      s.entryList.length = 2 ^ s.variable_count := by
  have hnv : nv < 4 := CompactStorage.toEntryNat_le_three v nv hv
  rw [CompactStorage.setItem_eq s index v nv hv hi]
  refine ⟨_, rfl, ?_, ?_, ?_, ?_, ?_, ?_⟩
  · unfold CompactStorage.getItem
    simp only
    rw [CompactStorage.extract_set_self s.value index nv hnv]
  · intro hstar
    unfold CompactStorage.getItem
    simp only
    rw [CompactStorage.extract_set_self s.value index nv hnv]
    subst hstar
    simp [CompactStorage.SetValue.toEntryNat] at hv
    rw [← hv]
    rfl
  · intro e he
    unfold CompactStorage.getItem
    simp only
    rw [CompactStorage.extract_set_self s.value index nv hnv]
    subst he
    simp [CompactStorage.SetValue.toEntryNat] at hv
    rw [← hv]
    cases e <;> rfl
  · intro j hj
    unfold CompactStorage.getItem
    simp only
    rw [CompactStorage.extract_set_other s.value index j nv hnv hj]
  · rw [CompactStorage.entryList_length]
  · rw [CompactStorage.entryList_length]

/-- Witness for C9 at a concrete storage: writing `"*"` into cell 0 of a
fresh one-variable storage. -/
theorem claim_C9_witness :
    ∃ s2, (CompactStorage.init 1).setItem 0 (CompactStorage.SetValue.str "*") = some s2 ∧
      s2.getItem 0 = entryOfNat 2 ∧
      (CompactStorage.SetValue.str "*" = CompactStorage.SetValue.str "*" →
        s2.getItem 0 = Entry.DontCare) ∧
      (∀ e, CompactStorage.SetValue.str "*" = CompactStorage.SetValue.entry e →
        s2.getItem 0 = e) ∧
      (∀ j, j ≠ 0 → s2.getItem j = (CompactStorage.init 1).getItem j) ∧
      s2.entryList.length = 2 ^ (CompactStorage.init 1).variable_count ∧
      (CompactStorage.init 1).entryList.length = 2 ^ (CompactStorage.init 1).variable_count :=
  claim_C9 (CompactStorage.init 1) 0 (CompactStorage.SetValue.str "*") 2 (by decide) (by decide)

/-! ### Index and assignment mappings (C8) -/

theorem and_one_eq_mod (x : Nat) : x &&& 1 = x % 2 := by
  have h := Nat.and_pow_two_sub_one_eq_mod x 1
  rw [show (2 : Nat) ^ 1 - 1 = 1 from rfl, show (2 : Nat) ^ 1 = 2 from rfl] at h
  exact h

theorem shiftRight_and_one (x b : Nat) :
    (x >>> b) &&& 1 = if x.testBit b then 1 else 0 := by
  rw [and_one_eq_mod, Nat.shiftRight_eq_div_pow, Nat.testBit_to_div_mod]
  rcases Nat.mod_two_eq_zero_or_one (x / 2 ^ b) with h | h <;> simp [h]

/-- MSB-first binary value of a bit list. -/
def natOfBits (bs : List Nat) : Nat := bs.foldl (fun acc b => 2 * acc + b) 0

theorem natOfBits_go (bs : List Nat) : ∀ a,
    bs.foldl (fun acc b => 2 * acc + b) a = a * 2 ^ bs.length + natOfBits bs := by
  induction bs with
  | nil => intro a; simp [natOfBits]
  | cons b bs ih =>
    intro a
    have hb : natOfBits (b :: bs) = b * 2 ^ bs.length + natOfBits bs := by
      unfold natOfBits
      rw [List.foldl_cons, ih (2 * 0 + b), ih 0]
      ring
    rw [List.foldl_cons, ih (2 * a + b), hb]
    generalize natOfBits bs = n
    simp [List.length_cons, pow_succ]
    ring

theorem natOfBits_cons (b : Nat) (bs : List Nat) :
    natOfBits (b :: bs) = b * 2 ^ bs.length + natOfBits bs := by
  unfold natOfBits
  rw [List.foldl_cons, natOfBits_go bs (2 * 0 + b), natOfBits_go bs 0]
  ring

theorem natOfBits_lt (bs : List Nat) (h : ∀ b ∈ bs, b ≤ 1) :
    natOfBits bs < 2 ^ bs.length := by
  induction bs with
  | nil => simp [natOfBits]
  | cons b bs ih =>
    have hb : b ≤ 1 := h b (List.mem_cons_self b bs)
    have hrest := ih (fun x hx => h x (List.mem_cons_of_mem b hx))
    rw [natOfBits_cons]
    have : 2 ^ (b :: bs).length = 2 ^ bs.length + 2 ^ bs.length := by
      simp [List.length_cons, pow_succ]
      ring
    rw [this]
    have hble : b * 2 ^ bs.length ≤ 2 ^ bs.length := by
      calc b * 2 ^ bs.length ≤ 1 * 2 ^ bs.length := Nat.mul_le_mul_right _ hb
        _ = 2 ^ bs.length := one_mul _
    omega

/-- The MSB-first bit list of an index (the body of `index_to_list`). -/
def bitsMSB (k i : Nat) : List Nat :=
  ((List.range k).reverse).map (fun b => (i >>> b) &&& 1)

theorem index_to_list_eq_bitsMSB (vt : ValueTable) (i : Nat) :
    vt.index_to_list i = bitsMSB vt.input_variable_count i := rfl

theorem bitsMSB_length (k i : Nat) : (bitsMSB k i).length = k := by
  simp [bitsMSB]

theorem bitsMSB_le_one (k i : Nat) : ∀ b ∈ bitsMSB k i, b ≤ 1 := by
  intro b hb
  simp only [bitsMSB, List.mem_map] at hb
  obtain ⟨p, _, hp⟩ := hb
  rw [← hp, and_one_eq_mod]
  omega

theorem bitsMSB_succ (k i : Nat) :
    bitsMSB (k + 1) i = ((i >>> k) &&& 1) :: bitsMSB k (i % 2 ^ k) := by
  unfold bitsMSB
  rw [List.range_succ, List.reverse_append]
  simp only [List.reverse_cons, List.reverse_nil, List.nil_append, List.map_cons,
    List.map_append, List.singleton_append, List.cons_append]
  congr 1
  apply List.map_congr_left
  intro b hb
  have hbk : b < k := by
    rw [List.mem_reverse, List.mem_range] at hb
    exact hb
  rw [shiftRight_and_one, shiftRight_and_one, Nat.testBit_mod_two_pow]
  simp [hbk]

theorem natOfBits_bitsMSB (k : Nat) : ∀ i, i < 2 ^ k → natOfBits (bitsMSB k i) = i := by
  induction k with
  | zero =>
    intro i hi
    have : i = 0 := by omega
    subst this
    rfl
  | succ k ih =>
    intro i hi
    rw [bitsMSB_succ, natOfBits_cons, bitsMSB_length,
      ih (i % 2 ^ k) (Nat.mod_lt _ (Nat.pos_pow_of_pos _ two_pos))]
    rw [and_one_eq_mod, Nat.shiftRight_eq_div_pow]
    have h2 : 2 ^ (k + 1) = 2 ^ k * 2 := pow_succ 2 k
    have hdivlt : i / 2 ^ k < 2 := by
      apply Nat.div_lt_of_lt_mul
      omega
    rw [Nat.mod_eq_of_lt hdivlt]
    exact Nat.div_add_mod' i (2 ^ k)

theorem bitsMSB_natOfBits : ∀ (bs : List Nat), (∀ b ∈ bs, b ≤ 1) →
    bitsMSB bs.length (natOfBits bs) = bs := by
  intro bs
  induction bs with
  | nil => intro _; rfl
  | cons b bs ih =>
    intro h
    have hb : b ≤ 1 := h b (List.mem_cons_self b bs)
    have hrest : ∀ x ∈ bs, x ≤ 1 := fun x hx => h x (List.mem_cons_of_mem b hx)
    have hlt : natOfBits bs < 2 ^ bs.length := natOfBits_lt bs hrest
    have hval : natOfBits (b :: bs) = b * 2 ^ bs.length + natOfBits bs := natOfBits_cons b bs
    rw [List.length_cons, bitsMSB_succ, hval]
    have hpos : 0 < 2 ^ bs.length := Nat.pos_pow_of_pos _ two_pos
    have hdiv : (b * 2 ^ bs.length + natOfBits bs) >>> bs.length = b := by
      rw [Nat.shiftRight_eq_div_pow, Nat.add_comm, Nat.add_mul_div_right _ _ hpos,
        Nat.div_eq_of_lt hlt]
      omega
    have hmod : (b * 2 ^ bs.length + natOfBits bs) % 2 ^ bs.length = natOfBits bs := by
      rw [Nat.add_comm, Nat.add_mul_mod_self_right, Nat.mod_eq_of_lt hlt]
    rw [hdiv, hmod, ih hrest, and_one_eq_mod]
    congr 1
    omega

/-- The total weight a successful `dict_to_index` fold accumulates. -/
def sumWeights (w : String → Option Nat) (l : List (String × Nat)) : Nat :=
  (l.map (fun p => if p.2 = 1 then (w p.1).getD 0 else 0)).sum

theorem dict_foldlM_eq (w : String → Option Nat) :
    ∀ (l : List (String × Nat)), (∀ p ∈ l, p.2 = 1 → (w p.1).isSome) → ∀ acc,
    l.foldlM (fun acc p => if p.2 = 1 then (w p.1).map (acc + ·) else some acc) acc
      = some (acc + sumWeights w l) := by
  intro l
  induction l with
  | nil => intro _ acc; simp [sumWeights]
  | cons p l ih =>
    intro h acc
    have hl : ∀ q ∈ l, q.2 = 1 → (w q.1).isSome := fun q hq => h q (List.mem_cons_of_mem p hq)
    by_cases hp : p.2 = 1
    · obtain ⟨wv, hwv⟩ := Option.isSome_iff_exists.mp (h p (List.mem_cons_self p l) hp)
      have hstep : (p :: l).foldlM
          (fun acc p => if p.2 = 1 then (w p.1).map (acc + ·) else some acc) acc =
          l.foldlM (fun acc p => if p.2 = 1 then (w p.1).map (acc + ·) else some acc) (acc + wv) := by
        simp [List.foldlM_cons, hp, hwv]
      rw [hstep, ih hl (acc + wv)]
      unfold sumWeights
      simp [hp, hwv, Nat.add_assoc]
    · have hstep : (p :: l).foldlM
          (fun acc p => if p.2 = 1 then (w p.1).map (acc + ·) else some acc) acc =
          l.foldlM (fun acc p => if p.2 = 1 then (w p.1).map (acc + ·) else some acc) acc := by
        simp [List.foldlM_cons, hp]
      rw [hstep, ih hl acc]
      unfold sumWeights
      simp [hp]

theorem dict_to_index_eq_sumWeights (vt : ValueTable) (d : List (String × Nat))
    (hw : ∀ p ∈ d, p.2 = 1 → p.1 ∈ vt.input_variable_names) :
    vt.dict_to_index d = some (sumWeights vt.index_weight d) := by
  unfold ValueTable.dict_to_index
  rw [dict_foldlM_eq vt.index_weight d (fun p hp h1 => by
    unfold ValueTable.index_weight
    simp [hw p hp h1])]
  simp

theorem zip_map_sum {α β : Type} (dx : α) (dy : β) :
    ∀ (xs : List α) (ys : List β) (h : α × β → Nat),
    ((xs.zip ys).map h).sum =
      ∑ j ∈ Finset.range (min xs.length ys.length), h (xs.getD j dx, ys.getD j dy) := by
  intro xs
  induction xs with
  | nil => intro ys h; simp
  | cons x xs ih =>
    intro ys h
    cases ys with
    | nil => simp
    | cons y ys =>
      have hmin : min (x :: xs).length (y :: ys).length = min xs.length ys.length + 1 := by
        simp [List.length_cons, Nat.succ_min_succ]
      rw [List.zip_cons_cons, List.map_cons, List.sum_cons, ih ys h, hmin,
        Finset.sum_range_succ']
      simp only [List.getD_cons_succ, List.getD_cons_zero]
      omega

/-- Sum form of `natOfBits`. -/
theorem natOfBits_eq_sum (bs : List Nat) :
    natOfBits bs = ∑ j ∈ Finset.range bs.length, bs.getD j 0 * 2 ^ (bs.length - 1 - j) := by
  induction bs with
  | nil => simp [natOfBits]
  | cons b bs ih =>
    rw [natOfBits_cons, List.length_cons, Finset.sum_range_succ']
    simp only [List.getD_cons_succ, List.getD_cons_zero]
    have he1 : bs.length + 1 - 1 - 0 = bs.length := by omega
    have he2 : ∀ j, bs.length + 1 - 1 - (j + 1) = bs.length - 1 - j := fun j => by omega
    simp only [he1, he2]
    rw [← ih]
    omega

/-- Core weighted-sum computation: the `_index_weights` fold over the
declared variable order evaluates to the MSB-first binary value. -/
theorem sumWeights_zip (vt : ValueTable) (hnodup : vt.input_variable_names.Nodup)
    (bs : List Nat) (hlen : bs.length = vt.input_variable_count)
    (hle : ∀ b ∈ bs, b ≤ 1) :
    sumWeights vt.index_weight (vt.input_variable_names.zip bs) = natOfBits bs := by
  unfold sumWeights
  rw [zip_map_sum "" 0]
  have hmin : min vt.input_variable_names.length bs.length = vt.input_variable_count := by
    rw [hlen]; simp [ValueTable.input_variable_count]
  rw [hmin, natOfBits_eq_sum, hlen]
  apply Finset.sum_congr rfl
  intro j hj
  rw [Finset.mem_range] at hj
  have hjn : j < vt.input_variable_names.length := hj
  have hjb : j < bs.length := by rw [hlen]; exact hj
  have hname : vt.input_variable_names.getD j "" = vt.input_variable_names[j] :=
    List.getD_eq_getElem _ _ hjn
  have hbit : bs.getD j 0 = bs[j] := List.getD_eq_getElem _ _ hjb
  rw [hname, hbit]
  have hmem : vt.input_variable_names[j] ∈ vt.input_variable_names := List.getElem_mem hjn
  have hweight : vt.index_weight vt.input_variable_names[j] =
      some (1 <<< (vt.input_variable_count - 1 - j)) := by
    unfold ValueTable.index_weight
    rw [if_pos hmem, List.indexOf_getElem hnodup j hjn]
  rw [hweight]
  have hble : bs[j] ≤ 1 := hle _ (List.getElem_mem hjb)
  have hpow : (1 : Nat) <<< (vt.input_variable_count - 1 - j) =
      2 ^ (vt.input_variable_count - 1 - j) := by
    rw [Nat.shiftLeft_eq, one_mul]
  interval_cases h : bs[j] <;> simp [hpow]

/-- `lookup` agrees with membership on key-nodup association lists. -/
theorem lookup_eq_some_iff : ∀ {l : List (String × Nat)}, (l.map Prod.fst).Nodup →
    ∀ (a : String) (b : Nat), (l.lookup a = some b ↔ (a, b) ∈ l) := by
  intro l
  induction l with
  | nil => intro _ a b; simp [List.lookup]
  | cons p l ih =>
    intro hnodup a b
    obtain ⟨k, v⟩ := p
    rw [List.map_cons, List.nodup_cons] at hnodup
    by_cases hk : a = k
    · subst hk
      simp only [List.lookup, beq_self_eq_true]
      constructor
      · intro h
        have hb : v = b := by
          injection h
        exact List.mem_cons.mpr (Or.inl (by rw [← hb]))
      · intro h
        cases List.mem_cons.mp h with
        | inl heq =>
            have hb : b = v := by
              have hsnd := congrArg Prod.snd heq
              simpa using hsnd
            rw [hb]
        | inr hmem =>
            exact absurd (List.mem_map.mpr ⟨(a, b), hmem, rfl⟩) hnodup.1
    · have hbeq : (a == k) = false := by
        simp [hk]
      simp only [List.lookup, hbeq]
      rw [ih hnodup.2 a b]
      constructor
      · exact fun h => List.mem_cons_of_mem _ h
      · intro h
        cases List.mem_cons.mp h with
        | inl heq =>
            exfalso
            have hfst := congrArg Prod.fst heq
            simp at hfst
            exact hk hfst
        | inr hmem => exact hmem

theorem lookup_eq_none_iff (l : List (String × Nat)) (a : String) :
    l.lookup a = none ↔ a ∉ l.map Prod.fst := by
  induction l with
  | nil => simp [List.lookup]
  | cons p l ih =>
    obtain ⟨k, v⟩ := p
    by_cases hk : a = k
    · subst hk
      simp [List.lookup]
    · have hbeq : (a == k) = false := by simp [hk]
      simp only [List.lookup, hbeq, List.map_cons, List.mem_cons]
      rw [ih]
      simp [hk]

/-- Dict lookup is invariant under permutation given nodup keys. -/
theorem lookup_perm {l₁ l₂ : List (String × Nat)} (hperm : l₁.Perm l₂)
    (hnodup : (l₁.map Prod.fst).Nodup) (a : String) :
    l₁.lookup a = l₂.lookup a := by
  have hnodup₂ : (l₂.map Prod.fst).Nodup := ((hperm.map Prod.fst).nodup_iff).mp hnodup
  cases hcase : l₁.lookup a with
  | some b =>
      have hmem : (a, b) ∈ l₁ := (lookup_eq_some_iff hnodup a b).mp hcase
      exact ((lookup_eq_some_iff hnodup₂ a b).mpr (hperm.mem_iff.mp hmem)).symm
  | none =>
      have hkeys : a ∉ l₁.map Prod.fst := (lookup_eq_none_iff l₁ a).mp hcase
      have : a ∉ l₂.map Prod.fst := fun h =>
        hkeys ((hperm.map Prod.fst).mem_iff.mpr h)
      exact ((lookup_eq_none_iff l₂ a).mpr this).symm

theorem index_to_dict_eq_zip (vt : ValueTable) (i : Nat) :
    vt.index_to_dict i =
      vt.input_variable_names.zip (bitsMSB vt.input_variable_count i) := rfl

/-- C8: with distinct declared input variables, `dict_to_index` and
`index_to_dict` are mutually inverse: every index below `2^k` round-trips
through its assignment dict, and every total 0/1 assignment of the
declared variables round-trips through its index (as a dict: same key
set, same values), the index being the MSB-first bit-weighted sum. -/
theorem claim_C8 (vt : ValueTable) (hnodup : vt.input_variable_names.Nodup) :
    (∀ i, i < 2 ^ vt.input_variable_count →
      vt.dict_to_index (vt.index_to_dict i) = some i) ∧
    (∀ d : List (String × Nat), (d.map Prod.fst).Perm vt.input_variable_names →
      (∀ p ∈ d, p.2 ≤ 1) →
      ∃ i, vt.dict_to_index d = some i ∧ i < 2 ^ vt.input_variable_count ∧
        (vt.index_to_dict i).map Prod.fst = vt.input_variable_names ∧
        (∀ name ∈ vt.input_variable_names,
          (vt.index_to_dict i).lookup name = d.lookup name)) := by
  have hlen_names : vt.input_variable_names.length = vt.input_variable_count := rfl
  constructor
  · intro i hi
    rw [index_to_dict_eq_zip]
    have hw : ∀ p ∈ vt.input_variable_names.zip (bitsMSB vt.input_variable_count i),
        p.2 = 1 → p.1 ∈ vt.input_variable_names := by
      intro p hp _
      exact (List.of_mem_zip hp).1
    rw [dict_to_index_eq_sumWeights vt _ hw,
      sumWeights_zip vt hnodup _ (by rw [bitsMSB_length]) (bitsMSB_le_one _ i),
      natOfBits_bitsMSB _ i hi]
  · intro d hkeys hvals
    have hd_keys_nodup : (d.map Prod.fst).Nodup := (hkeys.nodup_iff).mpr hnodup
    have hd_nodup : d.Nodup := List.Nodup.of_map Prod.fst hd_keys_nodup
    set bs := vt.input_variable_names.map (fun n => (d.lookup n).getD 0) with hbs
    have hbs_len : bs.length = vt.input_variable_count := by
      rw [hbs, List.length_map, hlen_names]
    have hbs_le : ∀ b ∈ bs, b ≤ 1 := by
      intro b hb
      rw [hbs] at hb
      obtain ⟨n, _, hn⟩ := List.mem_map.mp hb
      cases hcase : d.lookup n with
      | none => rw [hcase] at hn; simp at hn; omega
      | some v =>
          have hmem : (n, v) ∈ d := (lookup_eq_some_iff hd_keys_nodup n v).mp hcase
          have := hvals (n, v) hmem
          rw [hcase] at hn
          simp at hn
          omega
    have hzip_keys : (vt.input_variable_names.zip bs).map Prod.fst =
        vt.input_variable_names :=
      List.map_fst_zip _ _ (by rw [hbs_len, hlen_names])
    have hzip_nodup : (vt.input_variable_names.zip bs).Nodup := by
      apply List.Nodup.of_map Prod.fst
      rw [hzip_keys]
      exact hnodup
    have hzip_len : (vt.input_variable_names.zip bs).length =
        vt.input_variable_names.length := by
      rw [List.length_zip, hbs_len, hlen_names]
      simp
    have hbsj : ∀ j, ∀ hj : j < vt.input_variable_names.length,
        bs.getD j 0 = (d.lookup vt.input_variable_names[j]).getD 0 := by
      intro j hj
      have hjb : j < bs.length := by rw [hbs_len, ← hlen_names]; exact hj
      rw [hbs] at hjb ⊢
      rw [List.getD_eq_getElem _ _ hjb, List.getElem_map]
    have hperm : d.Perm (vt.input_variable_names.zip bs) := by
      rw [List.perm_ext_iff_of_nodup hd_nodup hzip_nodup]
      intro x
      obtain ⟨a, v⟩ := x
      constructor
      · intro hx
        have hak : a ∈ d.map Prod.fst := List.mem_map.mpr ⟨(a, v), hx, rfl⟩
        have han : a ∈ vt.input_variable_names := hkeys.mem_iff.mp hak
        obtain ⟨j, hj, hja⟩ := List.mem_iff_getElem.mp han
        have hlook : d.lookup a = some v := (lookup_eq_some_iff hd_keys_nodup a v).mpr hx
        have hjz : j < (vt.input_variable_names.zip bs).length := by
          rw [hzip_len]; exact hj
        have hjb : j < bs.length := by rw [hbs_len, ← hlen_names]; exact hj
        have hget : (vt.input_variable_names.zip bs)[j] = (a, v) := by
          rw [List.getElem_zip]
          have hbval : bs[j] = v := by
            rw [← List.getD_eq_getElem bs 0 hjb, hbsj j hj, hja, hlook]
            rfl
          rw [hja, hbval]
        rw [← hget]
        exact List.getElem_mem hjz
      · intro hx
        obtain ⟨j, hjz, hget⟩ := List.mem_iff_getElem.mp hx
        rw [List.getElem_zip] at hget
        have hj : j < vt.input_variable_names.length := by
          rw [← hzip_len]
          exact hjz
        have hjb : j < bs.length := by rw [hbs_len, ← hlen_names]; exact hj
        have hja : vt.input_variable_names[j] = a := by
          have hfst := congrArg Prod.fst hget
          simpa using hfst
        have hbv : bs[j] = v := by
          have hsnd := congrArg Prod.snd hget
          simpa using hsnd
        have han : a ∈ vt.input_variable_names := by
          rw [← hja]; exact List.getElem_mem hj
        have hak : a ∈ d.map Prod.fst := hkeys.mem_iff.mpr han
        obtain ⟨p, hp, hpa⟩ := List.mem_map.mp hak
        have hlook : d.lookup a = some p.2 := by
          rw [← hpa]
          exact (lookup_eq_some_iff hd_keys_nodup p.1 p.2).mpr (by
            cases p
            exact hp)
        have hbp : bs[j] = p.2 := by
          rw [← List.getD_eq_getElem bs 0 hjb, hbsj j hj, hja, hlook]
          rfl
        have hvp : v = p.2 := by rw [← hbv, hbp]
        have hav : (a, v) = p := by
          cases p
          simp only [Prod.mk.injEq]
          exact ⟨by simpa using hpa.symm, by simpa using hvp⟩
        rw [hav]
        exact hp
    have hw : ∀ p ∈ d, p.2 = 1 → p.1 ∈ vt.input_variable_names := by
      intro p hp _
      exact hkeys.mem_iff.mp (List.mem_map.mpr ⟨p, hp, rfl⟩)
    refine ⟨natOfBits bs, ?_, ?_, ?_, ?_⟩
    · rw [dict_to_index_eq_sumWeights vt d hw]
      congr 1
      have hsum : sumWeights vt.index_weight d =
          sumWeights vt.index_weight (vt.input_variable_names.zip bs) := by
        unfold sumWeights
        exact (hperm.map _).sum_eq
      rw [hsum, sumWeights_zip vt hnodup bs hbs_len hbs_le]
    · have := natOfBits_lt bs hbs_le
      rw [hbs_len] at this
      exact this
    · rw [index_to_dict_eq_zip]
      have hbits : bitsMSB vt.input_variable_count (natOfBits bs) = bs := by
        rw [← hbs_len]
        exact bitsMSB_natOfBits bs hbs_le
      rw [hbits]
      exact hzip_keys
    · intro name _
      rw [index_to_dict_eq_zip]
      have hbits : bitsMSB vt.input_variable_count (natOfBits bs) = bs := by
        rw [← hbs_len]
        exact bitsMSB_natOfBits bs hbs_le
      rw [hbits]
      exact (lookup_perm hperm hd_keys_nodup name).symm

/-- Witness for C8: the two-variable table of `:A,B:Y:54`; index 2
round-trips, and the scrambled dict `{B: 0, A: 1}` maps to index 2 and
back. -/
theorem claim_C8_witness :
    (ValueTable.mk ["A", "B"] ["Y"] [⟨2, 0x54⟩]).dict_to_index
        ((ValueTable.mk ["A", "B"] ["Y"] [⟨2, 0x54⟩]).index_to_dict 2) = some 2 ∧
    ∃ i, (ValueTable.mk ["A", "B"] ["Y"] [⟨2, 0x54⟩]).dict_to_index [("B", 0), ("A", 1)] =
          some i ∧
        i < 2 ^ (ValueTable.mk ["A", "B"] ["Y"] [⟨2, 0x54⟩]).input_variable_count ∧
        ((ValueTable.mk ["A", "B"] ["Y"] [⟨2, 0x54⟩]).index_to_dict i).map Prod.fst =
          ["A", "B"] ∧
        (∀ name ∈ (["A", "B"] : List String),
          ((ValueTable.mk ["A", "B"] ["Y"] [⟨2, 0x54⟩]).index_to_dict i).lookup name =
            ([("B", 0), ("A", 1)] : List (String × Nat)).lookup name) :=
  ⟨(claim_C8 (ValueTable.mk ["A", "B"] ["Y"] [⟨2, 0x54⟩]) (by decide)).1 2 (by decide),
   (claim_C8 (ValueTable.mk ["A", "B"] ["Y"] [⟨2, 0x54⟩]) (by decide)).2
     [("B", 0), ("A", 1)] (by decide) (by decide)⟩

/-! ### C5: the canonical forms invert their literals (code bug)

`_cdnf` builds each product term with `~Variable(v) if input_values[v]
else Variable(v)`: the literal is negated exactly when the bit is 1, the
opposite of a minterm (compare `Implicant.as_mterm`, where a DNF literal
is negated iff the value bit is 0, and the older `digtool`
ActionSynthesize, which negates at 0-bits).  On the table `:A:Y:4`
(`Y = A`) the code returns `!A`, which evaluates to 0 at the High row. -/
theorem claim_C5_bug :
    (ValueTable.mk ["A"] ["Y"] [⟨1, 0x4⟩]).tableAt [("A", 1)] "Y" = some Entry.High ∧
    (ValueTable.mk ["A"] ["Y"] [⟨1, 0x4⟩]).cdnf "Y" =
      some (ParseTreeElement.UnaryOperator Operator.Not (ParseTreeElement.Variable "A")) ∧
    evaluate (ParseTreeElement.UnaryOperator Operator.Not (ParseTreeElement.Variable "A"))
      [("A", 1)] = some 0 ∧
    (ValueTable.mk ["A"] ["Y"] [⟨1, 0x4⟩]).tableAt [("A", 0)] "Y" = some Entry.Low ∧
    (ValueTable.mk ["A"] ["Y"] [⟨1, 0x4⟩]).ccnf "Y" =
      some (ParseTreeElement.UnaryOperator Operator.Not (ParseTreeElement.Variable "A")) := by
  decide

/-! ### C3: the empty-mandatory edge case tests the wrong set (code bug)

`all_solutions` returns `Constant(0)`/`Constant(1)` only when High **and**
DontCare minterms are both absent.  On a table whose output column is
entirely DontCare the mandatory set is empty but the pipeline runs,
produces a solution object with no implicants at all, and iterating it
raises `ValueError` from `BinaryOperator.join` on the empty sequence
(`optimize` propagates it); the spec promises totality and `Constant(0)`.
The storage `0xa` is two DontCare entries; `0x5` (constant-true table)
shows the same raise through an all-masked implicant. -/
theorem claim_C3_bug :
    ((ValueTable.mk ["A"] ["Y"] [⟨1, 0xa⟩]).iter_output_variable "Y" =
      some [Entry.DontCare, Entry.DontCare]) ∧
    QuineMcCluskey.all_solution_exprs
      (QuineMcCluskey.all_solutions (ValueTable.mk ["A"] ["Y"] [⟨1, 0xa⟩]) "Y" true) =
      [none] ∧
    QuineMcCluskey.all_solution_exprs
      (QuineMcCluskey.all_solutions (ValueTable.mk ["A"] ["Y"] [⟨1, 0xa⟩]) "Y" false) =
      [none] ∧
    QuineMcCluskey.optimize (ValueTable.mk ["A"] ["Y"] [⟨1, 0xa⟩]) "Y" true = none ∧
    QuineMcCluskey.all_solution_exprs
      (QuineMcCluskey.all_solutions (ValueTable.mk ["A"] ["Y"] [⟨1, 0x5⟩]) "Y" true) =
      [none] ∧
    QuineMcCluskey.all_solution_exprs
      (QuineMcCluskey.all_solutions (ValueTable.mk ["A"] ["Y"] [⟨1, 0x0⟩]) "Y" true) =
      [some (ParseTreeElement.Constant 0)] := by
  decide

/-! ### C4: rendering rule (claim corrected)

The claim states a literal is negated iff (value-bit XOR isCNF); the code
(`as_mterm`, `inverted = valuebit ^ minterm` with `minterm = not isCNF`)
negates iff (value-bit XOR isDNF).  Both rules are written down from the
claim words below and compared against `as_mterm`.
-/

/-- Modelled from the claim: literal negated iff (value-bit XOR isCNF). -/
def specLiteralClaimed (isCNF : Bool) (varname : String) (valueBit : Bool) :
    ParseTreeElement :=
  if xor valueBit isCNF then
    ParseTreeElement.UnaryOperator Operator.Not (ParseTreeElement.Variable varname)
  else
    ParseTreeElement.Variable varname

/-- Amended rule: literal negated iff (value-bit XOR isDNF). -/
def specLiteralAmended (isCNF : Bool) (varname : String) (valueBit : Bool) :
    ParseTreeElement :=
  if xor valueBit (!isCNF) then
    ParseTreeElement.UnaryOperator Operator.Not (ParseTreeElement.Variable varname)
  else
    ParseTreeElement.Variable varname

/-- Term rendering as the claim words it, parameterised by the literal
rule: one literal per unmasked position, none for masked positions, DNF
terms joined by And, CNF terms by Or. -/
def specRenderTerm (rule : Bool → String → Bool → ParseTreeElement) (imp : Implicant)
    (varNames : List String) (isCNF : Bool) : Option ParseTreeElement :=
  let literals := varNames.enum.filterMap (fun p =>
    let bit := varNames.length - 1 - p.1
    if (imp.mask >>> bit) &&& 1 = 0 then
      some (rule isCNF p.2 (decide ((imp.value >>> bit) &&& 1 ≠ 0)))
    else
      none)
  BinaryOperator.join (if isCNF then Operator.Or else Operator.And) literals

/-- Solution rendering as the claim words it: per chosen implicant a term
under the given literal rule, DNF solutions joined by Or, CNF solutions
by And. -/
def specSolutionExprs (rule : Bool → String → Bool → ParseTreeElement)
    (sol : QuineMcCluskeySolution) : List (Option ParseTreeElement) :=
  sol.additional_implicants.map (fun additional =>
    let chosen := ((sol.required_implicants ++ additional).dedup).insertionSort
      (fun a b => a.implicantLe b = true)
    if sol.mode_dnf then do
      let terms ← chosen.mapM (fun imp =>
        specRenderTerm rule imp sol.input_variable_names false)
      BinaryOperator.join Operator.Or terms
    else do
      let terms ← chosen.mapM (fun imp =>
        specRenderTerm rule imp sol.input_variable_names true)
      BinaryOperator.join Operator.And terms)

/-- C4 counterexample: the order-0 implicant of minterm 1 over one
variable renders in DNF as the plain literal `A` (value bit 1, not
negated), while the claimed rule (negated iff value-bit XOR isCNF)
demands `!A`. -/
theorem claim_C4_counterexample :
    Implicant.as_mterm ⟨{1}, 1, 0⟩ ["A"] true = some (ParseTreeElement.Variable "A") ∧
    specRenderTerm specLiteralClaimed ⟨{1}, 1, 0⟩ ["A"] false =
      some (ParseTreeElement.UnaryOperator Operator.Not (ParseTreeElement.Variable "A")) ∧
    Implicant.as_mterm ⟨{1}, 1, 0⟩ ["A"] true ≠
      specRenderTerm specLiteralClaimed ⟨{1}, 1, 0⟩ ["A"] false := by
  decide

theorem mapM_congr_option {α β : Type} (f g : α → Option β) :
    ∀ (l : List α), (∀ x ∈ l, f x = g x) → l.mapM f = l.mapM g := by
  intro l
  induction l with
  | nil => intro _; rfl
  | cons x l ih =>
    intro h
    rw [List.mapM_cons, List.mapM_cons, h x (List.mem_cons_self x l),
      ih (fun y hy => h y (List.mem_cons_of_mem x hy))]

/-- C4 amended: rendering follows the claim with the literal polarity
flipped — negated iff (value-bit XOR isDNF); masked positions contribute
no literal and the And/Or join structure is as claimed. -/
theorem claim_C4 :
    (∀ (imp : Implicant) (varNames : List String) (isCNF : Bool),
      imp.as_mterm varNames (!isCNF) = specRenderTerm specLiteralAmended imp varNames isCNF) ∧
    (∀ sol : QuineMcCluskeySolution,
      sol.exprList = specSolutionExprs specLiteralAmended sol) := by
  have hterm : ∀ (imp : Implicant) (varNames : List String) (isCNF : Bool),
      imp.as_mterm varNames (!isCNF) = specRenderTerm specLiteralAmended imp varNames isCNF := by
    intro imp varNames isCNF
    unfold Implicant.as_mterm specRenderTerm
    have hjoin : (if (!isCNF) = true then Operator.And else Operator.Or) =
        (if isCNF = true then Operator.Or else Operator.And) := by
      cases isCNF <;> rfl
    rw [hjoin]
    congr 1
  refine ⟨hterm, ?_⟩
  intro sol
  have htrue : ∀ imp : Implicant, imp.as_mterm sol.input_variable_names true =
      specRenderTerm specLiteralAmended imp sol.input_variable_names false := by
    intro imp
    have h := hterm imp sol.input_variable_names false
    simpa using h
  have hfalse : ∀ imp : Implicant, imp.as_mterm sol.input_variable_names false =
      specRenderTerm specLiteralAmended imp sol.input_variable_names true := by
    intro imp
    have h := hterm imp sol.input_variable_names true
    simpa using h
  unfold QuineMcCluskeySolution.exprList specSolutionExprs
  apply List.map_congr_left
  intro additional _
  cases hmode : sol.mode_dnf with
  | true =>
      simp only [if_true]
      rw [mapM_congr_option _ _ _ (fun imp _ => htrue imp)]
  | false =>
      simp only [Bool.false_eq_true, if_false]
      rw [mapM_congr_option _ _ _ (fun imp _ => hfalse imp)]

/-! ### C7: compare_to_expression -/

/-- Operator sanity as Python guarantees it for parser-built trees: the
unary node carries `Not` (its `evaluate` asserts this), binary nodes carry
a table operator. -/
def ops_valid : ParseTreeElement → Bool
  | .Variable _ => true
  | .Constant _ => true
  | .UnaryOperator op rhs => (op = Operator.Not) && ops_valid rhs
  | .BinaryOperator lhs op rhs => (op ≠ Operator.Not) && ops_valid lhs && ops_valid rhs
  | .Parenthesis inner => ops_valid inner

theorem varList_subset_variablesOf (e : ParseTreeElement) :
    ∀ v ∈ varList e, v ∈ variablesOf e := by
  intro v hv
  unfold variablesOf
  have hperm := List.perm_insertionSort (fun a b => strLe a b = true) (varList e).dedup
  rw [hperm.mem_iff, List.mem_dedup]
  exact hv

theorem evaluate_isSome (e : ParseTreeElement) (d : List (String × Nat))
    (hops : ops_valid e = true)
    (hlook : ∀ v ∈ varList e, (d.lookup v).isSome) : (evaluate e d).isSome := by
  induction e with
  | Variable v => exact hlook v (by simp [varList])
  | Constant c => simp [evaluate]
  | UnaryOperator op rhs ih =>
      unfold ops_valid at hops
      rw [Bool.and_eq_true] at hops
      have hop : op = Operator.Not := by
        have := hops.1
        simpa using this
      have hrhs := ih hops.2 (fun v hv => hlook v (by simpa [varList] using hv))
      obtain ⟨x, hx⟩ := Option.isSome_iff_exists.mp hrhs
      simp [evaluate, hop, hx]
  | BinaryOperator lhs op rhs ihl ihr =>
      unfold ops_valid at hops
      rw [Bool.and_eq_true, Bool.and_eq_true] at hops
      have hop : op ≠ Operator.Not := by
        have := hops.1.1
        simpa using this
      have hl := ihl hops.1.2 (fun v hv => hlook v (by simp [varList]; exact Or.inl hv))
      have hr := ihr hops.2 (fun v hv => hlook v (by simp [varList]; exact Or.inr hv))
      obtain ⟨x, hx⟩ := Option.isSome_iff_exists.mp hl
      obtain ⟨y, hy⟩ := Option.isSome_iff_exists.mp hr
      cases op <;> first
        | exact absurd rfl hop
        | simp [evaluate, hx, hy]
  | Parenthesis inner ih =>
      exact ih hops (fun v hv => hlook v hv)

theorem bit_indicator (j b : Nat) :
    (if j &&& (1 <<< b) ≠ 0 then 1 else 0) = (j >>> b) &&& 1 := by
  rw [shiftRight_and_one]
  have hpow : (1 : Nat) <<< b = 2 ^ b := by rw [Nat.shiftLeft_eq, one_mul]
  rw [hpow]
  have hand := Nat.and_two_pow j b
  rw [hand]
  cases htb : j.testBit b <;> simp [htb]

/-- The assignment dict built by `table()` is the zip of the sorted
variables with the MSB-first index bits. -/
theorem tableOf_dict_eq (vars : List String) (j : Nat) :
    vars.enum.map (fun p =>
      (p.2, if j &&& (1 <<< (vars.length - 1 - p.1)) ≠ 0 then 1 else 0)) =
    vars.zip (bitsMSB vars.length j) := by
  apply List.ext_get?
  intro n
  by_cases hn : n < vars.length
  · have hlen_enum : vars.enum.length = vars.length := List.enum_length
    have hlen_bits : (bitsMSB vars.length j).length = vars.length := bitsMSB_length _ _
    have hlen_zip : (vars.zip (bitsMSB vars.length j)).length = vars.length := by
      rw [List.length_zip, hlen_bits]
      simp
    rw [List.get?_eq_getElem?]
    rw [List.get?_eq_getElem?]
    rw [List.getElem?_eq_getElem (by rw [List.length_map, hlen_enum]; exact hn),
      List.getElem?_eq_getElem (by rw [hlen_zip]; exact hn)]
    congr 1
    rw [List.getElem_map, List.getElem_zip]
    have hn1 : n < vars.enum.length := by rw [hlen_enum]; exact hn
    have hn2 : n < (bitsMSB vars.length j).length := by rw [hlen_bits]; exact hn
    have henum : vars.enum[n] = (n, vars[n]) := by
      simp [List.getElem_enum]
    rw [henum]
    simp only
    congr 1
    have hbit : (bitsMSB vars.length j)[n] =
        (j >>> (vars.length - 1 - n)) &&& 1 := by
      unfold bitsMSB
      rw [List.getElem_map]
      congr 1
      rw [List.getElem_reverse]
      rw [List.getElem_range]
      simp
    rw [hbit]
    exact bit_indicator j (vars.length - 1 - n)
  · have h1 : vars.enum.length ≤ n := by rw [List.enum_length]; omega
    have h2 : (vars.zip (bitsMSB vars.length j)).length ≤ n := by
      rw [List.length_zip, bitsMSB_length]
      simp
      omega
    rw [List.get?_eq_getElem?, List.get?_eq_getElem?, List.getElem?_eq_none (by
        rw [List.length_map]; exact h1),
      List.getElem?_eq_none h2]

theorem tableOf_get? (e : ParseTreeElement) (j : Nat)
    (hj : j < 2 ^ (variablesOf e).length) :
    (tableOf e).get? j = some ((variablesOf e).zip (bitsMSB (variablesOf e).length j),
      evaluate e ((variablesOf e).zip (bitsMSB (variablesOf e).length j))) := by
  unfold tableOf
  simp only
  rw [List.get?_eq_getElem?, List.getElem?_map, List.getElem?_range hj]
  simp only [Option.map_some']
  rw [tableOf_dict_eq]

theorem tableOf_length (e : ParseTreeElement) :
    (tableOf e).length = 2 ^ (variablesOf e).length := by
  unfold tableOf
  simp

/-- C7: `compare_to_expression` errors (the spec's SemanticError) exactly
when neither variable set contains the other — in particular for
expressions over disjoint nonempty variable sets — and otherwise yields,
for every assignment over the full domain of the dominant (larger)
variable set, that assignment with both evaluations, the subordinate
expression evaluating successfully while ignoring the variables it does
not reference. -/
theorem claim_C7 (e₁ e₂ : ParseTreeElement) (h₁ : ops_valid e₁ = true)
    (h₂ : ops_valid e₂ = true) :
    ((∃ msg, compare_to_expression e₁ e₂ = Except.error msg) ↔
      ¬((variablesOf e₁).toFinset ⊆ (variablesOf e₂).toFinset ∨
        (variablesOf e₂).toFinset ⊆ (variablesOf e₁).toFinset)) ∧
    (∀ rows, compare_to_expression e₁ e₂ = Except.ok rows →
      ∃ dom sub : ParseTreeElement,
        ((dom = e₁ ∧ sub = e₂) ∨ (dom = e₂ ∧ sub = e₁)) ∧
        (variablesOf sub).toFinset ⊆ (variablesOf dom).toFinset ∧
        rows.length = 2 ^ (variablesOf dom).length ∧
        (∀ j, j < 2 ^ (variablesOf dom).length →
          rows.get? j = some
            ((variablesOf dom).zip (bitsMSB (variablesOf dom).length j),
             evaluate dom ((variablesOf dom).zip (bitsMSB (variablesOf dom).length j)),
             evaluate sub ((variablesOf dom).zip (bitsMSB (variablesOf dom).length j))) ∧
          (evaluate dom ((variablesOf dom).zip (bitsMSB (variablesOf dom).length j))).isSome ∧
          (evaluate sub ((variablesOf dom).zip
            (bitsMSB (variablesOf dom).length j))).isSome)) := by
  have hlookup_zip : ∀ (vars : List String) (bs : List Nat), bs.length = vars.length →
      ∀ v ∈ vars, ((vars.zip bs).lookup v).isSome := by
    intro vars bs hlen v hv
    rw [Option.isSome_iff_ne_none]
    intro hnone
    rw [lookup_eq_none_iff] at hnone
    rw [List.map_fst_zip _ _ (by omega)] at hnone
    exact hnone hv
  have hsome : ∀ (dom sub : ParseTreeElement), ops_valid dom = true → ops_valid sub = true →
      (variablesOf sub).toFinset ⊆ (variablesOf dom).toFinset →
      ∀ j, (evaluate dom ((variablesOf dom).zip
          (bitsMSB (variablesOf dom).length j))).isSome ∧
        (evaluate sub ((variablesOf dom).zip
          (bitsMSB (variablesOf dom).length j))).isSome := by
    intro dom sub hdops hsops hsubset j
    have hlen : (bitsMSB (variablesOf dom).length j).length = (variablesOf dom).length :=
      bitsMSB_length _ _
    constructor
    · apply evaluate_isSome dom _ hdops
      intro v hv
      exact hlookup_zip _ _ hlen v (varList_subset_variablesOf dom v hv)
    · apply evaluate_isSome sub _ hsops
      intro v hv
      have hvs : v ∈ variablesOf sub := varList_subset_variablesOf sub v hv
      have hvd : v ∈ variablesOf dom := by
        rw [← List.mem_toFinset]
        exact hsubset (List.mem_toFinset.mpr hvs)
      exact hlookup_zip _ _ hlen v hvd
  unfold compare_to_expression
  by_cases hcond : (variablesOf e₁).toFinset ∩ (variablesOf e₂).toFinset ≠
      (variablesOf e₁).toFinset ∧
      (variablesOf e₁).toFinset ∩ (variablesOf e₂).toFinset ≠ (variablesOf e₂).toFinset
  · rw [if_pos hcond]
    constructor
    · constructor
      · intro _
        intro hor
        cases hor with
        | inl hsub => exact hcond.1 (Finset.inter_eq_left.mpr hsub)
        | inr hsub => exact hcond.2 (Finset.inter_eq_right.mpr hsub)
      · intro _
        exact ⟨_, rfl⟩
    · intro rows hrows
      exact absurd hrows (by simp)
  · rw [if_neg hcond]
    rw [not_and_or, not_not, not_not] at hcond
    constructor
    · constructor
      · intro ⟨msg, hmsg⟩
        exact absurd hmsg (by simp)
      · intro hor
        exfalso
        apply hor
        cases hcond with
        | inl h => exact Or.inl (Finset.inter_eq_left.mp h)
        | inr h => exact Or.inr (Finset.inter_eq_right.mp h)
    · intro rows hrows
      by_cases hsel : (variablesOf e₁).toFinset ∩ (variablesOf e₂).toFinset =
          (variablesOf e₂).toFinset
      · refine ⟨e₁, e₂, Or.inl ⟨rfl, rfl⟩, Finset.inter_eq_right.mp hsel, ?_, ?_⟩
        · rw [if_pos hsel] at hrows
          simp only [Except.ok.injEq] at hrows
          rw [← hrows, List.length_map, tableOf_length]
        · intro j hj
          rw [if_pos hsel] at hrows
          simp only [Except.ok.injEq] at hrows
          refine ⟨?_, hsome e₁ e₂ h₁ h₂ (Finset.inter_eq_right.mp hsel) j⟩
          rw [← hrows, List.get?_eq_getElem?, List.getElem?_map, ← List.get?_eq_getElem?,
            tableOf_get? e₁ j hj]
          rfl
      · have hs1 : (variablesOf e₁).toFinset ∩ (variablesOf e₂).toFinset =
            (variablesOf e₁).toFinset := by
          cases hcond with
          | inl h => exact h
          | inr h => exact absurd h hsel
        refine ⟨e₂, e₁, Or.inr ⟨rfl, rfl⟩, ?_, ?_, ?_⟩
        · have := Finset.inter_eq_left.mp hs1
          exact this
        · rw [if_neg hsel] at hrows
          simp only [Except.ok.injEq] at hrows
          rw [← hrows, List.length_map, tableOf_length]
        · intro j hj
          rw [if_neg hsel] at hrows
          simp only [Except.ok.injEq] at hrows
          refine ⟨?_, hsome e₂ e₁ h₂ h₁ (Finset.inter_eq_left.mp hs1) j⟩
          rw [← hrows, List.get?_eq_getElem?, List.getElem?_map, ← List.get?_eq_getElem?,
            tableOf_get? e₂ j hj]
          rfl

/-- Witness for C7 at the comparable pair `A + B` versus `A`: no error,
and row 2 (assignment A=1, B=0) carries both evaluations. -/
theorem claim_C7_witness :
    ((∃ msg, compare_to_expression
        (ParseTreeElement.BinaryOperator (ParseTreeElement.Variable "A") Operator.Or
          (ParseTreeElement.Variable "B")) (ParseTreeElement.Variable "A") =
        Except.error msg) ↔
      ¬((variablesOf (ParseTreeElement.BinaryOperator (ParseTreeElement.Variable "A")
          Operator.Or (ParseTreeElement.Variable "B"))).toFinset ⊆
            (variablesOf (ParseTreeElement.Variable "A")).toFinset ∨
        (variablesOf (ParseTreeElement.Variable "A")).toFinset ⊆
          (variablesOf (ParseTreeElement.BinaryOperator (ParseTreeElement.Variable "A")
            Operator.Or (ParseTreeElement.Variable "B"))).toFinset)) ∧
    (∀ rows, compare_to_expression
        (ParseTreeElement.BinaryOperator (ParseTreeElement.Variable "A") Operator.Or
          (ParseTreeElement.Variable "B")) (ParseTreeElement.Variable "A") =
        Except.ok rows →
      ∃ dom sub : ParseTreeElement,
        ((dom = ParseTreeElement.BinaryOperator (ParseTreeElement.Variable "A") Operator.Or
            (ParseTreeElement.Variable "B") ∧ sub = ParseTreeElement.Variable "A") ∨
         (dom = ParseTreeElement.Variable "A" ∧
            sub = ParseTreeElement.BinaryOperator (ParseTreeElement.Variable "A") Operator.Or
              (ParseTreeElement.Variable "B"))) ∧
        (variablesOf sub).toFinset ⊆ (variablesOf dom).toFinset ∧
        rows.length = 2 ^ (variablesOf dom).length ∧
        (∀ j, j < 2 ^ (variablesOf dom).length →
          rows.get? j = some
            ((variablesOf dom).zip (bitsMSB (variablesOf dom).length j),
             evaluate dom ((variablesOf dom).zip (bitsMSB (variablesOf dom).length j)),
             evaluate sub ((variablesOf dom).zip (bitsMSB (variablesOf dom).length j))) ∧
          (evaluate dom ((variablesOf dom).zip (bitsMSB (variablesOf dom).length j))).isSome ∧
          (evaluate sub ((variablesOf dom).zip
            (bitsMSB (variablesOf dom).length j))).isSome)) :=
  claim_C7
    (ParseTreeElement.BinaryOperator (ParseTreeElement.Variable "A") Operator.Or
      (ParseTreeElement.Variable "B")) (ParseTreeElement.Variable "A")
    (by decide) (by decide)

/-! ### C6: strict and non-strict resolution of Undefined entries

The code inspects only the first output column (`output_values[0]`), but
every data row writes the same index of every column with a
non-Undefined value, so all columns always share the same set of
Undefined indices; the per-column claim follows from that invariant.
-/

theorem entryOfNat_toNat (e : Entry) : entryOfNat e.toNat = e := by
  cases e <;> rfl

theorem init_getItem (k i : Nat) (hi : i < 2 ^ k) :
    (CompactStorage.init k).getItem i = Entry.Undefined := by
  unfold CompactStorage.init CompactStorage.getItem
  have hval : ((2 ^ (2 * 2 ^ k) - 1 : Nat) >>> (2 * i)) &&& 3 = 3 := by
    apply Nat.eq_of_testBit_eq
    intro t
    rw [CompactStorage.testBit_extract]
    have h3 : (3 : Nat) = 2 ^ 2 - 1 := rfl
    by_cases ht : t < 2
    · rw [h3, Nat.testBit_two_pow_sub_one, Nat.testBit_two_pow_sub_one]
      have : 2 * i + t < 2 * 2 ^ k := by omega
      simp [ht, this]
    · have h3t : Nat.testBit 3 t = false :=
        testBit_eq_false_of_lt (show (3 : Nat) < 2 ^ 2 by omega) (by omega)
      simp [ht, h3t]
  rw [hval]
  rfl

theorem setItem_success {s s2 : CompactStorage} {i : Nat} {v : CompactStorage.SetValue}
    (h : s.setItem i v = some s2) :
    ∃ nv, v.toEntryNat = some nv ∧ i < s.table_entry_count ∧
      s2 = ⟨s.variable_count, natAndNot s.value (3 <<< (2 * i)) ||| (nv <<< (2 * i))⟩ := by
  unfold CompactStorage.setItem at h
  cases hv : v.toEntryNat with
  | none => rw [hv] at h; exact absurd h (by simp)
  | some nv =>
      rw [hv] at h
      have h2 : (if i < s.table_entry_count then
          some (⟨s.variable_count,
            natAndNot s.value (3 <<< (2 * i)) ||| (nv <<< (2 * i))⟩ : CompactStorage)
        else none) = some s2 := h
      by_cases hi : i < s.table_entry_count
      · rw [if_pos hi] at h2
        cases h2
        exact ⟨nv, rfl, hi, rfl⟩
      · rw [if_neg hi] at h2
        exact absurd h2 (by simp)

theorem setItem_variable_count {s s2 : CompactStorage} {i : Nat} {v : CompactStorage.SetValue}
    (h : s.setItem i v = some s2) : s2.variable_count = s.variable_count := by
  obtain ⟨nv, _, _, heq⟩ := setItem_success h
  subst heq
  rfl

theorem setItem_get_self {s s2 : CompactStorage} {i : Nat} {v : CompactStorage.SetValue}
    (h : s.setItem i v = some s2) :
    ∃ nv, v.toEntryNat = some nv ∧ s2.getItem i = entryOfNat nv := by
  obtain ⟨nv, hnv, hi, heq⟩ := setItem_success h
  refine ⟨nv, hnv, ?_⟩
  subst heq
  unfold CompactStorage.getItem
  simp only
  rw [CompactStorage.extract_set_self s.value i nv (CompactStorage.toEntryNat_le_three v nv hnv)]

theorem setItem_get_other {s s2 : CompactStorage} {i : Nat} {v : CompactStorage.SetValue}
    (h : s.setItem i v = some s2) (j : Nat) (hj : j ≠ i) :
    s2.getItem j = s.getItem j := by
  obtain ⟨nv, hnv, hi, heq⟩ := setItem_success h
  subst heq
  unfold CompactStorage.getItem
  simp only
  rw [CompactStorage.extract_set_other s.value i j nv
    (CompactStorage.toEntryNat_le_three v nv hnv) hj]

/-- A value written from a row token is never Undefined. -/
theorem setItem_str_not_undefined {s s2 : CompactStorage} {i : Nat} {t : String}
    (h : s.setItem i (CompactStorage.SetValue.str t) = some s2) :
    s2.getItem i ≠ Entry.Undefined := by
  obtain ⟨nv, hnv, hget⟩ := setItem_get_self h
  rw [hget]
  have hle : nv ≤ 2 := by
    simp only [CompactStorage.SetValue.toEntryNat] at hnv
    split_ifs at hnv <;> simp_all <;> omega
  interval_cases nv <;> decide

theorem has_undefined_iff (s : CompactStorage) :
    s.has_undefined_values = true ↔
      ∃ i, i < s.table_entry_count ∧ s.getItem i = Entry.Undefined := by
  unfold CompactStorage.has_undefined_values
  rw [List.any_eq_true]
  constructor
  · intro ⟨e, hmem, he⟩
    obtain ⟨i, hget⟩ := List.mem_iff_get?.mp hmem
    have hi : i < s.table_entry_count := by
      by_contra hge
      rw [CompactStorage.entryList_get? s i, if_neg hge] at hget
      exact absurd hget (by simp)
    rw [CompactStorage.entryList_get? s i, if_pos hi] at hget
    have hee : s.getItem i = e := by injection hget
    refine ⟨i, hi, ?_⟩
    rw [hee]
    simpa using he
  · intro ⟨i, hi, hget⟩
    refine ⟨Entry.Undefined, ?_, by simp⟩
    rw [List.mem_iff_get?]
    exact ⟨i, by rw [CompactStorage.entryList_get? s i, if_pos hi, hget]⟩

theorem exceptMapM_ok {α β ε : Type} (f : α → Except ε β) :
    ∀ (l : List α) (out : List β), exceptMapM f l = Except.ok out →
      out.length = l.length ∧
      ∀ j, ∀ hj : j < l.length, ∃ hjo : j < out.length,
        f (l.get ⟨j, hj⟩) = Except.ok (out.get ⟨j, hjo⟩) := by
  intro l
  induction l with
  | nil =>
    intro out h
    have hout : out = [] := by
      have h2 : Except.ok (ε := ε) [] = Except.ok out := h
      injection h2 with h3
      exact h3.symm
    subst hout
    exact ⟨rfl, fun j hj => absurd hj (by simp)⟩
  | cons x l ih =>
    intro out h
    unfold exceptMapM at h
    cases hx : f x with
    | error e => rw [hx] at h; exact Except.noConfusion h
    | ok b =>
        rw [hx] at h
        cases hl : exceptMapM f l with
        | error e => rw [hl] at h; exact Except.noConfusion h
        | ok bs =>
            rw [hl] at h
            have hout : out = b :: bs := by
              injection h with h2
              exact h2.symm
            subst hout
            obtain ⟨hlen, hpt⟩ := ih bs hl
            refine ⟨by simp [hlen], ?_⟩
            intro j hj
            cases j with
            | zero => exact ⟨by simp, by simpa using hx⟩
            | succ j =>
                have hjl : j < l.length := by simpa using hj
                obtain ⟨hjo, hfj⟩ := hpt j hjl
                exact ⟨by simpa using hjo, by simpa using hfj⟩

theorem init_getItem_ge (k i : Nat) (hi : 2 ^ k ≤ i) :
    (CompactStorage.init k).getItem i = Entry.Low := by
  unfold CompactStorage.init CompactStorage.getItem
  have hval : ((2 ^ (2 * 2 ^ k) - 1 : Nat) >>> (2 * i)) &&& 3 = 0 := by
    apply Nat.eq_of_testBit_eq
    intro t
    rw [CompactStorage.testBit_extract]
    have hbig : (2 ^ (2 * 2 ^ k) - 1 : Nat).testBit (2 * i + t) = false := by
      rw [Nat.testBit_two_pow_sub_one]
      have : ¬ (2 * i + t < 2 * 2 ^ k) := by omega
      simpa using this
    simp [hbig]
  rw [hval]
  rfl

/-- The cross-column invariant of row application: all storages have the
declared width, the column count matches the header, and every index is
Undefined in all columns or in none. -/
def StoragesInv (hdr : HeaderInfo) (sts : List CompactStorage) : Prop :=
  sts.length = hdr.output_variables.length ∧
  (∀ st ∈ sts, st.variable_count = hdr.input_variables.length) ∧
  ∀ i, (∀ st ∈ sts, st.getItem i = Entry.Undefined) ∨
    (∀ st ∈ sts, st.getItem i ≠ Entry.Undefined)

theorem parseHeaderLine_ok (tokens : List String) (hdr : HeaderInfo)
    (h : parseHeaderLine tokens = Except.ok hdr) :
    hdr.output_indices.length = hdr.output_variables.length ∧
    0 < hdr.output_variables.length ∧ 0 < hdr.input_variables.length := by
  simp only [parseHeaderLine] at h
  split_ifs at h with h1 h2 h3
  have hh : hdr = headerOf tokens := by
    injection h with h4
    exact h4.symm
  subst hh
  refine ⟨?_, by omega, by omega⟩
  simp only [headerOf, List.length_map]

theorem applyDataRow_inv (hdr : HeaderInfo) (sts sts2 : List CompactStorage)
    (tokens : List String) (hinv : StoragesInv hdr sts)
    (hoblen : hdr.output_indices.length = hdr.output_variables.length)
    (h : applyDataRow hdr sts tokens = Except.ok sts2) : StoragesInv hdr sts2 := by
  unfold applyDataRow at h
  by_cases hcount : tokens.length ≠ hdr.input_variables.length + hdr.output_variables.length
  · rw [if_pos hcount] at h
    exact Except.noConfusion h
  rw [if_neg hcount] at h
  cases hin : readInputBits hdr tokens with
  | error e => rw [hin] at h; exact Except.noConfusion h
  | ok input_bits =>
  rw [hin] at h
  cases hob : readOutputBits hdr tokens with
  | error e => rw [hob] at h; exact Except.noConfusion h
  | ok output_bits =>
  rw [hob] at h
  obtain ⟨hlen2, hpt⟩ := exceptMapM_ok _ _ _ h
  have hob_len : output_bits.length = hdr.output_indices.length :=
    (exceptMapM_ok _ _ _ hob).1
  have hzlen : (sts.zip output_bits).length = sts.length := by
    rw [List.length_zip, hob_len, hoblen, hinv.1]
    simp
  set index := rowIndex input_bits with hindex
  have hsetter : ∀ j, ∀ hj : j < sts.length, ∃ hjo : j < sts2.length,
      (sts.get ⟨j, hj⟩).setItem index
        (CompactStorage.SetValue.str (output_bits.get
          ⟨j, by rw [hob_len, hoblen, ← hinv.1]; exact hj⟩)) =
        some (sts2.get ⟨j, hjo⟩) := by
    intro j hj
    have hjz : j < (sts.zip output_bits).length := by rw [hzlen]; exact hj
    obtain ⟨hjo, hfj⟩ := hpt j hjz
    refine ⟨hjo, ?_⟩
    have hzget : (sts.zip output_bits).get ⟨j, hjz⟩ =
        (sts.get ⟨j, hj⟩, output_bits.get
          ⟨j, by rw [hob_len, hoblen, ← hinv.1]; exact hj⟩) := by
      simp [List.get_eq_getElem, List.getElem_zip]
    rw [hzget] at hfj
    unfold writeCell at hfj
    simp only at hfj
    cases hset : (sts.get ⟨j, hj⟩).setItem index
        (CompactStorage.SetValue.str (output_bits.get
          ⟨j, by rw [hob_len, hoblen, ← hinv.1]; exact hj⟩)) with
    | none =>
        rw [hset] at hfj
        exact Except.noConfusion hfj
    | some st2 =>
        rw [hset] at hfj
        injection hfj with hfj2
        rw [hfj2]
  have hlen_out : sts2.length = sts.length := by
    rw [hlen2, hzlen]
  have hmem_idx : ∀ st2 ∈ sts2, ∃ j, ∃ hj : j < sts.length, ∃ hjo : j < sts2.length,
      st2 = sts2.get ⟨j, hjo⟩ ∧
      (sts.get ⟨j, hj⟩).setItem index
        (CompactStorage.SetValue.str (output_bits.get
          ⟨j, by rw [hob_len, hoblen, ← hinv.1]; exact hj⟩)) =
        some (sts2.get ⟨j, hjo⟩) := by
    intro st2 hst2
    obtain ⟨j, hjo, hj2⟩ := List.mem_iff_getElem.mp hst2
    have hj : j < sts.length := by rw [← hlen_out]; exact hjo
    obtain ⟨hjo2, hset⟩ := hsetter j hj
    refine ⟨j, hj, hjo2, ?_, hset⟩
    rw [← hj2]
    simp [List.get_eq_getElem]
  refine ⟨by rw [hlen_out, hinv.1], ?_, ?_⟩
  · intro st2 hst2
    obtain ⟨j, hj, hjo, hst2eq, hset⟩ := hmem_idx st2 hst2
    rw [hst2eq, setItem_variable_count hset]
    exact hinv.2.1 _ (List.get_mem sts j hj)
  · intro i
    by_cases hidx : i = index
    · right
      intro st2 hst2
      obtain ⟨j, hj, hjo, hst2eq, hset⟩ := hmem_idx st2 hst2
      rw [hst2eq, hidx]
      exact setItem_str_not_undefined hset
    · cases hinv.2.2 i with
      | inl hall =>
          left
          intro st2 hst2
          obtain ⟨j, hj, hjo, hst2eq, hset⟩ := hmem_idx st2 hst2
          rw [hst2eq, setItem_get_other hset i hidx]
          exact hall _ (List.get_mem sts j hj)
      | inr hall =>
          right
          intro st2 hst2
          obtain ⟨j, hj, hjo, hst2eq, hset⟩ := hmem_idx st2 hst2
          rw [hst2eq, setItem_get_other hset i hidx]
          exact hall _ (List.get_mem sts j hj)

theorem setItem_entry_isSome (acc : CompactStorage) (i : Nat) (e : Entry)
    (hi : i < acc.table_entry_count) :
    ∃ st2, acc.setItem i (CompactStorage.SetValue.entry e) = some st2 := by
  unfold CompactStorage.setItem
  simp only [CompactStorage.SetValue.toEntryNat]
  rw [if_pos hi]
  exact ⟨_, rfl⟩

theorem setItem_entry_none_of_ge (acc : CompactStorage) (i : Nat) (e : Entry)
    (hi : ¬ i < acc.table_entry_count) :
    acc.setItem i (CompactStorage.SetValue.entry e) = none := by
  unfold CompactStorage.setItem
  simp only [CompactStorage.SetValue.toEntryNat]
  rw [if_neg hi]

theorem setItem_entry_get_self {acc st2 : CompactStorage} {i : Nat} {e : Entry}
    (h : acc.setItem i (CompactStorage.SetValue.entry e) = some st2) :
    st2.getItem i = e := by
  obtain ⟨nv, hnv, hget⟩ := setItem_get_self h
  have hnv2 : nv = e.toNat := by
    have h2 : some e.toNat = some nv := hnv
    injection h2 with h3
    exact h3.symm
  rw [hget, hnv2, entryOfNat_toNat]

/-- The write loop of `set_undefined_values_to`, generalized over the list
of visited indices: the accumulated storage keeps its width, an index that
was Undefined in the snapshot and was visited in range now holds the
policy value, and every other cell is the accumulator's. -/
theorem set_undef_foldl (s : CompactStorage) (e : Entry) :
    ∀ (l : List Nat) (acc : CompactStorage),
      acc.variable_count = s.variable_count →
      (l.foldl (fun acc i =>
          if s.getItem i = Entry.Undefined then
            (acc.setItem i (CompactStorage.SetValue.entry e)).getD acc
          else acc) acc).variable_count = s.variable_count ∧
      ∀ j, (l.foldl (fun acc i =>
          if s.getItem i = Entry.Undefined then
            (acc.setItem i (CompactStorage.SetValue.entry e)).getD acc
          else acc) acc).getItem j =
        if s.getItem j = Entry.Undefined ∧ j ∈ l ∧ j < s.table_entry_count then e
        else acc.getItem j := by
  intro l
  induction l with
  | nil =>
      intro acc hacc
      refine ⟨hacc, fun j => ?_⟩
      simp
  | cons i l ih =>
      intro acc hacc
      rw [List.foldl_cons]
      have hcount_eq : acc.table_entry_count = s.table_entry_count := by
        unfold CompactStorage.table_entry_count
        rw [hacc]
      by_cases hu : s.getItem i = Entry.Undefined
      · rw [if_pos hu]
        by_cases hlt : i < acc.table_entry_count
        · obtain ⟨st2, hst2⟩ := setItem_entry_isSome acc i e hlt
          rw [hst2]
          simp only [Option.getD_some]
          have hvc2 : st2.variable_count = s.variable_count := by
            rw [setItem_variable_count hst2, hacc]
          obtain ⟨hvc3, hpt⟩ := ih st2 hvc2
          refine ⟨hvc3, fun j => ?_⟩
          rw [hpt j]
          by_cases hji : j = i
          · subst hji
            have hself : st2.getItem j = e := setItem_entry_get_self hst2
            have hcond : s.getItem j = Entry.Undefined ∧ j ∈ j :: l ∧
                j < s.table_entry_count :=
              ⟨hu, List.mem_cons_self j l, by rw [← hcount_eq]; exact hlt⟩
            rw [if_pos hcond]
            by_cases hc2 : s.getItem j = Entry.Undefined ∧ j ∈ l ∧
                j < s.table_entry_count
            · rw [if_pos hc2]
            · rw [if_neg hc2, hself]
          · have hother : st2.getItem j = acc.getItem j :=
              setItem_get_other hst2 j hji
            rw [hother]
            by_cases hc2 : s.getItem j = Entry.Undefined ∧ j ∈ l ∧
                j < s.table_entry_count
            · rw [if_pos hc2,
                if_pos ⟨hc2.1, List.mem_cons_of_mem i hc2.2.1, hc2.2.2⟩]
            · rw [if_neg hc2, if_neg]
              intro hc3
              refine hc2 ⟨hc3.1, ?_, hc3.2.2⟩
              cases List.mem_cons.mp hc3.2.1 with
              | inl h2 => exact absurd h2 hji
              | inr h2 => exact h2
        · rw [setItem_entry_none_of_ge acc i e hlt]
          simp only [Option.getD_none]
          obtain ⟨hvc3, hpt⟩ := ih acc hacc
          refine ⟨hvc3, fun j => ?_⟩
          rw [hpt j]
          by_cases hc2 : s.getItem j = Entry.Undefined ∧ j ∈ l ∧
              j < s.table_entry_count
          · rw [if_pos hc2,
              if_pos ⟨hc2.1, List.mem_cons_of_mem i hc2.2.1, hc2.2.2⟩]
          · rw [if_neg hc2, if_neg]
            intro hc3
            refine hc2 ⟨hc3.1, ?_, hc3.2.2⟩
            cases List.mem_cons.mp hc3.2.1 with
            | inl h2 =>
                subst h2
                exact absurd hc3.2.2 (by rw [← hcount_eq]; exact hlt)
            | inr h2 => exact h2
      · rw [if_neg hu]
        obtain ⟨hvc3, hpt⟩ := ih acc hacc
        refine ⟨hvc3, fun j => ?_⟩
        rw [hpt j]
        by_cases hc2 : s.getItem j = Entry.Undefined ∧ j ∈ l ∧
            j < s.table_entry_count
        · rw [if_pos hc2,
            if_pos ⟨hc2.1, List.mem_cons_of_mem i hc2.2.1, hc2.2.2⟩]
        · rw [if_neg hc2, if_neg]
          intro hc3
          refine hc2 ⟨hc3.1, ?_, hc3.2.2⟩
          cases List.mem_cons.mp hc3.2.1 with
          | inl h2 => subst h2; exact absurd hc3.1 hu
          | inr h2 => exact h2

/-- Pointwise semantics of `set_undefined_values_to`: each in-range cell
that is Undefined in the snapshot becomes the policy value, every other
cell is untouched, and the width is preserved. -/
theorem set_undefined_values_get (s : CompactStorage) (e : Entry) :
    (s.set_undefined_values_to e).variable_count = s.variable_count ∧
    ∀ j, (s.set_undefined_values_to e).getItem j =
      if s.getItem j = Entry.Undefined ∧ j < s.table_entry_count then e
      else s.getItem j := by
  unfold CompactStorage.set_undefined_values_to
  obtain ⟨h1, h2⟩ := set_undef_foldl s e (List.range s.table_entry_count) s rfl
  refine ⟨h1, fun j => ?_⟩
  rw [h2 j]
  by_cases hc : s.getItem j = Entry.Undefined ∧ j < s.table_entry_count
  · rw [if_pos ⟨hc.1, List.mem_range.mpr hc.2, hc.2⟩, if_pos hc]
  · rw [if_neg, if_neg hc]
    intro hrc
    exact hc ⟨hrc.1, hrc.2.2⟩

theorem exceptFoldlM_inv {σ α ε : Type} (P : σ → Prop) (f : σ → α → Except ε σ)
    (hf : ∀ s a s2, P s → f s a = Except.ok s2 → P s2) :
    ∀ (l : List α) (s s2 : σ), P s → exceptFoldlM f s l = Except.ok s2 → P s2 := by
  intro l
  induction l with
  | nil =>
      intro s s2 hP h
      have h2 : Except.ok (ε := ε) s = Except.ok s2 := h
      injection h2 with h3
      rw [← h3]
      exact hP
  | cons x l ih =>
      intro s s2 hP h
      unfold exceptFoldlM at h
      cases hx : f s x with
      | error e => rw [hx] at h; exact Except.noConfusion h
      | ok s1 => rw [hx] at h; exact ih s1 s2 (hf s x s1 hP hx) h

/-- The initial column storages are all-Undefined, all of the declared
width, one per output variable. -/
theorem init_storagesInv (hdr : HeaderInfo) :
    StoragesInv hdr (List.replicate hdr.output_variables.length
      (CompactStorage.init hdr.input_variables.length)) := by
  refine ⟨List.length_replicate _ _, ?_, ?_⟩
  · intro st hst
    rw [List.eq_of_mem_replicate hst]
    rfl
  · intro i
    by_cases hi : i < 2 ^ hdr.input_variables.length
    · left
      intro st hst
      rw [List.eq_of_mem_replicate hst]
      exact init_getItem _ _ hi
    · right
      intro st hst
      rw [List.eq_of_mem_replicate hst]
      rw [init_getItem_ge _ _ (le_of_not_lt hi)]
      simp

/-- C6: parsing a non-compact truth table whose header parsed and whose
data rows all applied, under the strict policy (`set_undefined_values_to =
"forbidden"`, embedded as `none`) raises a ConsistencyError exactly when
some output column's storage still holds an Undefined cell, and a
successful strict parse contains no Undefined cell in any column; under a
non-strict policy value, parsing succeeds and every remaining Undefined
cell of every output column is replaced by the policy value, all other
cells unchanged.  (The code inspects only the first column; the row
invariant makes that equivalent to inspecting every column.) -/
theorem claim_C6 (first : String) (rest : List String) (hdr : HeaderInfo)
    (storages : List CompactStorage)
    (hnc : strStartsWith (stripLine first) ':' = false)
    (hhdr : parseHeaderLine (tableTokens (stripLine first)) = Except.ok hdr)
    (hrows : exceptFoldlM
        (fun sts line => applyDataRow hdr sts (tableTokens (stripLine line)))
        (List.replicate hdr.output_variables.length
          (CompactStorage.init hdr.input_variables.length)) rest =
        Except.ok storages) :
    (parse_from_lines (first :: rest) none =
        Except.error TableParseError.consistencyErr ↔
      ∃ st ∈ storages, ∃ i < st.table_entry_count,
        st.getItem i = Entry.Undefined) ∧
    (∀ vt, parse_from_lines (first :: rest) none = Except.ok vt →
      ∀ st ∈ vt.output_values, ∀ i < st.table_entry_count,
        st.getItem i ≠ Entry.Undefined) ∧
    (∀ e : Entry, ∃ vt,
      parse_from_lines (first :: rest) (some e) = Except.ok vt ∧
      vt.output_values.length = storages.length ∧
      ∀ j, ∀ hj : j < storages.length, ∀ hj2 : j < vt.output_values.length,
        ∀ i, (vt.output_values.get ⟨j, hj2⟩).getItem i =
          if (storages.get ⟨j, hj⟩).getItem i = Entry.Undefined ∧
              i < (storages.get ⟨j, hj⟩).table_entry_count then e
          else (storages.get ⟨j, hj⟩).getItem i) := by
  obtain ⟨hoblen, hopos, hipos⟩ := parseHeaderLine_ok _ _ hhdr
  have hinv : StoragesInv hdr storages :=
    exceptFoldlM_inv (StoragesInv hdr) _
      (fun sts line sts2 hP hstep => applyDataRow_inv hdr sts sts2 _ hP hoblen hstep)
      rest _ storages (init_storagesInv hdr) hrows
  have hparse : ∀ (p : Option Entry),
      parse_from_lines (first :: rest) p = finishParse hdr storages p := by
    intro p
    simp only [parse_from_lines, hnc, Bool.false_eq_true, if_false, hhdr, hrows]
  have hslen : storages.length = hdr.output_variables.length := hinv.1
  have hne : storages ≠ [] := by
    intro h2
    rw [h2] at hslen
    simp at hslen
    omega
  obtain ⟨st0, hhead⟩ : ∃ st0, storages.head? = some st0 := by
    cases storages with
    | nil => exact absurd rfl hne
    | cons a l => exact ⟨a, rfl⟩
  have hst0mem : st0 ∈ storages := by
    cases storages with
    | nil => exact absurd rfl hne
    | cons a l =>
        injection hhead with h2
        rw [← h2]
        exact List.mem_cons_self a l
  have hwidth : ∀ st ∈ storages,
      st.table_entry_count = 2 ^ hdr.input_variables.length := by
    intro st hst
    unfold CompactStorage.table_entry_count
    rw [hinv.2.1 st hst]
  have hspread : ∀ (i : Nat), ∀ st ∈ storages,
      st.getItem i = Entry.Undefined →
      ∀ st2 ∈ storages, st2.getItem i = Entry.Undefined := by
    intro i st hst hund st2 hst2
    cases hinv.2.2 i with
    | inl hall => exact hall st2 hst2
    | inr hnone => exact absurd hund (hnone st hst)
  refine ⟨?_, ?_, ?_⟩
  · rw [hparse none]
    simp only [finishParse, hhead]
    constructor
    · intro herr
      by_cases hub : st0.has_undefined_values = true
      · obtain ⟨i, hi, hund⟩ := (has_undefined_iff st0).mp hub
        exact ⟨st0, hst0mem, i, hi, hund⟩
      · rw [if_neg hub] at herr
        exact Except.noConfusion herr
    · rintro ⟨st, hst, i, hi, hund⟩
      have hub : st0.has_undefined_values = true := by
        apply (has_undefined_iff st0).mpr
        refine ⟨i, ?_, hspread i st hst hund st0 hst0mem⟩
        rw [hwidth st0 hst0mem, ← hwidth st hst]
        exact hi
      rw [if_pos hub]
  · intro vt hok st hst i hi hund
    rw [hparse none] at hok
    simp only [finishParse, hhead] at hok
    by_cases hub : st0.has_undefined_values = true
    · rw [if_pos hub] at hok
      exact Except.noConfusion hok
    · rw [if_neg hub] at hok
      injection hok with hvt
      have hout : vt.output_values = storages := by rw [← hvt]
      rw [hout] at hst
      apply hub
      apply (has_undefined_iff st0).mpr
      refine ⟨i, ?_, hspread i st hst hund st0 hst0mem⟩
      rw [hwidth st0 hst0mem, ← hwidth st hst]
      exact hi
  · intro e
    rw [hparse (some e)]
    simp only [finishParse, hhead]
    by_cases hub : st0.has_undefined_values = true
    · rw [if_pos hub]
      refine ⟨⟨hdr.input_variables, hdr.output_variables,
        storages.map (fun st => st.set_undefined_values_to e)⟩, rfl, by simp, ?_⟩
      intro j hj hj2 i
      have hget : ((storages.map
            (fun st => st.set_undefined_values_to e)).get ⟨j, hj2⟩) =
          (storages.get ⟨j, hj⟩).set_undefined_values_to e := by
        simp [List.get_eq_getElem]
      rw [hget]
      exact (set_undefined_values_get _ e).2 i
    · rw [if_neg hub]
      refine ⟨⟨hdr.input_variables, hdr.output_variables, storages⟩, rfl, rfl, ?_⟩
      intro j hj hj2 i
      have hgeq : ((⟨hdr.input_variables, hdr.output_variables, storages⟩ :
          ValueTable).output_values.get ⟨j, hj2⟩) = storages.get ⟨j, hj⟩ := rfl
      rw [hgeq, if_neg]
      intro hc
      apply hub
      apply (has_undefined_iff st0).mpr
      have hmem := List.get_mem storages j hj
      refine ⟨i, ?_, hspread i _ hmem hc.1 st0 hst0mem⟩
      rw [hwidth st0 hst0mem, ← hwidth _ hmem]
      exact hc.2

theorem claim_C6_witness :
    parse_from_lines ["A >Y", "0 1"] none =
      Except.error TableParseError.consistencyErr :=
  (claim_C6 "A >Y" ["0 1"] (headerOf (tableTokens (stripLine "A >Y")))
      [⟨1, 13⟩] (by decide) rfl rfl).1.mpr
    ⟨⟨1, 13⟩, by decide, 1, by decide, by decide⟩

/-! ### Cube analysis for the Quine-McCluskey invariants

`cubeSet k v m` is the set of table indices an implicant with value `v`
and mask `m` describes: the indices below `2 ^ k` that agree with `v` on
every unmasked bit position.  The pipeline invariant `Good` states that an
implicant's stored minterm set is exactly its cube, within the universe
`U` of usable (mandatory or don't-care) minterms. -/

theorem two_pow_and_eq_iff (b x : Nat) :
    2 ^ b &&& x = 2 ^ b ↔ x.testBit b = true := by
  constructor
  · intro h
    have h2 := congrArg (fun y => y.testBit b) h
    simpa [Nat.testBit_land, Nat.testBit_two_pow] using h2
  · intro h
    apply Nat.eq_of_testBit_eq
    intro c
    rw [Nat.testBit_land, Nat.testBit_two_pow]
    by_cases hc : b = c
    · subst hc
      simp [h]
    · simp [hc]

theorem lt_two_pow_of_high_bits {x n : Nat}
    (h : ∀ b, n ≤ b → x.testBit b = false) : x < 2 ^ n := by
  rcases Nat.lt_or_ge x (2 ^ n) with hlt | hge
  · exact hlt
  · exfalso
    have hdiv : x / 2 ^ n ≠ 0 := by
      have := Nat.div_le_div_right (c := 2 ^ n) hge
      rw [Nat.div_self (Nat.pos_pow_of_pos n two_pos)] at this
      omega
    obtain ⟨b, hb⟩ := exists_testBit_of_ne_zero _ hdiv
    have hx : x.testBit (n + b) = true := by
      have hshift : (x >>> n).testBit b = x.testBit (n + b) := Nat.testBit_shiftRight x
      rw [← hshift, Nat.shiftRight_eq_div_pow]
      exact hb
    exact absurd hx (by rw [h (n + b) (Nat.le_add_right n b)]; simp)

theorem testBit_lt_bitLength : ∀ (x b : Nat), x.testBit b = true → b < bitLength x := by
  have key : ∀ (x : Nat), ∀ b, x.testBit b = true → b < bitLength x := by
    intro x
    induction x using Nat.strong_induction_on with
    | _ x ih =>
      intro b hb
      have hx : x ≠ 0 := by
        intro h0
        rw [h0] at hb
        simp [Nat.zero_testBit] at hb
      have hrec : bitLength x = bitLength (x / 2) + 1 := by
        rw [bitLength_rec, if_neg hx]
      cases b with
      | zero => omega
      | succ b =>
          have hb2 : (x / 2).testBit b = true := by
            rw [← Nat.testBit_add_one]
            exact hb
          have := ih (x / 2) (Nat.div_lt_self (Nat.pos_of_ne_zero hx) one_lt_two) b hb2
          omega
  exact key

theorem bitCount_eq_zero {m : Nat} (h : bitCount m = 0) : m = 0 := by
  by_contra hm
  obtain ⟨b, hb⟩ := exists_testBit_of_ne_zero m hm
  have hlt : m < 2 ^ m := Nat.lt_two_pow m
  rw [bitCount_eq_card m m hlt] at h
  have hbm : b < m := by
    by_contra hc
    push_neg at hc
    have h2 : m.testBit b = false := testBit_eq_false_of_lt hlt (by
      have h3 : b < 2 ^ b := Nat.lt_two_pow b
      omega)
    rw [h2] at hb
    exact Bool.false_ne_true hb
  have : b ∈ (Finset.range m).filter (fun c => m.testBit c) :=
    Finset.mem_filter.mpr ⟨Finset.mem_range.mpr hbm, hb⟩
  rw [Finset.card_eq_zero] at h
  rw [h] at this
  exact absurd this (Finset.not_mem_empty b)

/-- The set of indices described by an implicant value/mask pair. -/
def cubeSet (k value mask : Nat) : Finset Nat :=
  (Finset.range (2 ^ k)).filter
    (fun i => ∀ c < k, mask.testBit c = false → i.testBit c = value.testBit c)

theorem mem_cubeSet {k value mask i : Nat} :
    i ∈ cubeSet k value mask ↔
      i < 2 ^ k ∧ ∀ c < k, mask.testBit c = false → i.testBit c = value.testBit c := by
  unfold cubeSet
  simp [Finset.mem_filter, Finset.mem_range]

theorem cubeSet_mask_zero (k m : Nat) (hm : m < 2 ^ k) : cubeSet k m 0 = {m} := by
  ext i
  rw [mem_cubeSet, Finset.mem_singleton]
  constructor
  · rintro ⟨hi, hbits⟩
    apply Nat.eq_of_testBit_eq
    intro c
    by_cases hc : c < k
    · exact hbits c hc (Nat.zero_testBit c)
    · rw [testBit_eq_false_of_lt hi (le_of_not_lt hc),
        testBit_eq_false_of_lt hm (le_of_not_lt hc)]
  · intro h
    subst h
    exact ⟨hm, fun c hc hmc => rfl⟩

theorem cubeSet_split {k v m b : Nat} (hb : b < k) (hmb : m.testBit b = false)
    (hvb : v.testBit b = false) :
    cubeSet k v (m ||| 2 ^ b) = cubeSet k v m ∪ cubeSet k (v ||| 2 ^ b) m ∧
    Disjoint (cubeSet k v m) (cubeSet k (v ||| 2 ^ b) m) := by
  constructor
  · ext i
    rw [Finset.mem_union, mem_cubeSet, mem_cubeSet, mem_cubeSet]
    constructor
    · rintro ⟨hi, hbits⟩
      cases hib : i.testBit b with
      | false =>
          left
          refine ⟨hi, fun c hc hmc => ?_⟩
          by_cases hcb : c = b
          · subst hcb
            rw [hib, hvb]
          · refine hbits c hc ?_
            rw [Nat.testBit_lor, hmc, Nat.testBit_two_pow]
            simp [Ne.symm hcb]
      | true =>
          right
          refine ⟨hi, fun c hc hmc => ?_⟩
          by_cases hcb : c = b
          · subst hcb
            rw [hib, Nat.testBit_lor, Nat.testBit_two_pow]
            simp
          · rw [Nat.testBit_lor, Nat.testBit_two_pow]
            have h2 : (decide (b = c)) = false := by simp [Ne.symm hcb]
            rw [h2, Bool.or_false]
            refine hbits c hc ?_
            rw [Nat.testBit_lor, hmc, Nat.testBit_two_pow, h2]
            rfl
    · intro hcase
      cases hcase with
      | inl h =>
          obtain ⟨hi, hbits⟩ := h
          refine ⟨hi, fun c hc hmc => ?_⟩
          rw [Nat.testBit_lor, Bool.or_eq_false_iff] at hmc
          exact hbits c hc hmc.1
      | inr h =>
          obtain ⟨hi, hbits⟩ := h
          refine ⟨hi, fun c hc hmc => ?_⟩
          rw [Nat.testBit_lor, Bool.or_eq_false_iff] at hmc
          have h2 := hbits c hc hmc.1
          rw [h2, Nat.testBit_lor, Nat.testBit_two_pow]
          have hcb : ¬ (b = c) := by
            intro hcb
            subst hcb
            rw [Nat.testBit_two_pow] at hmc
            simp at hmc
          simp [hcb]
  · rw [Finset.disjoint_left]
    intro i h1 h2
    rw [mem_cubeSet] at h1 h2
    have e1 : i.testBit b = v.testBit b := h1.2 b hb hmb
    have e2 : i.testBit b = (v ||| 2 ^ b).testBit b := h2.2 b hb hmb
    rw [Nat.testBit_lor, Nat.testBit_two_pow] at e2
    simp at e2
    rw [hvb] at e1
    rw [e1] at e2
    exact Bool.false_ne_true e2

theorem cubeSet_card (k : Nat) : ∀ (n v m : Nat), m < 2 ^ k → v < 2 ^ k →
    v &&& m = 0 → bitCount m = n → (cubeSet k v m).card = 2 ^ n := by
  intro n
  induction n with
  | zero =>
      intro v m hm hv hvm hbc
      have hm0 : m = 0 := bitCount_eq_zero hbc
      subst hm0
      rw [cubeSet_mask_zero k v hv]
      simp
  | succ n ih =>
      intro v m hm hv hvm hbc
      have hm0 : m ≠ 0 := by
        intro h0
        rw [h0, bitCount_zero] at hbc
        omega
      obtain ⟨b, hb⟩ := exists_testBit_of_ne_zero m hm0
      have hbk : b < k := by
        by_contra hc
        push_neg at hc
        rw [testBit_eq_false_of_lt hm hc] at hb
        exact Bool.false_ne_true hb
      set m2 := natAndNot m (2 ^ b) with hm2def
      have hm2bit : ∀ c, m2.testBit c = (m.testBit c && !(decide (b = c))) := by
        intro c
        rw [hm2def, testBit_natAndNot, Nat.testBit_two_pow]
      have hm2b : m2.testBit b = false := by
        rw [hm2bit b]
        simp
      have hmeq : m = m2 ||| 2 ^ b := by
        apply Nat.eq_of_testBit_eq
        intro c
        rw [Nat.testBit_lor, hm2bit c, Nat.testBit_two_pow]
        by_cases hcb : b = c
        · subst hcb
          rw [hb]
          simp
        · simp [hcb]
      have hm2lt : m2 < 2 ^ k := by
        apply lt_two_pow_of_high_bits
        intro c hc
        rw [hm2bit c, testBit_eq_false_of_lt hm hc]
        rfl
      have hvb : v.testBit b = false := by
        have h2 := congrArg (fun y => y.testBit b) hvm
        simp only [Nat.testBit_land, Nat.zero_testBit] at h2
        rw [hb] at h2
        simpa using h2
      have hvm2 : v &&& m2 = 0 := by
        apply Nat.eq_of_testBit_eq
        intro c
        rw [Nat.testBit_land, hm2bit c, Nat.zero_testBit]
        have h2 := congrArg (fun y => y.testBit c) hvm
        simp only [Nat.testBit_land, Nat.zero_testBit] at h2
        rcases Bool.and_eq_false_iff.mp h2 with h3 | h3 <;> simp [h3]
      have hvb2 : (v ||| 2 ^ b) &&& m2 = 0 := by
        apply Nat.eq_of_testBit_eq
        intro c
        rw [Nat.testBit_land, Nat.testBit_lor, Nat.testBit_two_pow, hm2bit c,
          Nat.zero_testBit]
        have h2 := congrArg (fun y => y.testBit c) hvm
        simp only [Nat.testBit_land, Nat.zero_testBit] at h2
        by_cases hcb : b = c
        · subst hcb
          simp
        · simp only [hcb, decide_False]
          rcases Bool.and_eq_false_iff.mp h2 with h3 | h3 <;> simp [h3]
      have hvb2lt : v ||| 2 ^ b < 2 ^ k :=
        Nat.or_lt_two_pow hv (Nat.pow_lt_pow_right one_lt_two hbk)
      have hbc2 : bitCount m2 = n := by
        have hc1 : bitCount m = ((Finset.range k).filter (fun c => m.testBit c)).card :=
          bitCount_eq_card k m hm
        have hc2 : bitCount m2 = ((Finset.range k).filter (fun c => m2.testBit c)).card :=
          bitCount_eq_card k m2 hm2lt
        have hset : (Finset.range k).filter (fun c => m2.testBit c) =
            ((Finset.range k).filter (fun c => m.testBit c)).erase b := by
          ext c
          rw [Finset.mem_erase, Finset.mem_filter, Finset.mem_filter]
          constructor
          · intro hc
            have h3 := hc.2
            rw [hm2bit c] at h3
            rw [Bool.and_eq_true] at h3
            refine ⟨?_, hc.1, h3.1⟩
            intro hcb
            subst hcb
            simp at h3
          · rintro ⟨hne, hcr, hcm⟩
            refine ⟨hcr, ?_⟩
            rw [hm2bit c, hcm]
            simp [Ne.symm hne]
        have hbmem : b ∈ (Finset.range k).filter (fun c => m.testBit c) :=
          Finset.mem_filter.mpr ⟨Finset.mem_range.mpr hbk, hb⟩
        rw [hc2, hset, Finset.card_erase_of_mem hbmem, ← hc1, hbc]
        rfl
      obtain ⟨hsplit, hdisj⟩ := cubeSet_split hbk hm2b hvb
      rw [hmeq, hsplit, Finset.card_union_of_disjoint hdisj,
        ih v m2 hm2lt hv hvm2 hbc2, ih (v ||| 2 ^ b) m2 hm2lt hvb2lt hvb2 hbc2]
      omega

/-- Pipeline invariant for an implicant: bounded value and mask, value
clear on masked positions, minterm set exactly the cube, within the
universe `U` of usable minterms. -/
def Good (k : Nat) (U : Finset Nat) (imp : Implicant) : Prop :=
  imp.value < 2 ^ k ∧ imp.mask < 2 ^ k ∧ imp.value &&& imp.mask = 0 ∧
  imp.minterms = cubeSet k imp.value imp.mask ∧ imp.minterms ⊆ U

theorem good_card {k : Nat} {U : Finset Nat} {imp : Implicant} (h : Good k U imp) :
    imp.minterms.card = 2 ^ bitCount imp.mask := by
  rw [h.2.2.2.1]
  exact cubeSet_card k (bitCount imp.mask) imp.value imp.mask h.2.1 h.1 h.2.2.1 rfl

theorem good_size_one {k : Nat} {U : Finset Nat} {ms : List Nat}
    (hms : ∀ m ∈ ms, m < 2 ^ k ∧ m ∈ U) :
    ∀ imp ∈ QuineMcCluskey.create_size_one_implicants ms, Good k U imp := by
  intro imp himp
  unfold QuineMcCluskey.create_size_one_implicants at himp
  obtain ⟨m, hm, heq⟩ := List.mem_map.mp himp
  obtain ⟨hmk, hmU⟩ := hms m hm
  subst heq
  refine ⟨hmk, Nat.pos_pow_of_pos k two_pos, Nat.and_zero m, ?_, ?_⟩
  · exact (cubeSet_mask_zero k m hmk).symm
  · intro x hx
    simp only [Finset.mem_singleton] at hx
    subst hx
    exact hmU

/-- The full analysis of one merge step on two invariant-carrying
implicants satisfying the pair condition of `_merge_implicants`. -/
theorem merge_pair_facts {k : Nat} {U : Finset Nat} {i1 i2 : Implicant}
    (h1 : Good k U i1) (h2 : Good k U i2)
    (hc1 : bitCount i2.value = bitCount i1.value + 1) (hc2 : i1.mask = i2.mask)
    (hc3 : bitCount (i1.value ^^^ i2.value) = 1) :
    ∃ b, b < k ∧
      i1.value ^^^ i2.value = 2 ^ b ∧
      i1.value.testBit b = false ∧
      i1.mask.testBit b = false ∧
      i2.value = i1.value ||| 2 ^ b ∧
      natAndNot i1.value (i1.value ^^^ i2.value) = i1.value ∧
      Disjoint i1.minterms i2.minterms ∧
      i1.minterms.card = i2.minterms.card ∧
      bitCount (i1.mask ||| (i1.value ^^^ i2.value)) = bitCount i1.mask + 1 ∧
      i1.minterms ∪ i2.minterms = cubeSet k i1.value (i1.mask ||| 2 ^ b) ∧
      Good k U { minterms := i1.minterms ∪ i2.minterms,
                 value := natAndNot i1.value (i1.value ^^^ i2.value),
                 mask := i1.mask ||| (i1.value ^^^ i2.value) } := by
  obtain ⟨hv1, hm1, hvm1, hmt1, hU1⟩ := h1
  obtain ⟨hv2, hm2, hvm2, hmt2, hU2⟩ := h2
  obtain ⟨b, hb⟩ := eq_two_pow_of_bitCount_eq_one _ hc3
  have hdlt : i1.value ^^^ i2.value < 2 ^ k := Nat.xor_lt_two_pow hv1 hv2
  have hbk : b < k := by
    rw [hb] at hdlt
    exact (Nat.pow_lt_pow_iff_right one_lt_two).mp hdlt
  have hv2bit : ∀ c, i2.value.testBit c = (xor (i1.value.testBit c) (decide (b = c))) := by
    intro c
    have h3 := congrArg (fun y => y.testBit c) hb
    simp only [Nat.testBit_xor, Nat.testBit_two_pow] at h3
    have h4 : xor (i1.value.testBit c) (xor (i1.value.testBit c) (i2.value.testBit c)) =
        xor (i1.value.testBit c) (decide (b = c)) := by rw [h3]
    rw [← Bool.xor_assoc] at h4
    simpa using h4
  have hv1b : i1.value.testBit b = false := by
    by_contra hcon
    rw [Bool.not_eq_false] at hcon
    have hcard1 : bitCount i1.value =
        ((Finset.range k).filter (fun c => i1.value.testBit c)).card :=
      bitCount_eq_card k _ hv1
    have hcard2 : bitCount i2.value =
        ((Finset.range k).filter (fun c => i2.value.testBit c)).card :=
      bitCount_eq_card k _ hv2
    have hset : (Finset.range k).filter (fun c => i2.value.testBit c) =
        ((Finset.range k).filter (fun c => i1.value.testBit c)).erase b := by
      ext c
      rw [Finset.mem_erase, Finset.mem_filter, Finset.mem_filter]
      constructor
      · intro hcmem
        have h3 := hcmem.2
        rw [hv2bit c] at h3
        by_cases hcb : b = c
        · subst hcb
          rw [hcon] at h3
          simp at h3
        · refine ⟨Ne.symm hcb, hcmem.1, ?_⟩
          simpa [hcb] using h3
      · rintro ⟨hne, hcr, hcm⟩
        refine ⟨hcr, ?_⟩
        rw [hv2bit c]
        simp [Ne.symm hne, hcm]
    have hbmem : b ∈ (Finset.range k).filter (fun c => i1.value.testBit c) :=
      Finset.mem_filter.mpr ⟨Finset.mem_range.mpr hbk, hcon⟩
    have hpos : 0 < ((Finset.range k).filter (fun c => i1.value.testBit c)).card :=
      Finset.card_pos.mpr ⟨b, hbmem⟩
    rw [hcard1, hcard2, hset, Finset.card_erase_of_mem hbmem] at hc1
    omega
  have hv2eq : i2.value = i1.value ||| 2 ^ b := by
    apply Nat.eq_of_testBit_eq
    intro c
    rw [hv2bit c, Nat.testBit_lor, Nat.testBit_two_pow]
    by_cases hcb : b = c
    · subst hcb
      rw [hv1b]
      simp
    · simp [hcb]
  have hm1b : i1.mask.testBit b = false := by
    have h3 := congrArg (fun y => y.testBit b) hvm2
    simp only [Nat.testBit_land, Nat.zero_testBit] at h3
    rw [hv2eq, Nat.testBit_lor, Nat.testBit_two_pow, ← hc2] at h3
    simpa using h3
  have hval : natAndNot i1.value (i1.value ^^^ i2.value) = i1.value := by
    apply Nat.eq_of_testBit_eq
    intro c
    rw [testBit_natAndNot, hb, Nat.testBit_two_pow]
    by_cases hcb : b = c
    · subst hcb
      rw [hv1b]
      rfl
    · simp [hcb]
  have hsplit := cubeSet_split (v := i1.value) hbk hm1b hv1b
  have hcube1 : i1.minterms = cubeSet k i1.value i1.mask := hmt1
  have hcube2 : i2.minterms = cubeSet k (i1.value ||| 2 ^ b) i1.mask := by
    rw [hmt2, ← hv2eq, hc2]
  have hdisj : Disjoint i1.minterms i2.minterms := by
    rw [hcube1, hcube2]
    exact hsplit.2
  have hunion : i1.minterms ∪ i2.minterms = cubeSet k i1.value (i1.mask ||| 2 ^ b) := by
    rw [hcube1, hcube2, hsplit.1]
  have hcards : i1.minterms.card = i2.minterms.card := by
    rw [hcube1, hcube2,
      cubeSet_card k (bitCount i1.mask) _ _ hm1 hv1 hvm1 rfl,
      cubeSet_card k (bitCount i1.mask) _ _ hm1
        (Nat.or_lt_two_pow hv1 (Nat.pow_lt_pow_right one_lt_two hbk)) ?_ rfl]
    apply Nat.eq_of_testBit_eq
    intro c
    rw [Nat.testBit_land, Nat.testBit_lor, Nat.testBit_two_pow, Nat.zero_testBit]
    have h3 := congrArg (fun y => y.testBit c) hvm1
    simp only [Nat.testBit_land, Nat.zero_testBit] at h3
    by_cases hcb : b = c
    · subst hcb
      rw [hm1b]
      simp
    · simp only [hcb, decide_False, Bool.or_false]
      rcases Bool.and_eq_false_iff.mp h3 with h4 | h4 <;> simp [h4]
  have hmask_lt : i1.mask ||| 2 ^ b < 2 ^ k :=
    Nat.or_lt_two_pow hm1 (Nat.pow_lt_pow_right one_lt_two hbk)
  have hbcmask : bitCount (i1.mask ||| 2 ^ b) = bitCount i1.mask + 1 := by
    rw [bitCount_eq_card k _ hmask_lt, bitCount_eq_card k _ hm1]
    have hset : (Finset.range k).filter (fun c => (i1.mask ||| 2 ^ b).testBit c) =
        insert b ((Finset.range k).filter (fun c => i1.mask.testBit c)) := by
      ext c
      rw [Finset.mem_insert, Finset.mem_filter, Finset.mem_filter]
      constructor
      · intro hcmem
        have h3 := hcmem.2
        rw [Nat.testBit_lor, Nat.testBit_two_pow] at h3
        by_cases hcb : b = c
        · exact Or.inl hcb.symm
        · right
          refine ⟨hcmem.1, ?_⟩
          simpa [hcb] using h3
      · intro hcmem
        cases hcmem with
        | inl h3 =>
            subst h3
            refine ⟨Finset.mem_range.mpr hbk, ?_⟩
            rw [Nat.testBit_lor, Nat.testBit_two_pow]
            simp
        | inr h3 =>
            refine ⟨h3.1, ?_⟩
            rw [Nat.testBit_lor, h3.2]
            rfl
    have hbnot : b ∉ (Finset.range k).filter (fun c => i1.mask.testBit c) := by
      intro hcon
      rw [Finset.mem_filter, hm1b] at hcon
      exact Bool.false_ne_true hcon.2
    rw [hset, Finset.card_insert_of_not_mem hbnot]
  have hvmask : i1.value &&& (i1.mask ||| 2 ^ b) = 0 := by
    apply Nat.eq_of_testBit_eq
    intro c
    rw [Nat.testBit_land, Nat.testBit_lor, Nat.testBit_two_pow, Nat.zero_testBit]
    have h3 := congrArg (fun y => y.testBit c) hvm1
    simp only [Nat.testBit_land, Nat.zero_testBit] at h3
    by_cases hcb : b = c
    · subst hcb
      rw [hv1b]
      simp
    · simp only [hcb, decide_False, Bool.or_false]
      rcases Bool.and_eq_false_iff.mp h3 with h4 | h4 <;> simp [h4]
  refine ⟨b, hbk, hb, hv1b, hm1b, hv2eq, hval, hdisj, hcards, by rw [hb]; exact hbcmask,
    hunion, ?_⟩
  refine ⟨?_, ?_, ?_, ?_, ?_⟩
  · rw [hval]
    exact hv1
  · rw [hb]
    exact hmask_lt
  · rw [hval, hb]
    exact hvmask
  · rw [hval, hb]
    exact hunion
  · intro x hx
    rcases Finset.mem_union.mp hx with h3 | h3
    · exact hU1 h3
    · exact hU2 h3

theorem good_mergeCandidates {k : Nat} {U : Finset Nat} {l : List Implicant}
    (hl : ∀ i ∈ l, Good k U i) :
    ∀ imp ∈ QuineMcCluskey.mergeCandidates l, Good k U imp := by
  intro imp himp
  unfold QuineMcCluskey.mergeCandidates at himp
  obtain ⟨i1, hi1, himp2⟩ := List.mem_flatMap.mp himp
  obtain ⟨i2, hi2, himp3⟩ := List.mem_filterMap.mp himp2
  by_cases hcond : bitCount i2.value = bitCount i1.value + 1 ∧ i1.mask = i2.mask ∧
      bitCount (i1.value ^^^ i2.value) = 1
  · rw [if_pos hcond] at himp3
    injection himp3 with h3
    obtain ⟨b, _, _, _, _, _, _, _, _, _, _, hgood⟩ :=
      merge_pair_facts (hl i1 hi1) (hl i2 hi2) hcond.1 hcond.2.1 hcond.2.2
    rw [← h3]
    exact hgood
  · rw [if_neg hcond] at himp3
    exact Option.noConfusion himp3

theorem dedupByMinterms_sub :
    ∀ (l : List Implicant), ∀ imp ∈ QuineMcCluskey.dedupByMinterms l, imp ∈ l := by
  have aux : ∀ (l : List Implicant) (acc : List Implicant × Finset (Finset Nat)),
      ∀ imp ∈ (l.foldl
        (fun acc imp =>
          if imp.minterms ∈ acc.2 then acc
          else (acc.1 ++ [imp], insert imp.minterms acc.2)) acc).1,
        imp ∈ acc.1 ∨ imp ∈ l := by
    intro l
    induction l with
    | nil =>
        intro acc imp himp
        exact Or.inl himp
    | cons x l ih =>
        intro acc imp himp
        rw [List.foldl_cons] at himp
        by_cases hx : x.minterms ∈ acc.2
        · rw [if_pos hx] at himp
          rcases ih acc imp himp with h | h
          · exact Or.inl h
          · exact Or.inr (List.mem_cons_of_mem x h)
        · rw [if_neg hx] at himp
          rcases ih _ imp himp with h | h
          · rcases List.mem_append.mp h with h2 | h2
            · exact Or.inl h2
            · simp only [List.mem_singleton] at h2
              exact Or.inr (h2 ▸ List.mem_cons_self x l)
          · exact Or.inr (List.mem_cons_of_mem x h)
  intro l imp himp
  unfold QuineMcCluskey.dedupByMinterms at himp
  rcases aux l ([], ∅) imp himp with h | h
  · exact absurd h (List.not_mem_nil imp)
  · exact h

theorem good_merge_implicants {k : Nat} {U : Finset Nat} {l : List Implicant}
    (hl : ∀ i ∈ l, Good k U i) :
    ∀ imp ∈ QuineMcCluskey.merge_implicants l, Good k U imp := by
  intro imp himp
  exact good_mergeCandidates hl imp
    (dedupByMinterms_sub _ imp himp)

theorem good_merge_stages {k : Nat} {U : Finset Nat} :
    ∀ (n : Nat) (cur : List Implicant), (∀ i ∈ cur, Good k U i) →
      ∀ g ∈ QuineMcCluskey.merge_stages n cur, ∀ imp ∈ g, Good k U imp := by
  intro n
  induction n with
  | zero =>
      intro cur hcur g hg imp himp
      unfold QuineMcCluskey.merge_stages at hg
      simp only [List.mem_singleton] at hg
      subst hg
      exact hcur imp himp
  | succ n ih =>
      intro cur hcur g hg imp himp
      unfold QuineMcCluskey.merge_stages at hg
      by_cases hmerged : (QuineMcCluskey.merge_implicants cur).isEmpty
      · rw [if_pos hmerged] at hg
        simp only [List.mem_singleton] at hg
        subst hg
        exact hcur imp himp
      · rw [if_neg hmerged] at hg
        rcases List.mem_cons.mp hg with h | h
        · subst h
          exact hcur imp himp
        · exact ih (QuineMcCluskey.merge_implicants cur)
            (good_merge_implicants hcur) g h imp himp

theorem eliminate_suboptimal_sub :
    ∀ (gs : List (List Implicant)) (g : List Implicant),
      g ∈ QuineMcCluskey.eliminate_suboptimal gs →
      ∀ imp ∈ g, ∃ g0 ∈ gs, imp ∈ g0 := by
  intro gs
  induction gs with
  | nil =>
      intro g hg
      unfold QuineMcCluskey.eliminate_suboptimal at hg
      exact absurd hg (List.not_mem_nil g)
  | cons low rest ih =>
      cases rest with
      | nil =>
          intro g hg imp himp
          unfold QuineMcCluskey.eliminate_suboptimal at hg
          simp only [List.mem_singleton] at hg
          exact ⟨low, List.mem_cons_self low [], hg ▸ himp⟩
      | cons up rest2 =>
          intro g hg imp himp
          unfold QuineMcCluskey.eliminate_suboptimal at hg
          by_cases hk : (low.filter (fun li =>
              !(up.any (fun ui => decide (li.minterms ⊆ ui.minterms))))).isEmpty
          · rw [if_pos hk] at hg
            obtain ⟨g0, hg0, himp0⟩ := ih g hg imp himp
            exact ⟨g0, List.mem_cons_of_mem low hg0, himp0⟩
          · rw [if_neg hk] at hg
            rcases List.mem_cons.mp hg with h | h
            · subst h
              exact ⟨low, List.mem_cons_self low _, List.mem_of_mem_filter himp⟩
            · obtain ⟨g0, hg0, himp0⟩ := ih g h imp himp
              exact ⟨g0, List.mem_cons_of_mem low hg0, himp0⟩

theorem and_or_self_left (a b : Nat) : a &&& (a ||| b) = a := by
  apply Nat.eq_of_testBit_eq
  intro c
  rw [Nat.testBit_land, Nat.testBit_lor]
  cases a.testBit c <;> cases b.testBit c <;> rfl

theorem and_or_self_right (a b : Nat) : b &&& (a ||| b) = b := by
  apply Nat.eq_of_testBit_eq
  intro c
  rw [Nat.testBit_land, Nat.testBit_lor]
  cases a.testBit c <;> cases b.testBit c <;> rfl

theorem and_sub_trans {a x y : Nat} (h1 : a &&& x = a) (h2 : x &&& y = x) :
    a &&& y = a := by
  apply Nat.eq_of_testBit_eq
  intro c
  have e1 := congrArg (fun z => z.testBit c) h1
  have e2 := congrArg (fun z => z.testBit c) h2
  simp only [Nat.testBit_land] at e1 e2
  rw [Nat.testBit_land]
  cases ha : a.testBit c <;> cases hx : x.testBit c <;>
    cases hy : y.testBit c <;> simp_all

theorem absorb_sub (terms : List Nat) :
    ∀ x ∈ QuineMcCluskey.absorb terms, x ∈ terms := by
  have aux : ∀ (l : List Nat) (acc : List Nat),
      ∀ x ∈ l.foldl (fun kept term =>
        if kept.any (fun kt =>
            decide (bitCount kt < bitCount term) && decide (kt &&& term = kt)) then
          kept
        else
          kept ++ [term]) acc, x ∈ acc ∨ x ∈ l := by
    intro l
    induction l with
    | nil =>
        intro acc x hx
        exact Or.inl hx
    | cons t l ih =>
        intro acc x hx
        rw [List.foldl_cons] at hx
        by_cases hc : acc.any (fun kt =>
            decide (bitCount kt < bitCount t) && decide (kt &&& t = kt))
        · rw [if_pos hc] at hx
          rcases ih acc x hx with h | h
          · exact Or.inl h
          · exact Or.inr (List.mem_cons_of_mem t h)
        · rw [if_neg hc] at hx
          rcases ih _ x hx with h | h
          · rcases List.mem_append.mp h with h2 | h2
            · exact Or.inl h2
            · simp only [List.mem_singleton] at h2
              exact Or.inr (h2 ▸ List.mem_cons_self t l)
          · exact Or.inr (List.mem_cons_of_mem t h)
  intro x hx
  unfold QuineMcCluskey.absorb at hx
  rcases aux _ [] x hx with h | h
  · exact absurd h (List.not_mem_nil x)
  · exact (List.perm_insertionSort _ terms).mem_iff.mp h

/-- Soundness of the Petrick product fold: every surviving encoded
solution extends some element of the accumulator and hits every processed
clause. -/
theorem petrick_fold_sound :
    ∀ (clauses : List (List Nat)) (sols0 sols : List Nat),
      clauses.foldl (fun acc clause =>
        match acc with
        | none => some clause
        | some sols => some (QuineMcCluskey.absorb
            ((sols.flatMap (fun a => clause.map (fun b => a ||| b))).dedup)))
        (some sols0) = some sols →
      ∀ x ∈ sols, (∃ a ∈ sols0, a &&& x = a) ∧
        ∀ c ∈ clauses, ∃ t ∈ c, t &&& x = t := by
  intro clauses
  induction clauses with
  | nil =>
      intro sols0 sols h x hx
      rw [List.foldl_nil] at h
      injection h with h2
      subst h2
      refine ⟨⟨x, hx, ?_⟩, fun c hc => absurd hc (List.not_mem_nil c)⟩
      apply Nat.eq_of_testBit_eq
      intro c
      rw [Nat.testBit_land]
      cases x.testBit c <;> rfl
  | cons c rest ih =>
      intro sols0 sols h x hx
      rw [List.foldl_cons] at h
      obtain ⟨⟨a1, ha1, ha1x⟩, hrest⟩ := ih _ sols h x hx
      have ha1mem := absorb_sub _ a1 ha1
      rw [List.mem_dedup] at ha1mem
      obtain ⟨a, ha, hmem2⟩ := List.mem_flatMap.mp ha1mem
      obtain ⟨b, hb, heq⟩ := List.mem_map.mp hmem2
      subst heq
      refine ⟨⟨a, ha, and_sub_trans (and_or_self_left a b) ha1x⟩, ?_⟩
      intro c2 hc2
      rcases List.mem_cons.mp hc2 with h2 | h2
      · subst h2
        exact ⟨b, hb, and_sub_trans (and_or_self_right a b) ha1x⟩
      · exact hrest c2 h2

theorem foldl_addNew_facts {α : Type} [DecidableEq α] :
    ∀ (l : List α) (acc : List α),
      (∀ x ∈ acc, x ∈ l.foldl (fun a i => if i ∈ a then a else a ++ [i]) acc) ∧
      (∀ x ∈ l, x ∈ l.foldl (fun a i => if i ∈ a then a else a ++ [i]) acc) ∧
      (∀ x ∈ l.foldl (fun a i => if i ∈ a then a else a ++ [i]) acc,
        x ∈ acc ∨ x ∈ l) := by
  intro l
  induction l with
  | nil =>
      intro acc
      exact ⟨fun x hx => hx, fun x hx => absurd hx (List.not_mem_nil x),
        fun x hx => Or.inl hx⟩
  | cons i l ih =>
      intro acc
      simp only [List.foldl_cons]
      by_cases hi : i ∈ acc
      · rw [if_pos hi]
        obtain ⟨h1, h2, h3⟩ := ih acc
        refine ⟨h1, ?_, ?_⟩
        · intro x hx
          rcases List.mem_cons.mp hx with h4 | h4
          · exact h4 ▸ h1 i hi
          · exact h2 x h4
        · intro x hx
          rcases h3 x hx with h4 | h4
          · exact Or.inl h4
          · exact Or.inr (List.mem_cons_of_mem i h4)
      · rw [if_neg hi]
        obtain ⟨h1, h2, h3⟩ := ih (acc ++ [i])
        refine ⟨?_, ?_, ?_⟩
        · intro x hx
          exact h1 x (List.mem_append.mpr (Or.inl hx))
        · intro x hx
          rcases List.mem_cons.mp hx with h4 | h4
          · exact h4 ▸ h1 i (List.mem_append.mpr (Or.inr (List.mem_singleton.mpr rfl)))
          · exact h2 x h4
        · intro x hx
          rcases h3 x hx with h4 | h4
          · rcases List.mem_append.mp h4 with h5 | h5
            · exact Or.inl h5
            · simp only [List.mem_singleton] at h5
              exact Or.inr (h5 ▸ List.mem_cons_self i l)
          · exact Or.inr (List.mem_cons_of_mem i h4)

theorem petrick_candidates_facts (pool : List Implicant) :
    ∀ (ms : List Nat),
      (∀ m ∈ ms, ∀ imp ∈ QuineMcCluskey.implicants_fulfilling pool m,
        imp ∈ QuineMcCluskey.petrick_candidates pool ms) ∧
      (∀ imp ∈ QuineMcCluskey.petrick_candidates pool ms, imp ∈ pool) := by
  have aux : ∀ (ms : List Nat) (acc : List Implicant),
      (∀ imp ∈ acc, imp ∈ ms.foldl (fun acc m =>
        (QuineMcCluskey.implicants_fulfilling pool m).foldl
          (fun acc2 imp => if imp ∈ acc2 then acc2 else acc2 ++ [imp]) acc) acc) ∧
      (∀ m ∈ ms, ∀ imp ∈ QuineMcCluskey.implicants_fulfilling pool m,
        imp ∈ ms.foldl (fun acc m =>
          (QuineMcCluskey.implicants_fulfilling pool m).foldl
            (fun acc2 imp => if imp ∈ acc2 then acc2 else acc2 ++ [imp]) acc) acc) ∧
      (∀ imp ∈ ms.foldl (fun acc m =>
          (QuineMcCluskey.implicants_fulfilling pool m).foldl
            (fun acc2 imp => if imp ∈ acc2 then acc2 else acc2 ++ [imp]) acc) acc,
        imp ∈ acc ∨ imp ∈ pool) := by
    intro ms
    induction ms with
    | nil =>
        intro acc
        exact ⟨fun imp h => h, fun m hm => absurd hm (List.not_mem_nil m),
          fun imp h => Or.inl h⟩
    | cons m ms ih =>
        intro acc
        simp only [List.foldl_cons]
        set acc2 := (QuineMcCluskey.implicants_fulfilling pool m).foldl
          (fun a i => if i ∈ a then a else a ++ [i]) acc with hacc2
        obtain ⟨g1, g2, g3⟩ := foldl_addNew_facts
          (QuineMcCluskey.implicants_fulfilling pool m) acc
        obtain ⟨h1, h2, h3⟩ := ih acc2
        refine ⟨?_, ?_, ?_⟩
        · intro imp himp
          exact h1 imp (g1 imp himp)
        · intro m2 hm2 imp himp
          rcases List.mem_cons.mp hm2 with h4 | h4
          · subst h4
            exact h1 imp (g2 imp himp)
          · exact h2 m2 h4 imp himp
        · intro imp himp
          rcases h3 imp himp with h4 | h4
          · rcases g3 imp h4 with h5 | h5
            · exact Or.inl h5
            · exact Or.inr (List.mem_of_mem_filter h5)
          · exact Or.inr h4
  intro ms
  obtain ⟨h1, h2, h3⟩ := aux ms []
  refine ⟨h2, ?_⟩
  intro imp himp
  rcases h3 imp himp with h4 | h4
  · exact absurd h4 (List.not_mem_nil imp)
  · exact h4

theorem decode_fold_none (cands : List Implicant) (x : Nat) :
    ∀ (bits : List Nat),
      bits.foldl (fun acc bit =>
        match acc with
        | none => none
        | some sol =>
            if (x >>> bit) &&& 1 = 1 then
              (cands.get? bit).map (fun imp => sol ++ [imp])
            else
              some sol) none = none := by
  intro bits
  induction bits with
  | nil => rfl
  | cons b bits ih =>
      rw [List.foldl_cons]
      exact ih

theorem decode_fold_facts (cands : List Implicant) (x : Nat) :
    ∀ (bits : List Nat) (acc out : List Implicant),
      bits.foldl (fun acc bit =>
        match acc with
        | none => none
        | some sol =>
            if (x >>> bit) &&& 1 = 1 then
              (cands.get? bit).map (fun imp => sol ++ [imp])
            else
              some sol) (some acc) = some out →
      (∀ imp ∈ acc, imp ∈ out) ∧
      (∀ imp ∈ out, imp ∈ acc ∨ imp ∈ cands) ∧
      (∀ b ∈ bits, (x >>> b) &&& 1 = 1 →
        ∃ hb : b < cands.length, cands.get ⟨b, hb⟩ ∈ out) := by
  intro bits
  induction bits with
  | nil =>
      intro acc out h
      rw [List.foldl_nil] at h
      injection h with h2
      subst h2
      exact ⟨fun imp h3 => h3, fun imp h3 => Or.inl h3,
        fun b hb => absurd hb (List.not_mem_nil b)⟩
  | cons bit bits ih =>
      intro acc out h
      rw [List.foldl_cons] at h
      by_cases hbit : (x >>> bit) &&& 1 = 1
      · simp only [hbit, if_true] at h
        cases hget : cands.get? bit with
        | none =>
            rw [hget] at h
            simp only [Option.map_none'] at h
            rw [decode_fold_none] at h
            exact Option.noConfusion h
        | some imp0 =>
            rw [hget] at h
            simp only [Option.map_some'] at h
            obtain ⟨h1, h2, h3⟩ := ih (acc ++ [imp0]) out h
            have hblt : bit < cands.length := by
              by_contra hc
              push_neg at hc
              rw [List.get?_eq_none.mpr hc] at hget
              exact Option.noConfusion hget
            refine ⟨?_, ?_, ?_⟩
            · intro imp himp
              exact h1 imp (List.mem_append.mpr (Or.inl himp))
            · intro imp himp
              rcases h2 imp himp with h4 | h4
              · rcases List.mem_append.mp h4 with h5 | h5
                · exact Or.inl h5
                · simp only [List.mem_singleton] at h5
                  subst h5
                  right
                  have : cands.get ⟨bit, hblt⟩ = imp := by
                    have := List.get?_eq_get hblt
                    rw [hget] at this
                    injection this with h6
                    exact h6.symm
                  rw [← this]
                  exact List.get_mem cands bit hblt
              · exact Or.inr h4
            · intro b hb hxb
              rcases List.mem_cons.mp hb with h4 | h4
              · subst h4
                refine ⟨hblt, ?_⟩
                have hval : cands.get ⟨b, hblt⟩ = imp0 := by
                  have := List.get?_eq_get hblt
                  rw [hget] at this
                  injection this with h6
                  exact h6.symm
                rw [hval]
                exact h1 imp0 (List.mem_append.mpr
                  (Or.inr (List.mem_singleton.mpr rfl)))
              · exact h3 b h4 hxb
      · simp only [hbit, if_false] at h
        obtain ⟨h1, h2, h3⟩ := ih acc out h
        refine ⟨h1, h2, ?_⟩
        intro b hb hxb
        rcases List.mem_cons.mp hb with h4 | h4
        · subst h4
          exact absurd hxb hbit
        · exact h3 b h4 hxb

theorem decode_solution_facts {cands : List Implicant} {x : Nat}
    {out : List Implicant}
    (h : QuineMcCluskey.decode_solution cands x = some out) :
    (∀ imp ∈ out, imp ∈ cands) ∧
    (∀ b, x.testBit b = true →
      ∃ hb : b < cands.length, cands.get ⟨b, hb⟩ ∈ out) := by
  unfold QuineMcCluskey.decode_solution at h
  obtain ⟨h1, h2, h3⟩ := decode_fold_facts cands x _ [] out h
  refine ⟨?_, ?_⟩
  · intro imp himp
    rcases h2 imp himp with h4 | h4
    · exact absurd h4 (List.not_mem_nil imp)
    · exact h4
  · intro b hb
    refine h3 b ?_ ?_
    · exact List.mem_range.mpr (testBit_lt_bitLength x b hb)
    · rw [shiftRight_and_one, hb]
      rfl

theorem filter_min_bit_count_sub {terms filtered : List Nat}
    (h : QuineMcCluskey.filter_min_bit_count terms = some filtered) :
    ∀ x ∈ filtered, x ∈ terms := by
  unfold QuineMcCluskey.filter_min_bit_count at h
  cases hmin : (terms.map bitCount).min? with
  | none =>
      rw [hmin] at h
      exact Option.noConfusion h
  | some mn =>
      rw [hmin] at h
      injection h with h2
      subst h2
      intro x hx
      exact List.mem_of_mem_filter hx

theorem optionMapM_mem {α β : Type} (f : α → Option β) :
    ∀ (l : List α) (out : List β), l.mapM f = some out →
      ∀ b ∈ out, ∃ a ∈ l, f a = some b := by
  intro l
  induction l with
  | nil =>
      intro out h b hb
      simp only [List.mapM_nil] at h
      injection h with h2
      subst h2
      exact absurd hb (List.not_mem_nil b)
  | cons x l ih =>
      intro out h b hb
      rw [List.mapM_cons] at h
      cases hx : f x with
      | none =>
          rw [hx] at h
          simp at h
      | some y =>
          rw [hx] at h
          cases hl : l.mapM f with
          | none =>
              rw [hl] at h
              simp at h
          | some ys =>
              rw [hl] at h
              have h5 : some (y :: ys) = some out := h
              have hout : out = y :: ys := by
                injection h5 with h6
                exact h6.symm
              subst hout
              rcases List.mem_cons.mp hb with h4 | h4
              · exact ⟨x, List.mem_cons_self x l, h4 ▸ hx⟩
              · obtain ⟨a, ha, hfa⟩ := ih ys hl b h4
                exact ⟨a, List.mem_cons_of_mem x ha, hfa⟩

/-- Soundness of `_find_minimal_expression_petricks_method`: every
returned implicant set draws from the pool and covers every remaining
minterm. -/
theorem find_minimal_facts {variable_count : Nat} {pool : List Implicant}
    {remaining_sorted : List Nat} {optimal : List (List Implicant)}
    (h : QuineMcCluskey.find_minimal_expression_petricks_method variable_count pool
      remaining_sorted = some optimal) :
    ∀ additional ∈ optimal,
      (∀ imp ∈ additional, imp ∈ pool) ∧
      (∀ m ∈ remaining_sorted, ∃ imp ∈ additional, m ∈ imp.minterms) := by
  unfold QuineMcCluskey.find_minimal_expression_petricks_method at h
  simp only [] at h
  split at h
  · exact Option.noConfusion h
  next sols hposs =>
  split at h
  · exact Option.noConfusion h
  next filtered hfil =>
  split at h
  · exact Option.noConfusion h
  next decoded hdec =>
  split at h
  · exact Option.noConfusion h
  next mn hmn =>
  injection h with hopt
  intro additional hadd
  rw [← hopt] at hadd
  obtain ⟨p, hp, hpeq⟩ := List.mem_map.mp hadd
  have hpc := List.mem_of_mem_filter hp
  obtain ⟨imps0, himps0, hpeq2⟩ := List.mem_map.mp hpc
  have himps : additional ∈ decoded := by
    rw [← hpeq, ← hpeq2]
    exact himps0
  obtain ⟨xval, hxfil, hxdec⟩ := optionMapM_mem _ _ _ hdec additional himps
  have hxsols : xval ∈ sols := filter_min_bit_count_sub hfil xval hxfil
  obtain ⟨hdecsub, hdecbit⟩ := decode_solution_facts hxdec
  have hcand := petrick_candidates_facts pool remaining_sorted
  have hhits : ∀ m ∈ remaining_sorted, ∃ t ∈
      ((QuineMcCluskey.implicants_fulfilling pool m).map
        (fun imp => 1 <<< (QuineMcCluskey.petrick_candidates pool
          remaining_sorted).indexOf imp)).dedup, t &&& xval = t := by
    cases hrs : remaining_sorted.map (fun m =>
        ((QuineMcCluskey.implicants_fulfilling pool m).map
          (fun imp => 1 <<< (QuineMcCluskey.petrick_candidates pool
            remaining_sorted).indexOf imp)).dedup) with
    | nil =>
        rw [hrs, List.foldl_nil] at hposs
        exact Option.noConfusion hposs
    | cons c0 rest =>
        rw [hrs, List.foldl_cons] at hposs
        obtain ⟨⟨a0, ha0, ha0x⟩, hclauses⟩ := petrick_fold_sound rest c0 sols hposs
          xval hxsols
        intro m hm
        have hcmem : ((QuineMcCluskey.implicants_fulfilling pool m).map
            (fun imp => 1 <<< (QuineMcCluskey.petrick_candidates pool
              remaining_sorted).indexOf imp)).dedup ∈ c0 :: rest := by
          rw [← hrs]
          exact List.mem_map.mpr ⟨m, hm, rfl⟩
        rcases List.mem_cons.mp hcmem with hcase | hcase
        · rw [hcase]
          exact ⟨a0, ha0, ha0x⟩
        · exact hclauses _ hcase
  refine ⟨?_, ?_⟩
  · intro imp himp
    exact hcand.2 imp (hdecsub imp himp)
  · intro m hm
    obtain ⟨t, ht, htx⟩ := hhits m hm
    rw [List.mem_dedup] at ht
    obtain ⟨imp, himpf, hteq⟩ := List.mem_map.mp ht
    have himpc : imp ∈ QuineMcCluskey.petrick_candidates pool remaining_sorted :=
      hcand.1 m hm imp himpf
    have hidx : (QuineMcCluskey.petrick_candidates pool remaining_sorted).indexOf imp <
        (QuineMcCluskey.petrick_candidates pool remaining_sorted).length :=
      List.indexOf_lt_length.mpr himpc
    have hxbit : xval.testBit ((QuineMcCluskey.petrick_candidates pool
        remaining_sorted).indexOf imp) = true := by
      rw [← hteq, Nat.one_shiftLeft] at htx
      exact (two_pow_and_eq_iff _ _).mp htx
    obtain ⟨hblt, hbmem⟩ := hdecbit _ hxbit
    have hgeteq : (QuineMcCluskey.petrick_candidates pool remaining_sorted).get
        ⟨(QuineMcCluskey.petrick_candidates pool remaining_sorted).indexOf imp,
          hblt⟩ = imp := by
      simp only [List.get_eq_getElem]
      exact List.getElem_indexOf hidx
    rw [hgeteq] at hbmem
    refine ⟨imp, hbmem, ?_⟩
    unfold QuineMcCluskey.implicants_fulfilling at himpf
    have := List.of_mem_filter himpf
    exact of_decide_eq_true this

theorem evaluate_binop_node (d : List (String × Nat)) (a b : ParseTreeElement)
    (op : Operator) (x y : Nat)
    (hx : evaluate a d = some x) (hy : evaluate b d = some y) :
    evaluate (ParseTreeElement.BinaryOperator a op b) d =
      (match op with
       | Operator.Or => some (x ||| y)
       | Operator.And => some (x &&& y)
       | Operator.Xor => some (x ^^^ y)
       | Operator.Nand => some (if x &&& y = 0 then 1 else 0)
       | Operator.Nor => some (if x ||| y = 0 then 1 else 0)
       | Operator.Not => none) := by
  unfold evaluate
  rw [hx, hy]
  rfl

theorem and_bits {x y : Nat} (hx : x ≤ 1) (hy : y ≤ 1) :
    x &&& y ≤ 1 ∧ (x &&& y = 1 ↔ x = 1 ∧ y = 1) := by
  interval_cases x <;> interval_cases y <;> exact ⟨by decide, by decide⟩

theorem or_bits {x y : Nat} (hx : x ≤ 1) (hy : y ≤ 1) :
    x ||| y ≤ 1 ∧ (x ||| y = 0 ↔ x = 0 ∧ y = 0) := by
  interval_cases x <;> interval_cases y <;> exact ⟨by decide, by decide⟩

theorem eval_and_chain (d : List (String × Nat)) :
    ∀ (ts : List ParseTreeElement) (acc : ParseTreeElement) (x : Nat),
      evaluate acc d = some x → x ≤ 1 →
      (∀ t ∈ ts, ∃ y, evaluate t d = some y ∧ y ≤ 1) →
      ∃ z, evaluate (ts.foldl (fun a t =>
          ParseTreeElement.BinaryOperator a Operator.And t) acc) d = some z ∧
        z ≤ 1 ∧ (z = 1 ↔ (x = 1 ∧ ∀ t ∈ ts, evaluate t d = some 1)) := by
  intro ts
  induction ts with
  | nil =>
      intro acc x hx hx1 hts
      exact ⟨x, hx, hx1, by simp⟩
  | cons t ts ih =>
      intro acc x hx hx1 hts
      obtain ⟨y, hy, hy1⟩ := hts t (List.mem_cons_self t ts)
      have hnode := evaluate_binop_node d acc t Operator.And x y hx hy
      obtain ⟨handle, hiff⟩ := and_bits hx1 hy1
      obtain ⟨z, hz, hz1, hziff⟩ := ih _ (x &&& y) hnode handle
        (fun t2 ht2 => hts t2 (List.mem_cons_of_mem t ht2))
      refine ⟨z, hz, hz1, ?_⟩
      rw [hziff, hiff]
      constructor
      · rintro ⟨⟨hx2, hy2⟩, hall⟩
        refine ⟨hx2, ?_⟩
        intro t2 ht2
        rcases List.mem_cons.mp ht2 with h4 | h4
        · subst h4
          rw [hy, hy2]
        · exact hall t2 h4
      · rintro ⟨hx2, hall⟩
        have hy2 : y = 1 := by
          have h7 := hall t (List.mem_cons_self t ts)
          rw [hy] at h7
          exact Option.some_inj.mp h7
        exact ⟨⟨hx2, hy2⟩, fun t2 ht2 => hall t2 (List.mem_cons_of_mem t ht2)⟩

theorem eval_or_chain (d : List (String × Nat)) :
    ∀ (ts : List ParseTreeElement) (acc : ParseTreeElement) (x : Nat),
      evaluate acc d = some x → x ≤ 1 →
      (∀ t ∈ ts, ∃ y, evaluate t d = some y ∧ y ≤ 1) →
      ∃ z, evaluate (ts.foldl (fun a t =>
          ParseTreeElement.BinaryOperator a Operator.Or t) acc) d = some z ∧
        z ≤ 1 ∧ (z = 0 ↔ (x = 0 ∧ ∀ t ∈ ts, evaluate t d = some 0)) := by
  intro ts
  induction ts with
  | nil =>
      intro acc x hx hx1 hts
      exact ⟨x, hx, hx1, by simp⟩
  | cons t ts ih =>
      intro acc x hx hx1 hts
      obtain ⟨y, hy, hy1⟩ := hts t (List.mem_cons_self t ts)
      have hnode := evaluate_binop_node d acc t Operator.Or x y hx hy
      obtain ⟨handle, hiff⟩ := or_bits hx1 hy1
      obtain ⟨z, hz, hz1, hziff⟩ := ih _ (x ||| y) hnode handle
        (fun t2 ht2 => hts t2 (List.mem_cons_of_mem t ht2))
      refine ⟨z, hz, hz1, ?_⟩
      rw [hziff, hiff]
      constructor
      · rintro ⟨⟨hx2, hy2⟩, hall⟩
        refine ⟨hx2, ?_⟩
        intro t2 ht2
        rcases List.mem_cons.mp ht2 with h4 | h4
        · subst h4
          rw [hy, hy2]
        · exact hall t2 h4
      · rintro ⟨hx2, hall⟩
        have hy2 : y = 0 := by
          have h7 := hall t (List.mem_cons_self t ts)
          rw [hy] at h7
          exact Option.some_inj.mp h7
        exact ⟨⟨hx2, hy2⟩, fun t2 ht2 => hall t2 (List.mem_cons_of_mem t ht2)⟩

theorem optionMapM_some {α β : Type} (f : α → Option β) :
    ∀ (l : List α) (out : List β), l.mapM f = some out →
      out.length = l.length ∧
      ∀ j, ∀ hj : j < l.length, ∃ hjo : j < out.length,
        f (l.get ⟨j, hj⟩) = some (out.get ⟨j, hjo⟩) := by
  intro l
  induction l with
  | nil =>
      intro out h
      simp only [List.mapM_nil] at h
      injection h with h2
      subst h2
      exact ⟨rfl, fun j hj => absurd hj (by simp)⟩
  | cons x l ih =>
      intro out h
      rw [List.mapM_cons] at h
      cases hx : f x with
      | none =>
          rw [hx] at h
          simp at h
      | some y =>
          rw [hx] at h
          cases hl : l.mapM f with
          | none =>
              rw [hl] at h
              simp at h
          | some ys =>
              rw [hl] at h
              have h5 : some (y :: ys) = some out := h
              have hout : out = y :: ys := by
                injection h5 with h6
                exact h6.symm
              subst hout
              obtain ⟨hlen, hpt⟩ := ih ys hl
              refine ⟨by simp [hlen], ?_⟩
              intro j hj
              cases j with
              | zero => exact ⟨by simp, by simpa using hx⟩
              | succ j =>
                  have hjl : j < l.length := by simpa using hj
                  obtain ⟨hjo, hfj⟩ := hpt j hjl
                  exact ⟨by simpa using hjo, by simpa using hfj⟩

theorem bitsMSB_getElem (k i p : Nat) (hp : p < k)
    (hp2 : p < (bitsMSB k i).length) :
    (bitsMSB k i)[p] = (i >>> (k - 1 - p)) &&& 1 := by
  unfold bitsMSB
  rw [List.getElem_map, List.getElem_reverse, List.getElem_range]
  congr 1
  rw [List.length_range]

theorem lookup_zip_getElem {names : List String} {bs : List Nat}
    (hnd : names.Nodup) (hlen : bs.length = names.length)
    (p : Nat) (hp : p < names.length) (hpb : p < bs.length) :
    (names.zip bs).lookup names[p] = some bs[p] := by
  have hkeys : ((names.zip bs).map Prod.fst).Nodup := by
    rw [List.map_fst_zip names bs (by rw [hlen])]
    exact hnd
  apply (lookup_eq_some_iff hkeys _ _).mpr
  have hpz : p < (names.zip bs).length := by
    rw [List.length_zip, hlen]
    simp
    exact hp
  have hget : (names.zip bs)[p] = (names[p], bs[p]) := by
    rw [List.getElem_zip]
  rw [← hget]
  exact List.getElem_mem hpz

/-- Semantics of a rendered implicant term at a canonical assignment: the
And-joined minterm evaluates to the target value 1 (the Or-joined maxterm
to its target 0) exactly when the index agrees with the implicant value on
every unmasked bit position. -/
theorem as_mterm_eval {names : List String} {imp : Implicant} {mt : Bool}
    {m : ParseTreeElement} {i : Nat}
    (hnd : names.Nodup)
    (hm : imp.as_mterm names mt = some m) :
    ∃ z, evaluate m (names.zip (bitsMSB names.length i)) = some z ∧ z ≤ 1 ∧
      ((z = (if mt then 1 else 0)) ↔
        ∀ c < names.length, imp.mask.testBit c = false →
          i.testBit c = imp.value.testBit c) := by
  classical
  set k := names.length with hk
  set d := names.zip (bitsMSB k i) with hd
  set tgt : Nat := if mt then 1 else 0 with htgt
  have hm2 : BinaryOperator.join (if mt then Operator.And else Operator.Or)
      (names.enum.filterMap (fun p =>
        if (imp.mask >>> (names.length - 1 - p.1)) &&& 1 = 0 then
          some (if xor (decide ((imp.value >>> (names.length - 1 - p.1)) &&& 1 ≠ 0)) mt
              then
            ParseTreeElement.UnaryOperator Operator.Not (ParseTreeElement.Variable p.2)
          else
            ParseTreeElement.Variable p.2)
        else
          none)) = some m := hm
  have hvar_eval : ∀ nm2, evaluate (ParseTreeElement.Variable nm2) d = d.lookup nm2 :=
    fun _ => rfl
  have hnot_eval : ∀ nm2,
      evaluate (ParseTreeElement.UnaryOperator Operator.Not
        (ParseTreeElement.Variable nm2)) d =
      (d.lookup nm2).map (fun x => if x = 0 then 1 else 0) := by
    intro nm2
    unfold evaluate
    rw [hvar_eval nm2]
    simp
  have hlookup : ∀ p, ∀ hp : p < k,
      d.lookup names[p] = some (if i.testBit (k - 1 - p) then 1 else 0) := by
    intro p hp
    have hpb : p < (bitsMSB k i).length := by rw [bitsMSB_length]; exact hp
    rw [hd, lookup_zip_getElem hnd (bitsMSB_length k i) p hp hpb]
    congr 1
    rw [bitsMSB_getElem k i p hp hpb, shiftRight_and_one]
  -- analysis of one produced literal
  have hanalysis : ∀ p, ∀ hp : p < k, ∀ l : ParseTreeElement,
      (if (imp.mask >>> (k - 1 - p)) &&& 1 = 0 then
          some (if xor (decide ((imp.value >>> (k - 1 - p)) &&& 1 ≠ 0)) mt then
            ParseTreeElement.UnaryOperator Operator.Not
              (ParseTreeElement.Variable (names[p]))
          else
            ParseTreeElement.Variable (names[p]))
        else
          none) = some l →
      imp.mask.testBit (k - 1 - p) = false ∧
      ∃ y, evaluate l d = some y ∧ y ≤ 1 ∧
        ((y = tgt) ↔ i.testBit (k - 1 - p) = imp.value.testBit (k - 1 - p)) := by
    intro p hp l hf
    by_cases hmask : (imp.mask >>> (k - 1 - p)) &&& 1 = 0
    · rw [if_pos hmask] at hf
      have hmaskbit : imp.mask.testBit (k - 1 - p) = false := by
        rw [shiftRight_and_one] at hmask
        by_cases h3 : imp.mask.testBit (k - 1 - p)
        · rw [h3] at hmask
          simp at hmask
        · simpa using h3
      refine ⟨hmaskbit, ?_⟩
      injection hf with hl
      have hvb : (decide ((imp.value >>> (k - 1 - p)) &&& 1 ≠ 0)) =
          imp.value.testBit (k - 1 - p) := by
        rw [shiftRight_and_one]
        cases imp.value.testBit (k - 1 - p) <;> simp
      rw [hvb] at hl
      cases hib : i.testBit (k - 1 - p) <;>
        cases hvb2 : imp.value.testBit (k - 1 - p) <;>
        rw [hvb2] at hl <;> cases hmt : mt <;> rw [hmt] at hl <;>
          simp only [Bool.xor_false, Bool.xor_true, Bool.not_true, Bool.not_false,
            Bool.false_eq_true, Bool.true_eq_false, eq_self_iff_true,
            if_true, if_false] at hl <;> rw [← hl]
      all_goals first
        | (refine ⟨1, ?_, by omega, ?_⟩
           · rw [hnot_eval, hlookup p hp, hib]
             rfl
           · rw [htgt, hmt]
             simp [hib, hvb2])
        | (refine ⟨0, ?_, by omega, ?_⟩
           · rw [hnot_eval, hlookup p hp, hib]
             rfl
           · rw [htgt, hmt]
             simp [hib, hvb2])
        | (refine ⟨1, ?_, by omega, ?_⟩
           · rw [hvar_eval, hlookup p hp, hib]
             rfl
           · rw [htgt, hmt]
             simp [hib, hvb2])
        | (refine ⟨0, ?_, by omega, ?_⟩
           · rw [hvar_eval, hlookup p hp, hib]
             rfl
           · rw [htgt, hmt]
             simp [hib, hvb2])
    · rw [if_neg hmask] at hf
      exact Option.noConfusion hf
  have hlitmem : ∀ l ∈ names.enum.filterMap (fun p =>
      if (imp.mask >>> (names.length - 1 - p.1)) &&& 1 = 0 then
        some (if xor (decide ((imp.value >>> (names.length - 1 - p.1)) &&& 1 ≠ 0)) mt
            then
          ParseTreeElement.UnaryOperator Operator.Not (ParseTreeElement.Variable p.2)
        else
          ParseTreeElement.Variable p.2)
      else
        none),
      ∃ y, evaluate l d = some y ∧ y ≤ 1 ∧ ∃ b, b < k ∧
        imp.mask.testBit b = false ∧
        ((y = tgt) ↔ i.testBit b = imp.value.testBit b) := by
    intro l hl
    obtain ⟨pr, hpr, hf⟩ := List.mem_filterMap.mp hl
    obtain ⟨p, nm⟩ := pr
    rw [List.mem_enum_iff_getElem?] at hpr
    obtain ⟨hp, hnm⟩ := List.getElem?_eq_some.mp hpr
    dsimp only at hf hnm hp
    rw [← hnm] at hf
    obtain ⟨hmaskbit, y, hy, hy1, hyiff⟩ := hanalysis p hp l hf
    exact ⟨y, hy, hy1, k - 1 - p, by omega, hmaskbit, hyiff⟩
  have hlitall : ∀ b, b < k → imp.mask.testBit b = false →
      ∃ l ∈ names.enum.filterMap (fun p =>
        if (imp.mask >>> (names.length - 1 - p.1)) &&& 1 = 0 then
          some (if xor (decide ((imp.value >>> (names.length - 1 - p.1)) &&& 1 ≠ 0)) mt
              then
            ParseTreeElement.UnaryOperator Operator.Not (ParseTreeElement.Variable p.2)
          else
            ParseTreeElement.Variable p.2)
        else
          none),
        ∀ y, evaluate l d = some y →
          ((y = tgt) ↔ i.testBit b = imp.value.testBit b) := by
    intro b hb hbm
    have hp : k - 1 - b < k := by omega
    have hb2 : k - 1 - (k - 1 - b) = b := by omega
    have hcond : (imp.mask >>> (names.length - 1 - (k - 1 - b))) &&& 1 = 0 := by
      rw [show names.length - 1 - (k - 1 - b) = b from by omega, shiftRight_and_one,
        hbm]
      rfl
    set lit := (if xor (decide ((imp.value >>> (names.length - 1 - (k - 1 - b))) &&& 1
        ≠ 0)) mt then
      ParseTreeElement.UnaryOperator Operator.Not
        (ParseTreeElement.Variable (names[k - 1 - b]))
    else
      ParseTreeElement.Variable (names[k - 1 - b])) with hlit
    have hfeq : (if (imp.mask >>> (names.length - 1 - (k - 1 - b))) &&& 1 = 0 then
        some (if xor (decide ((imp.value >>> (names.length - 1 - (k - 1 - b))) &&& 1
            ≠ 0)) mt then
          ParseTreeElement.UnaryOperator Operator.Not
            (ParseTreeElement.Variable (names[k - 1 - b]))
        else
          ParseTreeElement.Variable (names[k - 1 - b]))
      else
        none) = some lit := by
      rw [if_pos hcond, hlit]
    have hmem : lit ∈ names.enum.filterMap (fun p =>
        if (imp.mask >>> (names.length - 1 - p.1)) &&& 1 = 0 then
          some (if xor (decide ((imp.value >>> (names.length - 1 - p.1)) &&& 1 ≠ 0)) mt
              then
            ParseTreeElement.UnaryOperator Operator.Not (ParseTreeElement.Variable p.2)
          else
            ParseTreeElement.Variable p.2)
        else
          none) := by
      apply List.mem_filterMap.mpr
      refine ⟨(k - 1 - b, names[k - 1 - b]), ?_, hfeq⟩
      rw [List.mem_enum_iff_getElem?]
      exact List.getElem?_eq_getElem hp
    obtain ⟨hmaskbit, y0, hy0, hy01, hy0iff⟩ := hanalysis (k - 1 - b) hp lit hfeq
    refine ⟨lit, hmem, ?_⟩
    intro y hy
    rw [hy0] at hy
    have hyy : y = y0 := (Option.some_inj.mp hy).symm
    rw [hyy, hy0iff, hb2]
  have hiff2 : (∀ l ∈ names.enum.filterMap (fun p =>
      if (imp.mask >>> (names.length - 1 - p.1)) &&& 1 = 0 then
        some (if xor (decide ((imp.value >>> (names.length - 1 - p.1)) &&& 1 ≠ 0)) mt
            then
          ParseTreeElement.UnaryOperator Operator.Not (ParseTreeElement.Variable p.2)
        else
          ParseTreeElement.Variable p.2)
      else
        none), evaluate l d = some tgt) ↔
      (∀ c < k, imp.mask.testBit c = false → i.testBit c = imp.value.testBit c) := by
    constructor
    · intro h c hc hcm
      obtain ⟨l, hlmem, hlchar⟩ := hlitall c hc hcm
      exact (hlchar tgt (h l hlmem)).mp rfl
    · intro h l hl
      obtain ⟨y, hy, hy1, b, hbk, hbm, hyiff⟩ := hlitmem l hl
      rw [hy]
      congr 1
      exact hyiff.mpr (h b hbk hbm)
  cases hL : names.enum.filterMap (fun p =>
      if (imp.mask >>> (names.length - 1 - p.1)) &&& 1 = 0 then
        some (if xor (decide ((imp.value >>> (names.length - 1 - p.1)) &&& 1 ≠ 0)) mt
            then
          ParseTreeElement.UnaryOperator Operator.Not (ParseTreeElement.Variable p.2)
        else
          ParseTreeElement.Variable p.2)
      else
        none) with
  | nil =>
      rw [hL] at hm2
      exact Option.noConfusion hm2
  | cons l0 rest =>
      rw [hL] at hm2
      rw [hL] at hiff2 hlitmem
      obtain ⟨y0, hy0, hy01, hrest0⟩ := hlitmem l0 (List.mem_cons_self l0 rest)
      have hbounded : ∀ t ∈ rest, ∃ y, evaluate t d = some y ∧ y ≤ 1 := by
        intro t ht
        obtain ⟨y, hy, hy1, hrest⟩ := hlitmem t (List.mem_cons_of_mem l0 ht)
        exact ⟨y, hy, hy1⟩
      cases hmt : mt with
      | true =>
          rw [hmt] at hm2
          simp only [if_true] at hm2
          unfold BinaryOperator.join at hm2
          have hmm : m = rest.foldl (fun acc term =>
              ParseTreeElement.BinaryOperator acc Operator.And term) l0 :=
            (Option.some_inj.mp hm2).symm
          obtain ⟨z, hz, hz1, hziff⟩ := eval_and_chain d rest l0 y0 hy0 hy01 hbounded
          refine ⟨z, by rw [hmm]; exact hz, hz1, ?_⟩
          have htgt1 : tgt = 1 := by rw [htgt, hmt]; rfl
          rw [htgt1, hziff, ← hiff2, htgt1]
          constructor
          · rintro ⟨hy02, hall⟩ l hl
            rcases List.mem_cons.mp hl with h4 | h4
            · rw [h4, hy0, hy02]
            · exact hall l h4
          · intro h
            refine ⟨?_, fun l hl => h l (List.mem_cons_of_mem l0 hl)⟩
            have h5 := h l0 (List.mem_cons_self l0 rest)
            rw [hy0] at h5
            exact Option.some_inj.mp h5
      | false =>
          rw [hmt] at hm2
          simp only [if_false, Bool.false_eq_true] at hm2
          unfold BinaryOperator.join at hm2
          have hmm : m = rest.foldl (fun acc term =>
              ParseTreeElement.BinaryOperator acc Operator.Or term) l0 :=
            (Option.some_inj.mp hm2).symm
          obtain ⟨z, hz, hz1, hziff⟩ := eval_or_chain d rest l0 y0 hy0 hy01 hbounded
          refine ⟨z, by rw [hmm]; exact hz, hz1, ?_⟩
          have htgt1 : tgt = 0 := by rw [htgt, hmt]; rfl
          rw [htgt1, hziff, ← hiff2, htgt1]
          constructor
          · rintro ⟨hy02, hall⟩ l hl
            rcases List.mem_cons.mp hl with h4 | h4
            · rw [h4, hy0, hy02]
            · exact hall l h4
          · intro h
            refine ⟨?_, fun l hl => h l (List.mem_cons_of_mem l0 hl)⟩
            have h5 := h l0 (List.mem_cons_self l0 rest)
            rw [hy0] at h5
            exact Option.some_inj.mp h5

theorem optionMapM_mem_fwd {α β : Type} (f : α → Option β) {l : List α}
    {out : List β} (h : l.mapM f = some out) :
    ∀ a ∈ l, ∃ b ∈ out, f a = some b := by
  obtain ⟨hlen, hpt⟩ := optionMapM_some f l out h
  intro a ha
  obtain ⟨⟨j, hj⟩, hget⟩ := List.mem_iff_get.mp ha
  obtain ⟨hjo, hfj⟩ := hpt j hj
  rw [hget] at hfj
  exact ⟨out.get ⟨j, hjo⟩, List.get_mem out j hjo, hfj⟩

/-- Value of one rendered solution expression at a canonical assignment:
it hits the DNF target 1 (CNF target 0) exactly when some chosen implicant
covers the index. -/
theorem exprList_sem {sol : QuineMcCluskeySolution} {m : ParseTreeElement}
    (hnd : sol.input_variable_names.Nodup)
    (hmo : some m ∈ sol.exprList) (i : Nat) :
    ∃ additional ∈ sol.additional_implicants, ∃ z,
      evaluate m (sol.input_variable_names.zip
        (bitsMSB sol.input_variable_names.length i)) = some z ∧ z ≤ 1 ∧
      ((z = (if sol.mode_dnf then 1 else 0)) ↔
        ∃ imp ∈ sol.required_implicants ++ additional,
          ∀ c < sol.input_variable_names.length,
            imp.mask.testBit c = false → i.testBit c = imp.value.testBit c) := by
  classical
  unfold QuineMcCluskeySolution.exprList at hmo
  simp only [] at hmo
  obtain ⟨additional, hadd, hbody⟩ := List.mem_map.mp hmo
  refine ⟨additional, hadd, ?_⟩
  set d := sol.input_variable_names.zip
    (bitsMSB sol.input_variable_names.length i) with hdd
  set sorted := ((sol.required_implicants ++ additional).dedup).insertionSort
    (fun a b => a.implicantLe b = true) with hsorted
  have hmem_sorted : ∀ imp, imp ∈ sorted ↔
      imp ∈ sol.required_implicants ++ additional := by
    intro imp
    rw [hsorted, (List.perm_insertionSort _ _).mem_iff, List.mem_dedup]
  cases hdnf : sol.mode_dnf with
  | true =>
      rw [hdnf] at hbody
      simp only [if_true] at hbody
      cases hmapm : sorted.mapM
          (fun imp => imp.as_mterm sol.input_variable_names true) with
      | none =>
          rw [hmapm] at hbody
          exact Option.noConfusion hbody
      | some mterms =>
          rw [hmapm] at hbody
          have hjoin : BinaryOperator.join Operator.Or mterms = some m := hbody
          cases hmts : mterms with
          | nil =>
              rw [hmts] at hjoin
              exact Option.noConfusion hjoin
          | cons t0 ts =>
              rw [hmts] at hjoin
              unfold BinaryOperator.join at hjoin
              have hmm : m = ts.foldl (fun acc term =>
                  ParseTreeElement.BinaryOperator acc Operator.Or term) t0 :=
                (Option.some_inj.mp hjoin).symm
              rw [hmts] at hmapm
              have hbwd := optionMapM_mem _ _ _ hmapm
              have hfwd := optionMapM_mem_fwd _ hmapm
              have hchar : ∀ t ∈ t0 :: ts, ∃ y, evaluate t d = some y ∧ y ≤ 1 ∧
                  ∃ imp ∈ sorted, imp.as_mterm sol.input_variable_names true = some t ∧
                    ((y = 1) ↔ ∀ c < sol.input_variable_names.length,
                      imp.mask.testBit c = false →
                        i.testBit c = imp.value.testBit c) := by
                intro t ht
                obtain ⟨imp, himp, hft⟩ := hbwd t ht
                obtain ⟨y, hy, hy1, hyiff⟩ := as_mterm_eval hnd hft (i := i)
                rw [show (if (true = true) then (1 : Nat) else 0) = 1 from rfl] at hyiff
                exact ⟨y, hy, hy1, imp, himp, hft, hyiff⟩
              obtain ⟨y0, hy0, hy01, himp0⟩ := hchar t0 (List.mem_cons_self t0 ts)
              obtain ⟨z, hz, hz1, hziff⟩ := eval_or_chain d ts t0 y0 hy0 hy01
                (fun t ht => by
                  obtain ⟨y, hy, hy1, hrest2⟩ := hchar t (List.mem_cons_of_mem t0 ht)
                  exact ⟨y, hy, hy1⟩)
              refine ⟨z, by rw [hmm]; exact hz, hz1, ?_⟩
              rw [show (if (true = true) then (1 : Nat) else 0) = 1 from rfl]
              have hz0 : z = 0 ↔ ∀ t ∈ t0 :: ts, evaluate t d = some 0 := by
                rw [hziff]
                constructor
                · rintro ⟨h40, hall⟩ t ht
                  rcases List.mem_cons.mp ht with h5 | h5
                  · rw [h5, hy0, h40]
                  · exact hall t h5
                · intro h4
                  refine ⟨?_, fun t ht => h4 t (List.mem_cons_of_mem t0 ht)⟩
                  have h5 := h4 t0 (List.mem_cons_self t0 ts)
                  rw [hy0] at h5
                  exact Option.some_inj.mp h5
              constructor
              · intro hz2
                by_contra hcon
                push_neg at hcon
                have hall0 : ∀ t ∈ t0 :: ts, evaluate t d = some 0 := by
                  intro t ht
                  obtain ⟨y, hy, hy1, imp, himp, hft, hyiff⟩ := hchar t ht
                  have hyne : y ≠ 1 := by
                    intro hy2
                    have hagree := hyiff.mp hy2
                    obtain ⟨c, hc, hcm, hne⟩ := hcon imp ((hmem_sorted imp).mp himp)
                    exact hne (hagree c hc hcm)
                  have hy00 : y = 0 := by omega
                  rw [hy, hy00]
                rw [← hz0] at hall0
                omega
              · rintro ⟨imp, himp, hagree⟩
                obtain ⟨t, ht, hft⟩ := hfwd imp ((hmem_sorted imp).mpr himp)
                obtain ⟨y, hy, hy1, imp2, himp2, hft2, hyiff2⟩ := hchar t ht
                by_contra hzne
                have hz00 : z = 0 := by omega
                have h6 := (hz0.mp hz00) t ht
                obtain ⟨y3, hy3, hy31, hyiff3⟩ := as_mterm_eval hnd hft (i := i)
                rw [show (if (true = true) then (1 : Nat) else 0) = 1 from rfl] at hyiff3
                have hy3eq : y3 = 1 := hyiff3.mpr hagree
                rw [hy3] at h6
                have : y3 = 0 := Option.some_inj.mp h6
                omega
  | false =>
      rw [hdnf] at hbody
      simp only [Bool.false_eq_true, if_false] at hbody
      cases hmapm : sorted.mapM
          (fun imp => imp.as_mterm sol.input_variable_names false) with
      | none =>
          rw [hmapm] at hbody
          exact Option.noConfusion hbody
      | some mterms =>
          rw [hmapm] at hbody
          have hjoin : BinaryOperator.join Operator.And mterms = some m := hbody
          cases hmts : mterms with
          | nil =>
              rw [hmts] at hjoin
              exact Option.noConfusion hjoin
          | cons t0 ts =>
              rw [hmts] at hjoin
              unfold BinaryOperator.join at hjoin
              have hmm : m = ts.foldl (fun acc term =>
                  ParseTreeElement.BinaryOperator acc Operator.And term) t0 :=
                (Option.some_inj.mp hjoin).symm
              rw [hmts] at hmapm
              have hbwd := optionMapM_mem _ _ _ hmapm
              have hfwd := optionMapM_mem_fwd _ hmapm
              have hchar : ∀ t ∈ t0 :: ts, ∃ y, evaluate t d = some y ∧ y ≤ 1 ∧
                  ∃ imp ∈ sorted, imp.as_mterm sol.input_variable_names false = some t ∧
                    ((y = 0) ↔ ∀ c < sol.input_variable_names.length,
                      imp.mask.testBit c = false →
                        i.testBit c = imp.value.testBit c) := by
                intro t ht
                obtain ⟨imp, himp, hft⟩ := hbwd t ht
                obtain ⟨y, hy, hy1, hyiff⟩ := as_mterm_eval hnd hft (i := i)
                rw [show (if (false = true) then (1 : Nat) else 0) = 0 from rfl] at hyiff
                exact ⟨y, hy, hy1, imp, himp, hft, hyiff⟩
              obtain ⟨y0, hy0, hy01, himp0⟩ := hchar t0 (List.mem_cons_self t0 ts)
              obtain ⟨z, hz, hz1, hziff⟩ := eval_and_chain d ts t0 y0 hy0 hy01
                (fun t ht => by
                  obtain ⟨y, hy, hy1, hrest2⟩ := hchar t (List.mem_cons_of_mem t0 ht)
                  exact ⟨y, hy, hy1⟩)
              refine ⟨z, by rw [hmm]; exact hz, hz1, ?_⟩
              rw [show (if (false = true) then (1 : Nat) else 0) = 0 from rfl]
              have hz0 : z = 1 ↔ ∀ t ∈ t0 :: ts, evaluate t d = some 1 := by
                rw [hziff]
                constructor
                · rintro ⟨h40, hall⟩ t ht
                  rcases List.mem_cons.mp ht with h5 | h5
                  · rw [h5, hy0, h40]
                  · exact hall t h5
                · intro h4
                  refine ⟨?_, fun t ht => h4 t (List.mem_cons_of_mem t0 ht)⟩
                  have h5 := h4 t0 (List.mem_cons_self t0 ts)
                  rw [hy0] at h5
                  exact Option.some_inj.mp h5
              constructor
              · intro hz2
                by_contra hcon
                push_neg at hcon
                have hall1 : ∀ t ∈ t0 :: ts, evaluate t d = some 1 := by
                  intro t ht
                  obtain ⟨y, hy, hy1, imp, himp, hft, hyiff⟩ := hchar t ht
                  have hyne : y ≠ 0 := by
                    intro hy2
                    have hagree := hyiff.mp hy2
                    obtain ⟨c, hc, hcm, hne⟩ := hcon imp ((hmem_sorted imp).mp himp)
                    exact hne (hagree c hc hcm)
                  have hy11 : y = 1 := by omega
                  rw [hy, hy11]
                rw [← hz0] at hall1
                omega
              · rintro ⟨imp, himp, hagree⟩
                obtain ⟨t, ht, hft⟩ := hfwd imp ((hmem_sorted imp).mpr himp)
                by_contra hzne
                have hz11 : z = 1 := by omega
                have h6 := (hz0.mp hz11) t ht
                obtain ⟨y3, hy3, hy31, hyiff3⟩ := as_mterm_eval hnd hft (i := i)
                rw [show (if (false = true) then (1 : Nat) else 0) = 0 from rfl] at hyiff3
                have hy3eq : y3 = 0 := hyiff3.mpr hagree
                rw [hy3] at h6
                have : y3 = 1 := Option.some_inj.mp h6
                omega

theorem mem_enum_filter_map {f : Nat × Entry → Bool} {entries : List Entry} {i : Nat} :
    i ∈ (entries.enum.filter f).map (fun p => p.1) ↔
      ∃ hi : i < entries.length, f (i, entries[i]) = true := by
  rw [List.mem_map]
  constructor
  · rintro ⟨p, hp, hp1⟩
    have hmem := List.mem_of_mem_filter hp
    have hf := List.of_mem_filter hp
    rw [List.mem_enum_iff_getElem?] at hmem
    obtain ⟨hlt, hget⟩ := List.getElem?_eq_some.mp hmem
    obtain ⟨pi, pe⟩ := p
    dsimp only at hp1 hget hlt hf
    subst hp1
    rw [← hget] at hf
    exact ⟨hlt, hf⟩
  · rintro ⟨hi, hf⟩
    refine ⟨(i, entries[i]), ?_, rfl⟩
    apply List.mem_filter.mpr
    refine ⟨?_, hf⟩
    rw [List.mem_enum_iff_getElem?]
    exact List.getElem?_eq_getElem hi

theorem mem_mandatorySet {entries : List Entry} {emit_dnf : Bool} {i : Nat} :
    i ∈ QuineMcCluskey.mandatorySet entries emit_dnf ↔
      ∃ hi : i < entries.length,
        entries[i] = (if emit_dnf then Entry.High else Entry.Low) := by
  unfold QuineMcCluskey.mandatorySet
  rw [List.mem_toFinset, mem_enum_filter_map]
  constructor
  · rintro ⟨hi, hf⟩
    refine ⟨hi, ?_⟩
    cases emit_dnf <;> simpa using hf
  · rintro ⟨hi, hf⟩
    refine ⟨hi, ?_⟩
    cases emit_dnf <;> simp_all

theorem mem_dcSet {entries : List Entry} {i : Nat} :
    i ∈ QuineMcCluskey.dcSet entries ↔
      ∃ hi : i < entries.length, entries[i] = Entry.DontCare := by
  unfold QuineMcCluskey.dcSet
  rw [List.mem_toFinset, mem_enum_filter_map]
  constructor
  · rintro ⟨hi, hf⟩
    exact ⟨hi, by simpa using hf⟩
  · rintro ⟨hi, hf⟩
    exact ⟨hi, by simp_all⟩

theorem mem_compute_remaining (l : List Implicant) : ∀ (s : Finset Nat) (x : Nat),
    x ∈ QuineMcCluskey.compute_remaining_minterms s l ↔
      x ∈ s ∧ ∀ imp ∈ l, x ∉ imp.minterms := by
  unfold QuineMcCluskey.compute_remaining_minterms
  induction l with
  | nil =>
      intro s x
      simp
  | cons imp l ih =>
      intro s x
      rw [List.foldl_cons, ih]
      rw [Finset.mem_sdiff]
      constructor
      · rintro ⟨⟨hx, hximp⟩, hall⟩
        refine ⟨hx, ?_⟩
        intro imp2 himp2
        rcases List.mem_cons.mp himp2 with h4 | h4
        · rw [h4]
          exact hximp
        · exact hall imp2 h4
      · rintro ⟨hx, hall⟩
        exact ⟨⟨hx, hall imp (List.mem_cons_self imp l)⟩,
          fun imp2 h4 => hall imp2 (List.mem_cons_of_mem imp h4)⟩

theorem lookup_mem {α β : Type} [BEq α] [LawfulBEq α] :
    ∀ {l : List (α × β)} {a : α} {v : β}, l.lookup a = some v → (a, v) ∈ l := by
  intro l
  induction l with
  | nil =>
      intro a v h
      simp [List.lookup] at h
  | cons p l ih =>
      intro a v h
      obtain ⟨b, w⟩ := p
      rw [List.lookup_cons] at h
      cases hab : a == b with
      | true =>
          rw [hab] at h
          have hab2 : a = b := eq_of_beq hab
          have hvw : w = v := Option.some_inj.mp h
          rw [hab2, hvw]
          exact List.mem_cons_self (b, v) l
      | false =>
          rw [hab] at h
          exact List.mem_cons_of_mem (b, w) (ih h)

theorem named_output_mem {vt : ValueTable} {n : String} {st : CompactStorage}
    (h : vt.named_output n = some st) : st ∈ vt.output_values := by
  unfold ValueTable.named_output at h
  have hmem := lookup_mem h
  rw [List.mem_reverse] at hmem
  exact (List.of_mem_zip hmem).2

theorem eliminate_required_sub (pool : List Implicant) (rm : Finset Nat) :
    (∀ imp ∈ (QuineMcCluskey.eliminate_required_implicants pool rm).1, imp ∈ pool) ∧
    (∀ imp ∈ (QuineMcCluskey.eliminate_required_implicants pool rm).2, imp ∈ pool) := by
  unfold QuineMcCluskey.eliminate_required_implicants
  exact ⟨fun imp h => List.mem_of_mem_filter h, fun imp h => List.mem_of_mem_filter h⟩

/-- Soundness of the whole minimization pipeline after the output column
has been read: the `Constant` edge case certifies an empty usable-minterm
universe, and every solution object carries invariant-satisfying
implicants (required plus any returned additional set) that jointly cover
every mandatory minterm. -/
theorem all_solutions_core_sound {names : List String} {k : Nat}
    {entries : List Entry} {emit_dnf : Bool}
    (hlen : entries.length = 2 ^ k)
    {res : ParseTreeElement ⊕ QuineMcCluskeySolution}
    (hres : QuineMcCluskey.all_solutions_core names k entries emit_dnf = some res) :
    (∀ c, res = Sum.inl c →
      c = ParseTreeElement.Constant (if emit_dnf then 0 else 1) ∧
      ∀ j, ∀ hj : j < entries.length,
        entries[j] ≠ (if emit_dnf then Entry.High else Entry.Low) ∧
        entries[j] ≠ Entry.DontCare) ∧
    (∀ sol, res = Sum.inr sol →
      sol.mode_dnf = emit_dnf ∧ sol.input_variable_names = names ∧
      ∀ additional ∈ sol.additional_implicants,
        (∀ imp ∈ sol.required_implicants ++ additional,
          Good k (QuineMcCluskey.mandatorySet entries emit_dnf ∪
            QuineMcCluskey.dcSet entries) imp) ∧
        (∀ j, ∀ hj : j < entries.length,
          entries[j] = (if emit_dnf then Entry.High else Entry.Low) →
          ∃ imp ∈ sol.required_implicants ++ additional, j ∈ imp.minterms)) := by
  classical
  unfold QuineMcCluskey.all_solutions_core at hres
  dsimp only [] at hres
  split at hres
  next hempty =>
    have hres2 : Sum.inl (ParseTreeElement.Constant (if emit_dnf then (0 : Nat) else 1))
        = res := Option.some_inj.mp hres
    constructor
    · intro c hc
      rw [← hres2] at hc
      have hc2 := Sum.inl.inj hc.symm
      refine ⟨hc2, ?_⟩
      have hnil : (List.range entries.length).filter
          (fun i => decide (i ∈ QuineMcCluskey.mandatorySet entries emit_dnf ∪
            QuineMcCluskey.dcSet entries)) = [] := by
        by_contra hne
        obtain ⟨x, hx⟩ := List.exists_mem_of_ne_nil _ hne
        have : ¬ (QuineMcCluskey.create_size_one_implicants
            ((List.range entries.length).filter
              (fun i => decide (i ∈ QuineMcCluskey.mandatorySet entries emit_dnf ∪
                QuineMcCluskey.dcSet entries)))).isEmpty = true := by
          unfold QuineMcCluskey.create_size_one_implicants
          rw [List.isEmpty_iff, List.map_eq_nil_iff]
          intro h0
          rw [h0] at hx
          exact List.not_mem_nil x hx
        exact this hempty
      intro j hj
      have hjU : j ∉ QuineMcCluskey.mandatorySet entries emit_dnf ∪
          QuineMcCluskey.dcSet entries := by
        intro hjU
        have hjmem : j ∈ (List.range entries.length).filter
            (fun i => decide (i ∈ QuineMcCluskey.mandatorySet entries emit_dnf ∪
              QuineMcCluskey.dcSet entries)) := by
          apply List.mem_filter.mpr
          exact ⟨List.mem_range.mpr hj, by simpa using hjU⟩
        rw [hnil] at hjmem
        exact List.not_mem_nil j hjmem
      constructor
      · intro hjt
        exact hjU (Finset.mem_union_left _ (mem_mandatorySet.mpr ⟨hj, hjt⟩))
      · intro hjt
        exact hjU (Finset.mem_union_right _ (mem_dcSet.mpr ⟨hj, hjt⟩))
    · intro sol hsol
      rw [← hres2] at hsol
      exact Sum.noConfusion hsol
  next hempty =>
  split at hres
  · exact Option.noConfusion hres
  next optimal heq =>
  have hres2 : Sum.inr (⟨emit_dnf, names,
      (QuineMcCluskey.eliminate_required_implicants
        ((QuineMcCluskey.eliminate_suboptimal
          (QuineMcCluskey.merge_stages k
            (QuineMcCluskey.create_size_one_implicants
              ((List.range entries.length).filter
                (fun i => decide (i ∈ QuineMcCluskey.mandatorySet entries emit_dnf ∪
                  QuineMcCluskey.dcSet entries)))))).flatten)
        (QuineMcCluskey.determine_required_minterms
          ((QuineMcCluskey.eliminate_suboptimal
            (QuineMcCluskey.merge_stages k
              (QuineMcCluskey.create_size_one_implicants
                ((List.range entries.length).filter
                  (fun i => decide (i ∈ QuineMcCluskey.mandatorySet entries emit_dnf ∪
                    QuineMcCluskey.dcSet entries)))))).flatten)
          (QuineMcCluskey.mandatorySet entries emit_dnf))).1,
      optimal⟩ : QuineMcCluskeySolution) = res := Option.some_inj.mp hres
  constructor
  · intro c hc
    rw [← hres2] at hc
    exact Sum.noConfusion hc
  · intro sol hsol
    rw [← hres2] at hsol
    have hsol2 := Sum.inr.inj hsol.symm
    subst hsol2
    refine ⟨rfl, rfl, ?_⟩
    intro additional hadd
    dsimp only [] at hadd ⊢
    set U := QuineMcCluskey.mandatorySet entries emit_dnf ∪
      QuineMcCluskey.dcSet entries with hU
    set ms := (List.range entries.length).filter (fun i => decide (i ∈ U)) with hms
    set pool := (QuineMcCluskey.eliminate_suboptimal
      (QuineMcCluskey.merge_stages k
        (QuineMcCluskey.create_size_one_implicants ms))).flatten with hpool
    set rminterms := QuineMcCluskey.determine_required_minterms pool
      (QuineMcCluskey.mandatorySet entries emit_dnf) with hrminterms
    have hms_facts : ∀ x ∈ ms, x < 2 ^ k ∧ x ∈ U := by
      intro x hx
      rw [hms] at hx
      refine ⟨?_, ?_⟩
      · have := List.mem_range.mp (List.mem_of_mem_filter hx)
        omega
      · exact of_decide_eq_true (List.mem_filter.mp hx).2
    have hpool_good : ∀ imp ∈ pool, Good k U imp := by
      intro imp himp
      rw [hpool] at himp
      obtain ⟨g, hg, himpg⟩ := List.mem_flatten.mp himp
      obtain ⟨g0, hg0, himpg0⟩ := eliminate_suboptimal_sub _ g hg imp himpg
      exact good_merge_stages k _ (good_size_one hms_facts) g0 hg0 imp himpg0
    have hreq_good : ∀ imp ∈ (QuineMcCluskey.eliminate_required_implicants pool
        rminterms).1, Good k U imp := by
      intro imp himp
      exact hpool_good imp ((eliminate_required_sub pool rminterms).1 imp himp)
    have hpool2_good : ∀ imp ∈ (QuineMcCluskey.eliminate_required_implicants pool
        rminterms).2, Good k U imp := by
      intro imp himp
      exact hpool_good imp ((eliminate_required_sub pool rminterms).2 imp himp)
    have hadd_facts :
        (∀ imp ∈ additional, Good k U imp) ∧
        (∀ j ∈ (List.range entries.length).filter
          (fun i => decide (i ∈ QuineMcCluskey.compute_remaining_minterms
            (QuineMcCluskey.mandatorySet entries emit_dnf)
            (QuineMcCluskey.eliminate_required_implicants pool rminterms).1)),
          ∃ imp ∈ additional, j ∈ imp.minterms) := by
      by_cases hrsempty : ((List.range entries.length).filter
          (fun i => decide (i ∈ QuineMcCluskey.compute_remaining_minterms
            (QuineMcCluskey.mandatorySet entries emit_dnf)
            (QuineMcCluskey.eliminate_required_implicants pool rminterms).1))).isEmpty
      · rw [if_pos hrsempty] at heq
        have hopt : optimal = [[]] := (Option.some_inj.mp heq).symm
        rw [hopt] at hadd
        have haddnil : additional = [] := by
          rcases List.mem_cons.mp hadd with h4 | h4
          · exact h4
          · exact absurd h4 (List.not_mem_nil additional)
        subst haddnil
        refine ⟨fun imp h => absurd h (List.not_mem_nil imp), ?_⟩
        intro j hj
        rw [List.isEmpty_iff] at hrsempty
        rw [hrsempty] at hj
        exact absurd hj (List.not_mem_nil j)
      · rw [if_neg hrsempty] at heq
        obtain ⟨hsub, hcov⟩ := find_minimal_facts heq additional hadd
        exact ⟨fun imp h => hpool2_good imp (hsub imp h), hcov⟩
    refine ⟨?_, ?_⟩
    · intro imp himp
      rcases List.mem_append.mp himp with h4 | h4
      · exact hreq_good imp h4
      · exact hadd_facts.1 imp h4
    · intro j hj hjt
      have hjexpr : j ∈ QuineMcCluskey.mandatorySet entries emit_dnf :=
        mem_mandatorySet.mpr ⟨hj, hjt⟩
      by_cases hrem : j ∈ QuineMcCluskey.compute_remaining_minterms
          (QuineMcCluskey.mandatorySet entries emit_dnf)
          (QuineMcCluskey.eliminate_required_implicants pool rminterms).1
      · have hjrs : j ∈ (List.range entries.length).filter
            (fun i => decide (i ∈ QuineMcCluskey.compute_remaining_minterms
              (QuineMcCluskey.mandatorySet entries emit_dnf)
              (QuineMcCluskey.eliminate_required_implicants pool rminterms).1)) := by
          apply List.mem_filter.mpr
          exact ⟨List.mem_range.mpr hj, by simpa using hrem⟩
        obtain ⟨imp, himp, hjimp⟩ := hadd_facts.2 j hjrs
        exact ⟨imp, List.mem_append.mpr (Or.inr himp), hjimp⟩
      · rw [mem_compute_remaining] at hrem
        push_neg at hrem
        obtain ⟨imp, himp, hjimp⟩ := hrem hjexpr
        refine ⟨imp, List.mem_append.mpr (Or.inl himp), ?_⟩
        by_contra hjn
        exact hjn hjimp

theorem entryList_getElem (s : CompactStorage) (j : Nat)
    (hj : j < s.entryList.length) : s.entryList[j] = s.getItem j := by
  have h := CompactStorage.entryList_get? s j
  have hjc : j < s.table_entry_count := by
    rw [CompactStorage.entryList_length] at hj
    exact hj
  rw [if_pos hjc] at h
  rw [List.get?_eq_getElem?, List.getElem?_eq_getElem hj] at h
  exact Option.some_inj.mp h

theorem dict_to_index_round (vt : ValueTable) (hnd : vt.input_variable_names.Nodup)
    (i : Nat) (hi : i < 2 ^ vt.input_variable_count) :
    vt.dict_to_index (vt.index_to_dict i) = some i := by
  rw [index_to_dict_eq_zip]
  have hw : ∀ p ∈ vt.input_variable_names.zip (bitsMSB vt.input_variable_count i),
      p.2 = 1 → p.1 ∈ vt.input_variable_names := fun p hp _ => (List.of_mem_zip hp).1
  rw [dict_to_index_eq_sumWeights vt _ hw,
    sumWeights_zip vt hnd _ (by rw [bitsMSB_length]) (bitsMSB_le_one _ i),
    natOfBits_bitsMSB _ i hi]

theorem tableAt_canonical (vt : ValueTable) (hnd : vt.input_variable_names.Nodup)
    {n : String} {st : CompactStorage} (hst : vt.named_output n = some st)
    (i : Nat) (hi : i < 2 ^ vt.input_variable_count) :
    vt.tableAt (vt.index_to_dict i) n = some (st.getItem i) := by
  unfold ValueTable.tableAt
  rw [dict_to_index_round vt hnd i hi, hst]
  rfl

/-- C1: for a well-formed value table with distinct input names, no
Undefined entries, and a present output name, every expression yielded by
the Quine-McCluskey minimizer (in either direction) agrees with the
table on every non-DontCare assignment: canonical assignments are the
index dicts, `T.at(a, n)` is the stored entry, and the expression
evaluates to 1 on High rows and 0 on Low rows. -/
theorem claim_C1 (vt : ValueTable) (n : String) (emit_dnf : Bool) (st : CompactStorage)
    (hwf : vt.WellFormed)
    (hnd : vt.input_variable_names.Nodup)
    (hst : vt.named_output n = some st)
    (hnund : ∀ j < st.table_entry_count, st.getItem j ≠ Entry.Undefined)
    (mo : Option ParseTreeElement)
    (hmo : mo ∈ QuineMcCluskey.all_solution_exprs (QuineMcCluskey.all_solutions vt n emit_dnf))
    (m : ParseTreeElement) (hm : mo = some m)
    (i : Nat) (hi : i < 2 ^ vt.input_variable_count) :
    vt.tableAt (vt.index_to_dict i) n = some (st.getItem i) ∧
    (st.getItem i = Entry.High → evaluate m (vt.index_to_dict i) = some 1) ∧
    (st.getItem i = Entry.Low → evaluate m (vt.index_to_dict i) = some 0) := by
  classical
  have hvc : st.variable_count = vt.input_variable_count :=
    hwf.2 st (named_output_mem hst)
  have hlen : st.entryList.length = 2 ^ vt.input_variable_count := by
    rw [CompactStorage.entryList_length, hvc]
  have hientries : i < st.entryList.length := by rw [hlen]; exact hi
  have hgetieq : st.entryList[i] = st.getItem i := entryList_getElem st i _
  have hiter : vt.iter_output_variable n = some st.entryList := by
    unfold ValueTable.iter_output_variable
    rw [hst]
    rfl
  have hcore : QuineMcCluskey.all_solutions vt n emit_dnf =
      QuineMcCluskey.all_solutions_core vt.input_variable_names
        vt.input_variable_count st.entryList emit_dnf := by
    unfold QuineMcCluskey.all_solutions
    rw [hiter]
  rw [hcore] at hmo
  refine ⟨tableAt_canonical vt hnd hst i hi, ?_⟩
  cases hcr : QuineMcCluskey.all_solutions_core vt.input_variable_names
      vt.input_variable_count st.entryList emit_dnf with
  | none =>
      rw [hcr] at hmo
      simp [QuineMcCluskey.all_solution_exprs] at hmo
  | some res =>
      rw [hcr] at hmo
      obtain ⟨hconst, hsol⟩ := all_solutions_core_sound hlen hcr
      cases res with
      | inl c =>
          obtain ⟨hc, hno⟩ := hconst c rfl
          have hmoeq : mo = some c := by simpa [QuineMcCluskey.all_solution_exprs] using hmo
          have hmc : m = c := by
            rw [hmoeq] at hm
            exact Option.some_inj.mp hm.symm
          obtain ⟨hnt, hnd2⟩ := hno i hientries
          rw [hgetieq] at hnt hnd2
          constructor
          · intro hHigh
            cases hdnf : emit_dnf with
            | true =>
                rw [hdnf] at hnt
                rw [hHigh] at hnt
                simp at hnt
            | false =>
                rw [hmc, hc, hdnf]
                rfl
          · intro hLow
            cases hdnf : emit_dnf with
            | true =>
                rw [hmc, hc, hdnf]
                rfl
            | false =>
                rw [hdnf] at hnt
                rw [hLow] at hnt
                simp at hnt
      | inr sol =>
          obtain ⟨hmode, hnames, hforall⟩ := hsol sol rfl
          have hmosol : some m ∈ sol.exprList := by
            rw [hm] at hmo
            simpa [QuineMcCluskey.all_solution_exprs] using hmo
          have hnd2 : sol.input_variable_names.Nodup := by
            rw [hnames]
            exact hnd
          obtain ⟨additional, hadd, z, hz, hz1, hziff⟩ := exprList_sem hnd2 hmosol i
          obtain ⟨hgood, hcov⟩ := hforall additional hadd
          have hdz : sol.input_variable_names.zip
              (bitsMSB sol.input_variable_names.length i) = vt.index_to_dict i := by
            rw [hnames, index_to_dict_eq_zip]
            rfl
          rw [hdz] at hz
          have hklen : sol.input_variable_names.length = vt.input_variable_count := by
            rw [hnames]
            rfl
          have hagree_iff : ∀ imp,
              Good vt.input_variable_count
                (QuineMcCluskey.mandatorySet st.entryList emit_dnf ∪
                  QuineMcCluskey.dcSet st.entryList) imp →
              ((∀ c < sol.input_variable_names.length, imp.mask.testBit c = false →
                i.testBit c = imp.value.testBit c) ↔ i ∈ imp.minterms) := by
            intro imp hG
            rw [hG.2.2.2.1, mem_cubeSet, hklen]
            constructor
            · intro ha
              exact ⟨hi, ha⟩
            · intro ha
              exact ha.2
          have hnotU : ∀ e, st.getItem i = e → e ≠ Entry.DontCare →
              e ≠ (if emit_dnf then Entry.High else Entry.Low) →
              ¬ ∃ imp ∈ sol.required_implicants ++ additional,
                ∀ c < sol.input_variable_names.length, imp.mask.testBit c = false →
                  i.testBit c = imp.value.testBit c := by
            rintro e hge hedc het ⟨imp, himp, hagree⟩
            have hG := hgood imp himp
            have himem : i ∈ imp.minterms := (hagree_iff imp hG).mp hagree
            have hiU := hG.2.2.2.2 himem
            rcases Finset.mem_union.mp hiU with h4 | h4
            · obtain ⟨hi2, hent⟩ := mem_mandatorySet.mp h4
              rw [hgetieq, hge] at hent
              exact het hent
            · obtain ⟨hi2, hent⟩ := mem_dcSet.mp h4
              rw [hgetieq, hge] at hent
              exact hedc hent
          have hcovered : ∀ e, st.getItem i = e →
              e = (if emit_dnf then Entry.High else Entry.Low) →
              z = (if sol.mode_dnf then 1 else 0) := by
            intro e hge het
            apply hziff.mpr
            obtain ⟨imp, himp, himem⟩ := hcov i hientries (by rw [hgetieq, hge, het])
            refine ⟨imp, himp, ?_⟩
            exact (hagree_iff imp (hgood imp himp)).mpr himem
          constructor
          · intro hHigh
            cases hdnf : emit_dnf with
            | true =>
                have hzt := hcovered Entry.High hHigh (by rw [hdnf]; rfl)
                rw [hmode, hdnf] at hzt
                rw [hz, hzt]
                rfl
            | false =>
                have hnot := hnotU Entry.High hHigh (by simp)
                  (by rw [hdnf]; simp)
                have hzt : z ≠ (if sol.mode_dnf then 1 else 0) := by
                  intro h4
                  exact hnot (hziff.mp h4)
                rw [hmode, hdnf] at hzt
                simp only [Bool.false_eq_true, if_false] at hzt
                have hz1eq : z = 1 := by omega
                rw [hz, hz1eq]
          · intro hLow
            cases hdnf : emit_dnf with
            | true =>
                have hnot := hnotU Entry.Low hLow (by simp)
                  (by rw [hdnf]; simp)
                have hzt : z ≠ (if sol.mode_dnf then 1 else 0) := by
                  intro h4
                  exact hnot (hziff.mp h4)
                rw [hmode, hdnf] at hzt
                simp only [if_true] at hzt
                have hz0eq : z = 0 := by omega
                rw [hz, hz0eq]
            | false =>
                have hzt := hcovered Entry.Low hLow (by rw [hdnf]; rfl)
                rw [hmode, hdnf] at hzt
                simp only [Bool.false_eq_true, if_false] at hzt
                rw [hz, hzt]

theorem claim_C1_witness :
    (ValueTable.mk ["A"] ["Y"] [⟨1, 4⟩]).tableAt
        ((ValueTable.mk ["A"] ["Y"] [⟨1, 4⟩]).index_to_dict 1) "Y" =
      some ((⟨1, 4⟩ : CompactStorage).getItem 1) ∧
    ((⟨1, 4⟩ : CompactStorage).getItem 1 = Entry.High →
      evaluate (ParseTreeElement.Variable "A")
        ((ValueTable.mk ["A"] ["Y"] [⟨1, 4⟩]).index_to_dict 1) = some 1) ∧
    ((⟨1, 4⟩ : CompactStorage).getItem 1 = Entry.Low →
      evaluate (ParseTreeElement.Variable "A")
        ((ValueTable.mk ["A"] ["Y"] [⟨1, 4⟩]).index_to_dict 1) = some 0) :=
  claim_C1 (ValueTable.mk ["A"] ["Y"] [⟨1, 4⟩]) "Y" true ⟨1, 4⟩
    (by decide) (by decide) (by decide) (by decide)
    (some (ParseTreeElement.Variable "A")) (by decide)
    (ParseTreeElement.Variable "A") rfl 1 (by decide)

/-- C10: every implicant of the pipeline run on a table column satisfies
|minterms| = 2^popcount(mask).  Order-0 implicants are singletons with
mask 0; a merge of two implicants of equal mask whose values differ in
exactly one (unmasked) bit unions two disjoint minterm sets of equal
cardinality and adds exactly that bit to the mask; in every returned
solution, order = popcount(mask) and literal_count = k - popcount(mask). -/
theorem claim_C10 (vt : ValueTable) (n : String) (emit_dnf : Bool) (st : CompactStorage)
    (hwf : vt.WellFormed) (hst : vt.named_output n = some st) :
    (∀ imp ∈ QuineMcCluskey.create_size_one_implicants
        ((List.range st.entryList.length).filter
          (fun i => i ∈ QuineMcCluskey.mandatorySet st.entryList emit_dnf ∪
            QuineMcCluskey.dcSet st.entryList)),
      imp.minterms = {imp.value} ∧ imp.mask = 0) ∧
    (∀ g ∈ QuineMcCluskey.merge_stages vt.input_variable_count
        (QuineMcCluskey.create_size_one_implicants
          ((List.range st.entryList.length).filter
            (fun i => i ∈ QuineMcCluskey.mandatorySet st.entryList emit_dnf ∪
              QuineMcCluskey.dcSet st.entryList))),
      ∀ imp ∈ g, imp.minterms.card = 2 ^ bitCount imp.mask) ∧
    (∀ g ∈ QuineMcCluskey.merge_stages vt.input_variable_count
        (QuineMcCluskey.create_size_one_implicants
          ((List.range st.entryList.length).filter
            (fun i => i ∈ QuineMcCluskey.mandatorySet st.entryList emit_dnf ∪
              QuineMcCluskey.dcSet st.entryList))),
      ∀ i1 ∈ g, ∀ i2 ∈ g,
        bitCount i2.value = bitCount i1.value + 1 → i1.mask = i2.mask →
        bitCount (i1.value ^^^ i2.value) = 1 →
        Disjoint i1.minterms i2.minterms ∧
        i1.minterms.card = i2.minterms.card ∧
        ∃ b, i1.value ^^^ i2.value = 2 ^ b ∧
          i1.mask.testBit b = false ∧
          bitCount (i1.mask ||| (i1.value ^^^ i2.value)) = bitCount i1.mask + 1) ∧
    (∀ sol, QuineMcCluskey.all_solutions vt n emit_dnf = some (Sum.inr sol) →
      ∀ additional ∈ sol.additional_implicants,
        ∀ imp ∈ sol.required_implicants ++ additional,
          imp.minterms.card = 2 ^ bitCount imp.mask ∧
          imp.order = bitCount imp.mask ∧
          imp.literal_count vt.input_variable_count =
            vt.input_variable_count - bitCount imp.mask) := by
  classical
  have hvc : st.variable_count = vt.input_variable_count :=
    hwf.2 st (named_output_mem hst)
  have hlen : st.entryList.length = 2 ^ vt.input_variable_count := by
    rw [CompactStorage.entryList_length, hvc]
  have hms_facts : ∀ x ∈ (List.range st.entryList.length).filter
      (fun i => decide (i ∈ QuineMcCluskey.mandatorySet st.entryList emit_dnf ∪
        QuineMcCluskey.dcSet st.entryList)),
      x < 2 ^ vt.input_variable_count ∧
      x ∈ QuineMcCluskey.mandatorySet st.entryList emit_dnf ∪
        QuineMcCluskey.dcSet st.entryList := by
    intro x hx
    refine ⟨?_, of_decide_eq_true (List.mem_filter.mp hx).2⟩
    have := List.mem_range.mp (List.mem_of_mem_filter hx)
    omega
  have hsize_good := good_size_one (k := vt.input_variable_count) hms_facts
  have hstages := good_merge_stages vt.input_variable_count _ hsize_good
  have horder : ∀ imp, Good vt.input_variable_count
      (QuineMcCluskey.mandatorySet st.entryList emit_dnf ∪
        QuineMcCluskey.dcSet st.entryList) imp →
      imp.order = bitCount imp.mask := by
    intro imp hG
    unfold Implicant.order
    rw [good_card hG, bitLength_two_pow]
    omega
  refine ⟨?_, ?_, ?_, ?_⟩
  · intro imp himp
    unfold QuineMcCluskey.create_size_one_implicants at himp
    obtain ⟨x, hx, heq⟩ := List.mem_map.mp himp
    rw [← heq]
    exact ⟨rfl, rfl⟩
  · intro g hg imp himp
    exact good_card (hstages g hg imp himp)
  · intro g hg i1 hi1 i2 hi2 hc1 hc2 hc3
    obtain ⟨b, hbk, hb, hv1b, hm1b, hv2eq, hval, hdisj, hcards, hbc, hunion, hgood⟩ :=
      merge_pair_facts (hstages g hg i1 hi1) (hstages g hg i2 hi2) hc1 hc2 hc3
    exact ⟨hdisj, hcards, b, hb, hm1b, hbc⟩
  · intro sol hsoleq additional hadd imp himp
    have hiter : vt.iter_output_variable n = some st.entryList := by
      unfold ValueTable.iter_output_variable
      rw [hst]
      rfl
    have hcore : QuineMcCluskey.all_solutions_core vt.input_variable_names
        vt.input_variable_count st.entryList emit_dnf = some (Sum.inr sol) := by
      rw [← hsoleq]
      unfold QuineMcCluskey.all_solutions
      rw [hiter]
    obtain ⟨hconst, hsol⟩ := all_solutions_core_sound hlen hcore
    obtain ⟨hmode, hnames, hforall⟩ := hsol sol rfl
    have hG := (hforall additional hadd).1 imp himp
    refine ⟨good_card hG, horder imp hG, ?_⟩
    unfold Implicant.literal_count
    rw [horder imp hG]

theorem claim_C10_witness :
    (⟨{1}, 1, 0⟩ : Implicant).minterms.card =
      2 ^ bitCount (⟨{1}, 1, 0⟩ : Implicant).mask ∧
    (⟨{1}, 1, 0⟩ : Implicant).order = bitCount (⟨{1}, 1, 0⟩ : Implicant).mask ∧
    (⟨{1}, 1, 0⟩ : Implicant).literal_count 1 =
      1 - bitCount (⟨{1}, 1, 0⟩ : Implicant).mask :=
  (claim_C10 (ValueTable.mk ["A"] ["Y"] [⟨1, 4⟩]) "Y" true ⟨1, 4⟩
      (by decide) (by decide)).2.2.2
    ⟨true, ["A"], [⟨{1}, 1, 0⟩], [[]]⟩ (by decide)
    [] (by decide) ⟨{1}, 1, 0⟩ (by decide)

/-! ### Minimality analysis (claim C2)

Competitor two-level expressions are lists of implicant-shaped cubes; the
development below shows every solution the pipeline returns is of minimal
implicant count, then minimal literal count, against any such competitor,
and that all tied optima are returned. -/

theorem lt_two_pow_bitLength (x : Nat) : x < 2 ^ bitLength x := by
  apply lt_two_pow_of_high_bits
  intro b hb
  by_contra hc
  rw [Bool.not_eq_false] at hc
  have := testBit_lt_bitLength x b hc
  omega

theorem bitCount_mono_of_sub {y x : Nat} (h : y &&& x = y) :
    bitCount y ≤ bitCount x := by
  set n := x + y + 1 with hn
  have hxn : x < 2 ^ n := by
    have h1 : x < 2 ^ x := Nat.lt_two_pow x
    have h2 : (2 : Nat) ^ x ≤ 2 ^ n := Nat.pow_le_pow_right two_pos (by omega)
    omega
  have hyn : y < 2 ^ n := by
    have h1 : y < 2 ^ y := Nat.lt_two_pow y
    have h2 : (2 : Nat) ^ y ≤ 2 ^ n := Nat.pow_le_pow_right two_pos (by omega)
    omega
  rw [bitCount_eq_card n x hxn, bitCount_eq_card n y hyn]
  apply Finset.card_le_card
  intro b hb
  rw [Finset.mem_filter] at hb ⊢
  refine ⟨hb.1, ?_⟩
  have h2 := congrArg (fun z => z.testBit b) h
  simp only [Nat.testBit_land] at h2
  rw [hb.2] at h2
  cases hx : x.testBit b
  · rw [hx] at h2
    simp at h2
  · rfl

theorem eq_of_sub_of_bitCount_eq {y x : Nat} (h : y &&& x = y)
    (hbc : bitCount y = bitCount x) : y = x := by
  set n := x + y + 1 with hn
  have hxn : x < 2 ^ n := by
    have h1 : x < 2 ^ x := Nat.lt_two_pow x
    have h2 : (2 : Nat) ^ x ≤ 2 ^ n := Nat.pow_le_pow_right two_pos (by omega)
    omega
  have hyn : y < 2 ^ n := by
    have h1 : y < 2 ^ y := Nat.lt_two_pow y
    have h2 : (2 : Nat) ^ y ≤ 2 ^ n := Nat.pow_le_pow_right two_pos (by omega)
    omega
  have hsub : (Finset.range n).filter (fun b => y.testBit b) ⊆
      (Finset.range n).filter (fun b => x.testBit b) := by
    intro b hb
    rw [Finset.mem_filter] at hb ⊢
    refine ⟨hb.1, ?_⟩
    have h2 := congrArg (fun z => z.testBit b) h
    simp only [Nat.testBit_land] at h2
    rw [hb.2] at h2
    cases hx : x.testBit b
    · rw [hx] at h2
      simp at h2
    · rfl
  have hcard : ((Finset.range n).filter (fun b => x.testBit b)).card ≤
      ((Finset.range n).filter (fun b => y.testBit b)).card := by
    rw [← bitCount_eq_card n x hxn, ← bitCount_eq_card n y hyn, hbc]
  have heq := Finset.eq_of_subset_of_card_le hsub hcard
  apply Nat.eq_of_testBit_eq
  intro b
  by_cases hbn : b < n
  · have h3 := congrArg (fun s => b ∈ s) heq
    simp only [Finset.mem_filter, Finset.mem_range, eq_iff_iff] at h3
    cases hx : x.testBit b <;> cases hy : y.testBit b
    · rfl
    · have := (h3.mp ⟨hbn, hy⟩).2
      rw [hx] at this
      exact this.symm
    · have := (h3.mpr ⟨hbn, hx⟩).2
      rw [hy] at this
      exact this
    · rfl
  · rw [testBit_eq_false_of_lt hxn (by omega), testBit_eq_false_of_lt hyn (by omega)]

theorem bitCount_or_two_pow {k v b : Nat} (hv : v < 2 ^ k) (hb : b < k)
    (hvb : v.testBit b = false) :
    bitCount (v ||| 2 ^ b) = bitCount v + 1 := by
  have hlt : v ||| 2 ^ b < 2 ^ k :=
    Nat.or_lt_two_pow hv (Nat.pow_lt_pow_right one_lt_two hb)
  rw [bitCount_eq_card k _ hlt, bitCount_eq_card k _ hv]
  have hset : (Finset.range k).filter (fun c => (v ||| 2 ^ b).testBit c) =
      insert b ((Finset.range k).filter (fun c => v.testBit c)) := by
    ext c
    rw [Finset.mem_insert, Finset.mem_filter, Finset.mem_filter]
    constructor
    · intro hcmem
      have h3 := hcmem.2
      rw [Nat.testBit_lor, Nat.testBit_two_pow] at h3
      by_cases hcb : b = c
      · exact Or.inl hcb.symm
      · right
        refine ⟨hcmem.1, ?_⟩
        simpa [hcb] using h3
    · intro hcmem
      cases hcmem with
      | inl h3 =>
          subst h3
          refine ⟨Finset.mem_range.mpr hb, ?_⟩
          rw [Nat.testBit_lor, Nat.testBit_two_pow]
          simp
      | inr h3 =>
          refine ⟨h3.1, ?_⟩
          rw [Nat.testBit_lor, h3.2]
          rfl
  have hbnot : b ∉ (Finset.range k).filter (fun c => v.testBit c) := by
    intro hcon
    rw [Finset.mem_filter, hvb] at hcon
    exact Bool.false_ne_true hcon.2
  rw [hset, Finset.card_insert_of_not_mem hbnot]

theorem bitCount_natAndNot_two_pow {k m b : Nat} (hm : m < 2 ^ k)
    (hb : m.testBit b = true) :
    bitCount (natAndNot m (2 ^ b)) + 1 = bitCount m := by
  have hbk : b < k := by
    by_contra hc
    push_neg at hc
    rw [testBit_eq_false_of_lt hm hc] at hb
    exact Bool.false_ne_true hb
  have hm2bit : ∀ c, (natAndNot m (2 ^ b)).testBit c =
      (m.testBit c && !(decide (b = c))) := by
    intro c
    rw [testBit_natAndNot, Nat.testBit_two_pow]
  have hm2lt : natAndNot m (2 ^ b) < 2 ^ k := by
    apply lt_two_pow_of_high_bits
    intro c hc
    rw [hm2bit c, testBit_eq_false_of_lt hm hc]
    rfl
  rw [bitCount_eq_card k _ hm2lt, bitCount_eq_card k m hm]
  have hset : (Finset.range k).filter (fun c => (natAndNot m (2 ^ b)).testBit c) =
      ((Finset.range k).filter (fun c => m.testBit c)).erase b := by
    ext c
    rw [Finset.mem_erase, Finset.mem_filter, Finset.mem_filter]
    constructor
    · intro hc
      have h3 := hc.2
      rw [hm2bit c] at h3
      rw [Bool.and_eq_true] at h3
      refine ⟨?_, hc.1, h3.1⟩
      intro hcb
      subst hcb
      simp at h3
    · rintro ⟨hne, hcr, hcm⟩
      refine ⟨hcr, ?_⟩
      rw [hm2bit c, hcm]
      simp [Ne.symm hne]
  have hbmem : b ∈ (Finset.range k).filter (fun c => m.testBit c) :=
    Finset.mem_filter.mpr ⟨Finset.mem_range.mpr hbk, hb⟩
  rw [hset, Finset.card_erase_of_mem hbmem]
  have hpos : 0 < ((Finset.range k).filter (fun c => m.testBit c)).card :=
    Finset.card_pos.mpr ⟨b, hbmem⟩
  omega

theorem two_le_length_of_mem_ne {α : Type} {l : List α} {a b : α}
    (ha : a ∈ l) (hb : b ∈ l) (hne : a ≠ b) : 2 ≤ l.length := by
  cases l with
  | nil => exact absurd ha (List.not_mem_nil a)
  | cons x l2 =>
      cases l2 with
      | nil =>
          simp only [List.mem_singleton] at ha hb
          rw [ha, hb] at hne
          exact absurd rfl hne
      | cons y l3 =>
          simp [List.length_cons]

theorem cubeSet_nonempty (k v m : Nat) : (cubeSet k v m).Nonempty := by
  refine ⟨natAndNot (v &&& (2 ^ k - 1)) m, ?_⟩
  rw [mem_cubeSet]
  constructor
  · apply lt_two_pow_of_high_bits
    intro b hb
    rw [testBit_natAndNot, Nat.testBit_land, Nat.testBit_two_pow_sub_one]
    simp [Nat.not_lt.mpr hb]
  · intro c hc hmc
    rw [testBit_natAndNot, Nat.testBit_land, Nat.testBit_two_pow_sub_one, hmc]
    simp [hc]

theorem mask_testBit_iff_cube {k m b : Nat} (v : Nat) (hm : m < 2 ^ k) (hb : b < k) :
    m.testBit b = true ↔ ∃ x ∈ cubeSet k v m, ∃ y ∈ cubeSet k v m,
      x.testBit b ≠ y.testBit b := by
  constructor
  · intro hmb
    obtain ⟨w, hw⟩ := cubeSet_nonempty k v m
    have hwlt := (mem_cubeSet.mp hw).1
    have hw2 : w ^^^ 2 ^ b ∈ cubeSet k v m := by
      rw [mem_cubeSet]
      refine ⟨Nat.xor_lt_two_pow hwlt (Nat.pow_lt_pow_right one_lt_two hb), ?_⟩
      intro c hc hmc
      rw [Nat.testBit_xor, Nat.testBit_two_pow]
      have hcb : ¬ (b = c) := by
        intro h4
        subst h4
        rw [hmb] at hmc
        exact absurd hmc (by simp)
      simp only [hcb, decide_False, Bool.xor_false]
      exact (mem_cubeSet.mp hw).2 c hc hmc
    refine ⟨w, hw, w ^^^ 2 ^ b, hw2, ?_⟩
    rw [Nat.testBit_xor, Nat.testBit_two_pow]
    cases w.testBit b <;> simp
  · rintro ⟨x, hx, y, hy, hne⟩
    by_contra hc
    rw [Bool.not_eq_true] at hc
    have h1 := (mem_cubeSet.mp hx).2 b hb hc
    have h2 := (mem_cubeSet.mp hy).2 b hb hc
    rw [h1, h2] at hne
    exact hne rfl

theorem cube_eq_mask_eq {k v1 m1 v2 m2 : Nat} (hm1 : m1 < 2 ^ k) (hm2 : m2 < 2 ^ k)
    (hcube : cubeSet k v1 m1 = cubeSet k v2 m2) : m1 = m2 := by
  apply Nat.eq_of_testBit_eq
  intro b
  by_cases hb : b < k
  · have h1 := mask_testBit_iff_cube v1 hm1 hb
    have h2 := mask_testBit_iff_cube v2 hm2 hb
    rw [hcube] at h1
    cases hx : m1.testBit b <;> cases hy : m2.testBit b
    · rfl
    · exact absurd (h1.mpr (h2.mp hy)) (by rw [hx]; exact Bool.false_ne_true)
    · exact absurd (h2.mpr (h1.mp hx)) (by rw [hy]; exact Bool.false_ne_true)
    · rfl
  · rw [testBit_eq_false_of_lt hm1 (by omega), testBit_eq_false_of_lt hm2 (by omega)]

theorem cube_value_eq {k v m : Nat} (hv : v < 2 ^ k) (hvm : v &&& m = 0)
    {w : Nat} (hw : w ∈ cubeSet k v m) : natAndNot w m = v := by
  obtain ⟨hwlt, hwag⟩ := mem_cubeSet.mp hw
  apply Nat.eq_of_testBit_eq
  intro c
  rw [testBit_natAndNot]
  by_cases hc : c < k
  · cases hmc : m.testBit c
    · rw [hwag c hc hmc]
      simp
    · have h2 := congrArg (fun z => z.testBit c) hvm
      simp only [Nat.testBit_land, Nat.zero_testBit] at h2
      rw [hmc] at h2
      simp only [Bool.and_true] at h2
      rw [h2]
      simp
  · rw [testBit_eq_false_of_lt hwlt (by omega), testBit_eq_false_of_lt hv (by omega)]
    rfl

theorem good_ext {k : Nat} {U : Finset Nat} {i1 i2 : Implicant}
    (h1 : Good k U i1) (h2 : Good k U i2) (hm : i1.minterms = i2.minterms) :
    i1 = i2 := by
  have hcube : cubeSet k i1.value i1.mask = cubeSet k i2.value i2.mask := by
    rw [← h1.2.2.2.1, ← h2.2.2.2.1, hm]
  have hmask := cube_eq_mask_eq h1.2.1 h2.2.1 hcube
  obtain ⟨w, hw⟩ := cubeSet_nonempty k i1.value i1.mask
  have hw2 : w ∈ cubeSet k i2.value i2.mask := by
    rw [← hcube]
    exact hw
  have hv1 := cube_value_eq h1.1 h1.2.2.1 hw
  have hv2 := cube_value_eq h2.1 h2.2.2.1 hw2
  have hveq : i1.value = i2.value := by
    rw [← hv1, ← hv2, hmask]
  obtain ⟨mt1, v1, m1⟩ := i1
  obtain ⟨mt2, v2, m2⟩ := i2
  simp_all

theorem cubeSet_subset_of_agree {k v v2 m m2 : Nat} (hsub : m &&& m2 = m)
    (hag : ∀ c < k, m2.testBit c = false → v.testBit c = v2.testBit c) :
    cubeSet k v m ⊆ cubeSet k v2 m2 := by
  intro i hi
  rw [mem_cubeSet] at hi ⊢
  refine ⟨hi.1, fun c hc hmc => ?_⟩
  have hmc2 : m.testBit c = false := by
    have h2 := congrArg (fun z => z.testBit c) hsub
    simp only [Nat.testBit_land] at h2
    rw [hmc] at h2
    simp only [Bool.and_false] at h2
    exact h2.symm
  rw [hi.2 c hc hmc2, hag c hc hmc]

theorem mask_subset_of_cube_subset {k v1 m1 v2 m2 : Nat} (hm1 : m1 < 2 ^ k)
    (hm2 : m2 < 2 ^ k) (hsub : cubeSet k v1 m1 ⊆ cubeSet k v2 m2) :
    m1 &&& m2 = m1 := by
  apply Nat.eq_of_testBit_eq
  intro b
  rw [Nat.testBit_land]
  by_cases hb : b < k
  · cases hx : m1.testBit b
    · rfl
    · obtain ⟨x, hxc, y, hyc, hne⟩ := (mask_testBit_iff_cube v1 hm1 hb).mp hx
      have hm2b : m2.testBit b = true :=
        (mask_testBit_iff_cube v2 hm2 hb).mpr ⟨x, hsub hxc, y, hsub hyc, hne⟩
      rw [hm2b]
      rfl
  · rw [testBit_eq_false_of_lt hm1 (by omega)]
    rfl

/-- Bit expansion of an implicant: mask one further variable position
(the canonical value clears the newly masked bit). -/
def expandImplicant (k b : Nat) (imp : Implicant) : Implicant :=
  { minterms := cubeSet k (natAndNot imp.value (2 ^ b)) (imp.mask ||| 2 ^ b)
    value := natAndNot imp.value (2 ^ b)
    mask := imp.mask ||| 2 ^ b }

/-- A prime implicant: a `Good` cube none of whose bit expansions stays
inside the usable universe. -/
def IsPrime (k : Nat) (U : Finset Nat) (imp : Implicant) : Prop :=
  Good k U imp ∧ ∀ b, b < k → imp.mask.testBit b = false →
    ¬ (cubeSet k (natAndNot imp.value (2 ^ b)) (imp.mask ||| 2 ^ b) ⊆ U)

theorem natAndNot_lt_two_pow {x k : Nat} (m : Nat) (hx : x < 2 ^ k) :
    natAndNot x m < 2 ^ k := by
  apply lt_two_pow_of_high_bits
  intro b hb
  rw [testBit_natAndNot, testBit_eq_false_of_lt hx hb]
  rfl

theorem and_eq_zero_bit {v m c : Nat} (h : v &&& m = 0) (hm : m.testBit c = true) :
    v.testBit c = false := by
  have h2 := congrArg (fun z => z.testBit c) h
  simp only [Nat.testBit_land, Nat.zero_testBit] at h2
  rw [hm] at h2
  cases hv : v.testBit c
  · rfl
  · rw [hv] at h2
    exact absurd h2 (by simp)

theorem testBit_lt_of_eq_true {m k b : Nat} (hm : m < 2 ^ k)
    (hb : m.testBit b = true) : b < k := by
  by_contra hc
  push_neg at hc
  rw [testBit_eq_false_of_lt hm hc] at hb
  exact absurd hb (by simp)

theorem natAndNot_or_self {m b : Nat} (hb : m.testBit b = true) :
    natAndNot m (2 ^ b) ||| 2 ^ b = m := by
  apply Nat.eq_of_testBit_eq
  intro c
  rw [Nat.testBit_lor, testBit_natAndNot, Nat.testBit_two_pow]
  by_cases hbc : b = c
  · subst hbc
    simp [hb]
  · simp [hbc]

theorem expand_good {k : Nat} {U : Finset Nat} {imp : Implicant} {b : Nat}
    (h : Good k U imp) (hb : b < k) (hmb : imp.mask.testBit b = false)
    (hsub : cubeSet k (natAndNot imp.value (2 ^ b)) (imp.mask ||| 2 ^ b) ⊆ U) :
    Good k U (expandImplicant k b imp) ∧
    imp.minterms ⊆ (expandImplicant k b imp).minterms ∧
    bitCount (expandImplicant k b imp).mask = bitCount imp.mask + 1 := by
  obtain ⟨hv, hm, hvm, hmt, hU⟩ := h
  have hbpow : (2 : Nat) ^ b < 2 ^ k := Nat.pow_lt_pow_right one_lt_two hb
  refine ⟨⟨natAndNot_lt_two_pow _ hv, Nat.or_lt_two_pow hm hbpow, ?_, rfl, hsub⟩, ?_, ?_⟩
  · show natAndNot imp.value (2 ^ b) &&& (imp.mask ||| 2 ^ b) = 0
    apply Nat.eq_of_testBit_eq
    intro c
    rw [Nat.testBit_land, testBit_natAndNot, Nat.testBit_lor, Nat.testBit_two_pow,
      Nat.zero_testBit]
    by_cases hbc : b = c
    · subst hbc
      simp
    · simp only [hbc, decide_False, Bool.not_false, Bool.and_true, Bool.or_false]
      cases hmc : imp.mask.testBit c
      · simp
      · rw [and_eq_zero_bit hvm hmc]
        rfl
  · rw [hmt]
    unfold expandImplicant
    apply cubeSet_subset_of_agree (and_or_self_left _ _)
    intro c hc hmc
    rw [Nat.testBit_lor, Bool.or_eq_false_iff] at hmc
    rw [testBit_natAndNot, Nat.testBit_two_pow]
    have hbc : ¬ (b = c) := by
      intro h4
      subst h4
      rw [Nat.testBit_two_pow] at hmc
      simp at hmc
    simp [hbc]
  · unfold expandImplicant
    exact bitCount_or_two_pow hm hb hmb

theorem half_good {k : Nat} {U : Finset Nat} {imp : Implicant} {b : Nat}
    (h : Good k U imp) (hb : imp.mask.testBit b = true) :
    b < k ∧ imp.value.testBit b = false ∧
    Good k U ⟨cubeSet k imp.value (natAndNot imp.mask (2 ^ b)), imp.value,
      natAndNot imp.mask (2 ^ b)⟩ ∧
    Good k U ⟨cubeSet k (imp.value ||| 2 ^ b) (natAndNot imp.mask (2 ^ b)),
      imp.value ||| 2 ^ b, natAndNot imp.mask (2 ^ b)⟩ ∧
    bitCount (natAndNot imp.mask (2 ^ b)) + 1 = bitCount imp.mask ∧
    cubeSet k imp.value (natAndNot imp.mask (2 ^ b)) ∪
      cubeSet k (imp.value ||| 2 ^ b) (natAndNot imp.mask (2 ^ b)) = imp.minterms := by
  obtain ⟨hv, hm, hvm, hmt, hU⟩ := h
  have hbk : b < k := testBit_lt_of_eq_true hm hb
  have hvb : imp.value.testBit b = false := and_eq_zero_bit hvm hb
  have hbpow : (2 : Nat) ^ b < 2 ^ k := Nat.pow_lt_pow_right one_lt_two hbk
  have hmb2 : (natAndNot imp.mask (2 ^ b)).testBit b = false := by
    rw [testBit_natAndNot, Nat.testBit_two_pow]
    simp
  obtain ⟨hsplit, hdisj⟩ := cubeSet_split (v := imp.value)
    (m := natAndNot imp.mask (2 ^ b)) hbk hmb2 hvb
  have huni : cubeSet k imp.value (natAndNot imp.mask (2 ^ b)) ∪
      cubeSet k (imp.value ||| 2 ^ b) (natAndNot imp.mask (2 ^ b)) = imp.minterms := by
    rw [← hsplit, natAndNot_or_self hb, hmt]
  have hand1 : imp.value &&& natAndNot imp.mask (2 ^ b) = 0 := by
    apply Nat.eq_of_testBit_eq
    intro c
    rw [Nat.testBit_land, testBit_natAndNot, Nat.zero_testBit]
    cases hmc : imp.mask.testBit c
    · simp
    · rw [and_eq_zero_bit hvm hmc]
      rfl
  have hand2 : (imp.value ||| 2 ^ b) &&& natAndNot imp.mask (2 ^ b) = 0 := by
    apply Nat.eq_of_testBit_eq
    intro c
    rw [Nat.testBit_land, Nat.testBit_lor, testBit_natAndNot, Nat.testBit_two_pow,
      Nat.zero_testBit]
    by_cases hbc : b = c
    · subst hbc
      simp
    · simp only [hbc, decide_False, Bool.or_false, Bool.not_false, Bool.and_true]
      cases hmc : imp.mask.testBit c
      · simp
      · rw [and_eq_zero_bit hvm hmc]
        rfl
  refine ⟨hbk, hvb, ⟨hv, natAndNot_lt_two_pow _ hm, hand1, rfl, ?_⟩,
    ⟨Nat.or_lt_two_pow hv hbpow, natAndNot_lt_two_pow _ hm, hand2, rfl, ?_⟩,
    bitCount_natAndNot_two_pow hm hb, huni⟩
  · intro x hx
    apply hU
    rw [← huni] at *
    exact Finset.mem_union_left _ hx
  · intro x hx
    apply hU
    rw [← huni] at *
    exact Finset.mem_union_right _ hx

theorem full_mask_prime {k : Nat} {U : Finset Nat} {imp : Implicant}
    (h : Good k U imp) (hbc : bitCount imp.mask = k) : IsPrime k U imp := by
  refine ⟨h, ?_⟩
  intro b hb hmb
  exfalso
  have h1 : bitCount (imp.mask ||| 2 ^ b) = k + 1 := by
    rw [bitCount_or_two_pow h.2.1 hb hmb, hbc]
  have hlt : imp.mask ||| 2 ^ b < 2 ^ k :=
    Nat.or_lt_two_pow h.2.1 (Nat.pow_lt_pow_right one_lt_two hb)
  have h2 := bitCount_le k _ hlt
  omega

theorem prime_extend_aux {k : Nat} {U : Finset Nat} :
    ∀ (fuel : Nat) (imp : Implicant), Good k U imp → k - bitCount imp.mask ≤ fuel →
      ∃ p, IsPrime k U p ∧ imp.minterms ⊆ p.minterms ∧
        bitCount imp.mask ≤ bitCount p.mask ∧
        (¬ IsPrime k U imp → bitCount imp.mask < bitCount p.mask) := by
  intro fuel
  induction fuel with
  | zero =>
      intro imp h hf
      have hle := bitCount_le k imp.mask h.2.1
      have hbck : bitCount imp.mask = k := by omega
      have hp := full_mask_prime h hbck
      exact ⟨imp, hp, Finset.Subset.refl _, le_refl _, fun hc => absurd hp hc⟩
  | succ n ih =>
      intro imp h hf
      by_cases hp : IsPrime k U imp
      · exact ⟨imp, hp, Finset.Subset.refl _, le_refl _, fun hc => absurd hp hc⟩
      · have hB : ¬ ∀ b, b < k → imp.mask.testBit b = false →
            ¬ (cubeSet k (natAndNot imp.value (2 ^ b)) (imp.mask ||| 2 ^ b) ⊆ U) :=
          fun hB => hp ⟨h, hB⟩
        push_neg at hB
        obtain ⟨b, hb, hmb, hsub⟩ := hB
        obtain ⟨hg2, hsub2, hbc2⟩ := expand_good h hb hmb hsub
        have hf2 : k - bitCount (expandImplicant k b imp).mask ≤ n := by
          rw [hbc2]
          omega
        obtain ⟨p, hp2, hsub3, hbc3, h4⟩ := ih (expandImplicant k b imp) hg2 hf2
        refine ⟨p, hp2, Finset.Subset.trans hsub2 hsub3, by omega, fun h5 => by omega⟩

theorem prime_extend {k : Nat} {U : Finset Nat} {imp : Implicant} (h : Good k U imp) :
    ∃ p, IsPrime k U p ∧ imp.minterms ⊆ p.minterms ∧
      bitCount imp.mask ≤ bitCount p.mask ∧
      (¬ IsPrime k U imp → bitCount imp.mask < bitCount p.mask) :=
  prime_extend_aux (k - bitCount imp.mask) imp h (le_refl _)

theorem good_shrink {k : Nat} {U : Finset Nat} :
    ∀ (d : Nat) (imp : Implicant), Good k U imp → d ≤ bitCount imp.mask →
      ∃ q, Good k U q ∧ bitCount q.mask = bitCount imp.mask - d := by
  intro d
  induction d with
  | zero =>
      intro imp h hd
      exact ⟨imp, h, by omega⟩
  | succ n ih =>
      intro imp h hd
      obtain ⟨q, hq, hbc⟩ := ih imp h (by omega)
      have hne : q.mask ≠ 0 := by
        intro h0
        rw [h0, bitCount_zero] at hbc
        omega
      obtain ⟨b, hbset⟩ := exists_testBit_of_ne_zero q.mask hne
      obtain ⟨hbk, hvb, hg1, hg2, hbc2, huni⟩ := half_good hq hbset
      exact ⟨_, hg1, by dsimp only []; omega⟩

theorem xor_or_two_pow {v b : Nat} (hvb : v.testBit b = false) :
    v ^^^ (v ||| 2 ^ b) = 2 ^ b := by
  apply Nat.eq_of_testBit_eq
  intro c
  rw [Nat.testBit_xor, Nat.testBit_lor, Nat.testBit_two_pow]
  by_cases hbc : b = c
  · subst hbc
    rw [hvb]
    simp
  · simp [hbc]

theorem natAndNot_two_pow_self {v b : Nat} (hvb : v.testBit b = false) :
    natAndNot v (2 ^ b) = v := by
  apply Nat.eq_of_testBit_eq
  intro c
  rw [testBit_natAndNot, Nat.testBit_two_pow]
  by_cases hbc : b = c
  · subst hbc
    rw [hvb]
    rfl
  · simp [hbc]

theorem dedup_foldl_mono :
    ∀ (l : List Implicant) (acc : List Implicant × Finset (Finset Nat)),
      ∀ x ∈ acc.1, x ∈ (l.foldl
        (fun acc imp =>
          if imp.minterms ∈ acc.2 then acc else (acc.1 ++ [imp], insert imp.minterms acc.2))
        acc).1 := by
  intro l
  induction l with
  | nil =>
      intro acc x hx
      exact hx
  | cons imp l ih =>
      intro acc x hx
      rw [List.foldl_cons]
      by_cases hc : imp.minterms ∈ acc.2
      · rw [if_pos hc]
        exact ih acc x hx
      · rw [if_neg hc]
        exact ih _ x (List.mem_append.mpr (Or.inl hx))

theorem dedup_foldl_keeps :
    ∀ (l : List Implicant) (acc : List Implicant × Finset (Finset Nat)),
      (∀ s ∈ acc.2, ∃ y ∈ acc.1, y.minterms = s) →
      ∀ x ∈ l, ∃ y ∈ (l.foldl
        (fun acc imp =>
          if imp.minterms ∈ acc.2 then acc else (acc.1 ++ [imp], insert imp.minterms acc.2))
        acc).1, y.minterms = x.minterms := by
  intro l
  induction l with
  | nil =>
      intro acc hacc x hx
      exact absurd hx (List.not_mem_nil x)
  | cons imp l ih =>
      intro acc hacc x hx
      rw [List.foldl_cons]
      by_cases hc : imp.minterms ∈ acc.2
      · rw [if_pos hc]
        rcases List.mem_cons.mp hx with h4 | h4
        · obtain ⟨y, hy, hys⟩ := hacc imp.minterms hc
          exact ⟨y, dedup_foldl_mono l acc y hy, h4 ▸ hys⟩
        · exact ih acc hacc x h4
      · rw [if_neg hc]
        have hacc2 : ∀ s ∈ (insert imp.minterms acc.2 : Finset (Finset Nat)),
            ∃ y ∈ acc.1 ++ [imp], y.minterms = s := by
          intro s hs
          rcases Finset.mem_insert.mp hs with h4 | h4
          · exact ⟨imp, List.mem_append.mpr (Or.inr (List.mem_singleton.mpr rfl)), h4.symm⟩
          · obtain ⟨y, hy, hys⟩ := hacc s h4
            exact ⟨y, List.mem_append.mpr (Or.inl hy), hys⟩
        rcases List.mem_cons.mp hx with h4 | h4
        · refine ⟨imp, ?_, h4 ▸ rfl⟩
          exact dedup_foldl_mono l _ imp (List.mem_append.mpr
            (Or.inr (List.mem_singleton.mpr rfl)))
        · exact ih _ hacc2 x h4

theorem dedup_keeps (l : List Implicant) :
    ∀ x ∈ l, ∃ y ∈ QuineMcCluskey.dedupByMinterms l, y.minterms = x.minterms := by
  intro x hx
  unfold QuineMcCluskey.dedupByMinterms
  exact dedup_foldl_keeps l ([], ∅)
    (fun s hs => absurd hs (Finset.not_mem_empty s)) x hx

theorem mergeCandidates_mem {cur : List Implicant} {i1 i2 : Implicant}
    (h1 : i1 ∈ cur) (h2 : i2 ∈ cur)
    (hc : bitCount i2.value = bitCount i1.value + 1 ∧ i1.mask = i2.mask ∧
      bitCount (i1.value ^^^ i2.value) = 1) :
    ({ minterms := i1.minterms ∪ i2.minterms,
       value := natAndNot i1.value (i1.value ^^^ i2.value),
       mask := i1.mask ||| (i1.value ^^^ i2.value) } : Implicant) ∈
      QuineMcCluskey.mergeCandidates cur := by
  unfold QuineMcCluskey.mergeCandidates
  apply List.mem_flatMap.mpr
  refine ⟨i1, h1, ?_⟩
  apply List.mem_filterMap.mpr
  refine ⟨i2, h2, ?_⟩
  rw [if_pos hc]

theorem mergeCandidates_good_succ {k j : Nat} {U : Finset Nat} {cur : List Implicant}
    (hcur : ∀ i ∈ cur, Good k U i ∧ bitCount i.mask = j) :
    ∀ x ∈ QuineMcCluskey.mergeCandidates cur, Good k U x ∧ bitCount x.mask = j + 1 := by
  intro x hx
  unfold QuineMcCluskey.mergeCandidates at hx
  obtain ⟨i1, hi1, hx2⟩ := List.mem_flatMap.mp hx
  obtain ⟨i2, hi2, hx3⟩ := List.mem_filterMap.mp hx2
  by_cases hc : bitCount i2.value = bitCount i1.value + 1 ∧ i1.mask = i2.mask ∧
      bitCount (i1.value ^^^ i2.value) = 1
  · rw [if_pos hc] at hx3
    injection hx3 with hx4
    obtain ⟨b, hb, hdiff, hvb, hmb, hv2, hnn, hdisj, hcard, hbc, huni, hgood⟩ :=
      merge_pair_facts (hcur i1 hi1).1 (hcur i2 hi2).1 hc.1 hc.2.1 hc.2.2
    subst hx4
    refine ⟨hgood, ?_⟩
    dsimp only []
    rw [hbc, (hcur i1 hi1).2]
  · rw [if_neg hc] at hx3
    exact Option.noConfusion hx3

theorem merge_step_complete {k j : Nat} {U : Finset Nat} {cur : List Implicant}
    (hgood : ∀ i ∈ cur, Good k U i)
    (hcomp : ∀ x, Good k U x → bitCount x.mask = j → x ∈ cur) :
    ∀ imp, Good k U imp → bitCount imp.mask = j + 1 →
      imp ∈ QuineMcCluskey.merge_implicants cur := by
  intro imp h hbc
  have hne : imp.mask ≠ 0 := by
    intro h0
    rw [h0, bitCount_zero] at hbc
    omega
  obtain ⟨b, hbset⟩ := exists_testBit_of_ne_zero imp.mask hne
  obtain ⟨hbk, hvb, hg1, hg2, hbc2, huni⟩ := half_good h hbset
  have hv := h.1
  have hj1 : bitCount (natAndNot imp.mask (2 ^ b)) = j := by omega
  have hmem1 : (⟨cubeSet k imp.value (natAndNot imp.mask (2 ^ b)), imp.value,
      natAndNot imp.mask (2 ^ b)⟩ : Implicant) ∈ cur :=
    hcomp _ hg1 hj1
  have hmem2 : (⟨cubeSet k (imp.value ||| 2 ^ b) (natAndNot imp.mask (2 ^ b)),
      imp.value ||| 2 ^ b, natAndNot imp.mask (2 ^ b)⟩ : Implicant) ∈ cur :=
    hcomp _ hg2 hj1
  have hcond : bitCount (imp.value ||| 2 ^ b) = bitCount imp.value + 1 ∧
      natAndNot imp.mask (2 ^ b) = natAndNot imp.mask (2 ^ b) ∧
      bitCount (imp.value ^^^ (imp.value ||| 2 ^ b)) = 1 := by
    refine ⟨bitCount_or_two_pow hv hbk hvb, rfl, ?_⟩
    rw [xor_or_two_pow hvb]
    exact bitCount_two_pow b
  have hmc := mergeCandidates_mem hmem1 hmem2 hcond
  obtain ⟨y, hy, hys⟩ := dedup_keeps _ _ hmc
  have hygood : Good k U y := good_merge_implicants hgood y hy
  have hymt : y.minterms = imp.minterms := by
    rw [hys]
    dsimp only []
    exact huni
  have := good_ext hygood h hymt
  rw [← this]
  exact hy

theorem merge_stages_complete {k : Nat} {U : Finset Nat} :
    ∀ (n j : Nat) (cur : List Implicant),
      (∀ i ∈ cur, Good k U i ∧ bitCount i.mask = j) →
      (∀ x, Good k U x → bitCount x.mask = j → x ∈ cur) →
      k ≤ n + j →
      ∀ imp, Good k U imp → j ≤ bitCount imp.mask →
        ∃ g, (QuineMcCluskey.merge_stages n cur).get? (bitCount imp.mask - j) = some g ∧
          imp ∈ g := by
  intro n
  induction n with
  | zero =>
      intro j cur hcur hcomp hk imp h hbc
      have hle := bitCount_le k imp.mask h.2.1
      have hbj : bitCount imp.mask = j := by omega
      rw [hbj, Nat.sub_self]
      exact ⟨cur, rfl, hcomp imp h hbj⟩
  | succ n ih =>
      intro j cur hcur hcomp hk imp h hbc
      unfold QuineMcCluskey.merge_stages
      by_cases hbj : bitCount imp.mask = j
      · rw [hbj, Nat.sub_self]
        by_cases hmerged : (QuineMcCluskey.merge_implicants cur).isEmpty
        · rw [if_pos hmerged]
          exact ⟨cur, rfl, hcomp imp h hbj⟩
        · rw [if_neg hmerged]
          exact ⟨cur, rfl, hcomp imp h hbj⟩
      · have hgt : j + 1 ≤ bitCount imp.mask := by omega
        obtain ⟨q, hq, hqbc⟩ := good_shrink (bitCount imp.mask - (j + 1)) imp h (by omega)
        have hqj : bitCount q.mask = j + 1 := by omega
        have hqmem := merge_step_complete (fun i hi => (hcur i hi).1) hcomp q hq hqj
        have hmerged : ¬ (QuineMcCluskey.merge_implicants cur).isEmpty = true := by
          rw [List.isEmpty_iff]
          intro h0
          rw [h0] at hqmem
          exact List.not_mem_nil q hqmem
        rw [if_neg hmerged]
        have hmgood : ∀ i ∈ QuineMcCluskey.merge_implicants cur,
            Good k U i ∧ bitCount i.mask = j + 1 := by
          intro i hi
          exact mergeCandidates_good_succ hcur i
            (dedupByMinterms_sub _ i hi)
        have hmcomp : ∀ x, Good k U x → bitCount x.mask = j + 1 →
            x ∈ QuineMcCluskey.merge_implicants cur :=
          merge_step_complete (fun i hi => (hcur i hi).1) hcomp
        obtain ⟨g, hg, himp⟩ := ih (j + 1) _ hmgood hmcomp (by omega) imp h hgt
        refine ⟨g, ?_, himp⟩
        have hidx : bitCount imp.mask - j = (bitCount imp.mask - (j + 1)) + 1 := by omega
        rw [hidx, List.get?_cons_succ]
        exact hg

theorem merge_stages_stage_bc {k : Nat} {U : Finset Nat} :
    ∀ (n j : Nat) (cur : List Implicant),
      (∀ i ∈ cur, Good k U i ∧ bitCount i.mask = j) →
      ∀ idx g, (QuineMcCluskey.merge_stages n cur).get? idx = some g →
        ∀ i ∈ g, Good k U i ∧ bitCount i.mask = j + idx := by
  intro n
  induction n with
  | zero =>
      intro j cur hcur idx g hg i hi
      unfold QuineMcCluskey.merge_stages at hg
      cases idx with
      | zero =>
          injection hg with hg2
          subst hg2
          simpa using hcur i hi
      | succ m =>
          rw [List.get?_cons_succ] at hg
          rw [List.get?_nil] at hg
          exact Option.noConfusion hg
  | succ n ih =>
      intro j cur hcur idx g hg i hi
      unfold QuineMcCluskey.merge_stages at hg
      by_cases hmerged : (QuineMcCluskey.merge_implicants cur).isEmpty
      · rw [if_pos hmerged] at hg
        cases idx with
        | zero =>
            injection hg with hg2
            subst hg2
            simpa using hcur i hi
        | succ m =>
            rw [List.get?_cons_succ, List.get?_nil] at hg
            exact Option.noConfusion hg
      · rw [if_neg hmerged] at hg
        cases idx with
        | zero =>
            injection hg with hg2
            subst hg2
            simpa using hcur i hi
        | succ m =>
            rw [List.get?_cons_succ] at hg
            have hmgood : ∀ x ∈ QuineMcCluskey.merge_implicants cur,
                Good k U x ∧ bitCount x.mask = j + 1 := by
              intro x hx
              exact mergeCandidates_good_succ hcur x (dedupByMinterms_sub _ x hx)
            have := ih (j + 1) _ hmgood m g hg i hi
            refine ⟨this.1, ?_⟩
            omega

theorem merge_stages_last {k : Nat} {U : Finset Nat}
    (n j : Nat) (cur : List Implicant)
    (hcur : ∀ i ∈ cur, Good k U i ∧ bitCount i.mask = j)
    (hcomp : ∀ x, Good k U x → bitCount x.mask = j → x ∈ cur)
    (hk : k ≤ n + j) :
    ∀ imp, Good k U imp →
      bitCount imp.mask < j + (QuineMcCluskey.merge_stages n cur).length := by
  intro imp h
  by_cases hbc : j ≤ bitCount imp.mask
  · obtain ⟨g, hg, himp⟩ := merge_stages_complete n j cur hcur hcomp hk imp h hbc
    obtain ⟨hlt, hget⟩ := List.get?_eq_some.mp hg
    omega
  · push_neg at hbc
    have hlen : 0 ≤ (QuineMcCluskey.merge_stages n cur).length := Nat.zero_le _
    omega

theorem sub_testBit {y x c : Nat} (h : y &&& x = y) (hc : y.testBit c = true) :
    x.testBit c = true := by
  have h2 := congrArg (fun z => z.testBit c) h
  simp only [Nat.testBit_land] at h2
  rw [hc] at h2
  cases hx : x.testBit c
  · rw [hx] at h2
    exact absurd h2 (by simp)
  · rfl

theorem exists_bit_of_proper_sub {y x : Nat} (h : y &&& x = y) (hne : y ≠ x) :
    ∃ b, x.testBit b = true ∧ y.testBit b = false := by
  by_contra hc
  push_neg at hc
  apply hne
  apply Nat.eq_of_testBit_eq
  intro c
  cases hyc : y.testBit c
  · cases hxc : x.testBit c
    · rfl
    · have := hc c hxc
      rw [hyc] at this
      exact absurd this (by simp)
  · rw [sub_testBit h hyc]

theorem or_sub_of_subs {a b x : Nat} (ha : a &&& x = a) (hb : b &&& x = b) :
    (a ||| b) &&& x = a ||| b := by
  apply Nat.eq_of_testBit_eq
  intro c
  rw [Nat.testBit_land, Nat.testBit_lor]
  cases hac : a.testBit c
  · cases hbc : b.testBit c
    · rfl
    · rw [sub_testBit hb hbc]
      rfl
  · rw [sub_testBit ha hac]
    rfl

theorem not_prime_of_minterms_sub {k : Nat} {U : Finset Nat} {p ui : Implicant}
    (hp : Good k U p) (hui : Good k U ui)
    (hsub : p.minterms ⊆ ui.minterms)
    (hbc : bitCount p.mask < bitCount ui.mask) :
    ¬ IsPrime k U p := by
  intro hprime
  have hcsub : cubeSet k p.value p.mask ⊆ cubeSet k ui.value ui.mask := by
    rw [← hp.2.2.2.1, ← hui.2.2.2.1]
    exact hsub
  have hmasksub := mask_subset_of_cube_subset hp.2.1 hui.2.1 hcsub
  have hmne : p.mask ≠ ui.mask := by
    intro h0
    rw [h0] at hbc
    omega
  obtain ⟨b, hxb, hyb⟩ := exists_bit_of_proper_sub hmasksub hmne
  have hbk : b < k := testBit_lt_of_eq_true hui.2.1 hxb
  have hexp : cubeSet k (natAndNot p.value (2 ^ b)) (p.mask ||| 2 ^ b) ⊆
      cubeSet k ui.value ui.mask := by
    apply cubeSet_subset_of_agree
    · exact or_sub_of_subs hmasksub ((two_pow_and_eq_iff _ _).mpr hxb)
    · intro c hc hmc
      have hbc2 : ¬ (b = c) := by
        intro h0
        subst h0
        rw [hxb] at hmc
        exact absurd hmc (by simp)
      rw [testBit_natAndNot, Nat.testBit_two_pow]
      simp only [hbc2, decide_False, Bool.not_false, Bool.and_true]
      obtain ⟨w, hw⟩ := cubeSet_nonempty k p.value p.mask
      have hw2 : w ∈ cubeSet k ui.value ui.mask := hcsub hw
      have hpmc : p.mask.testBit c = false := by
        cases hpc : p.mask.testBit c
        · rfl
        · exact absurd (sub_testBit hmasksub hpc) (by simp [hmc])
      have e1 := (mem_cubeSet.mp hw).2 c hc hpmc
      have e2 := (mem_cubeSet.mp hw2).2 c hc hmc
      rw [← e1, ← e2]
  have hU2 : cubeSet k (natAndNot p.value (2 ^ b)) (p.mask ||| 2 ^ b) ⊆ U := by
    intro x hx
    exact hui.2.2.2.2 (hui.2.2.2.1 ▸ hexp hx)
  exact hprime.2 b hbk hyb hU2

theorem exists_expansion_of_not_prime {k : Nat} {U : Finset Nat} {imp : Implicant}
    (h : Good k U imp) (hnp : ¬ IsPrime k U imp) :
    ∃ E, Good k U E ∧ imp.minterms ⊆ E.minterms ∧
      bitCount E.mask = bitCount imp.mask + 1 := by
  have hB : ¬ ∀ b, b < k → imp.mask.testBit b = false →
      ¬ (cubeSet k (natAndNot imp.value (2 ^ b)) (imp.mask ||| 2 ^ b) ⊆ U) :=
    fun hB => hnp ⟨h, hB⟩
  push_neg at hB
  obtain ⟨b, hb, hmb, hsub⟩ := hB
  obtain ⟨hg2, hsub2, hbc2⟩ := expand_good h hb hmb hsub
  exact ⟨expandImplicant k b imp, hg2, hsub2, hbc2⟩

theorem eliminate_groups_prime {k : Nat} {U : Finset Nat} :
    ∀ (sl : List (List Implicant)) (j0 : Nat),
      (∀ idx g, sl.get? idx = some g → ∀ i ∈ g, Good k U i ∧ bitCount i.mask = j0 + idx) →
      (∀ idx x, Good k U x → bitCount x.mask = j0 + idx → idx < sl.length →
        ∃ g, sl.get? idx = some g ∧ x ∈ g) →
      (∀ x, Good k U x → bitCount x.mask < j0 + sl.length) →
      ∀ g ∈ QuineMcCluskey.eliminate_suboptimal sl, ∀ imp ∈ g, IsPrime k U imp := by
  intro sl
  induction sl with
  | nil =>
      intro j0 hsl hcomp hlast g hg
      unfold QuineMcCluskey.eliminate_suboptimal at hg
      exact absurd hg (List.not_mem_nil g)
  | cons low rest ih =>
      cases rest with
      | nil =>
          intro j0 hsl hcomp hlast g hg imp himp
          unfold QuineMcCluskey.eliminate_suboptimal at hg
          simp only [List.mem_singleton] at hg
          rw [hg] at himp
          obtain ⟨hgood, hbc⟩ := hsl 0 low rfl imp himp
          by_contra hnp
          obtain ⟨E, hEg, hEs, hEbc⟩ := exists_expansion_of_not_prime hgood hnp
          have := hlast E hEg
          simp only [List.length_singleton] at this
          omega
      | cons up rest2 =>
          intro j0 hsl hcomp hlast g hg imp himp
          unfold QuineMcCluskey.eliminate_suboptimal at hg
          have hshift : ∀ idx g2, (up :: rest2).get? idx = some g2 →
              ∀ i ∈ g2, Good k U i ∧ bitCount i.mask = (j0 + 1) + idx := by
            intro idx g2 hg2 i hi
            have := hsl (idx + 1) g2 (by rw [List.get?_cons_succ]; exact hg2) i hi
            refine ⟨this.1, ?_⟩
            omega
          have hshiftc : ∀ idx x, Good k U x → bitCount x.mask = (j0 + 1) + idx →
              idx < (up :: rest2).length →
              ∃ g2, (up :: rest2).get? idx = some g2 ∧ x ∈ g2 := by
            intro idx x hx hbc hlen
            obtain ⟨g2, hg2, hxg2⟩ := hcomp (idx + 1) x hx (by omega)
              (by simp only [List.length_cons] at hlen ⊢; omega)
            rw [List.get?_cons_succ] at hg2
            exact ⟨g2, hg2, hxg2⟩
          have hshiftl : ∀ x, Good k U x →
              bitCount x.mask < (j0 + 1) + (up :: rest2).length := by
            intro x hx
            have := hlast x hx
            simp only [List.length_cons] at this ⊢
            omega
          by_cases hk : (low.filter (fun li =>
              !(up.any (fun ui => decide (li.minterms ⊆ ui.minterms))))).isEmpty
          · rw [if_pos hk] at hg
            exact ih (j0 + 1) hshift hshiftc hshiftl g hg imp himp
          · rw [if_neg hk] at hg
            rcases List.mem_cons.mp hg with h4 | h4
            · rw [h4] at himp
              have hlow := List.mem_of_mem_filter himp
              obtain ⟨hgood, hbc⟩ := hsl 0 low rfl imp hlow
              by_contra hnp
              obtain ⟨E, hEg, hEs, hEbc⟩ := exists_expansion_of_not_prime hgood hnp
              obtain ⟨g2, hg2, hEg2⟩ := hcomp 1 E hEg (by omega)
                (by simp only [List.length_cons]; omega)
              have hg2up : g2 = up := by
                rw [List.get?_cons_succ, List.get?_cons_zero] at hg2
                exact (Option.some_inj.mp hg2).symm
              rw [hg2up] at hEg2
              have hcond := (List.mem_filter.mp himp).2
              rw [Bool.not_eq_true', List.any_eq_false] at hcond
              have h6 := hcond E hEg2
              simp only [decide_eq_true_eq] at h6
              exact h6 hEs
            · exact ih (j0 + 1) hshift hshiftc hshiftl g h4 imp himp

theorem prime_in_eliminate {k : Nat} {U : Finset Nat} :
    ∀ (sl : List (List Implicant)) (j0 : Nat),
      (∀ idx g, sl.get? idx = some g → ∀ i ∈ g, Good k U i ∧ bitCount i.mask = j0 + idx) →
      ∀ p idx g, IsPrime k U p → sl.get? idx = some g → p ∈ g →
        ∃ g2 ∈ QuineMcCluskey.eliminate_suboptimal sl, p ∈ g2 := by
  intro sl
  induction sl with
  | nil =>
      intro j0 hsl p idx g hp hg hpg
      rw [List.get?_nil] at hg
      exact Option.noConfusion hg
  | cons low rest ih =>
      cases rest with
      | nil =>
          intro j0 hsl p idx g hp hg hpg
          cases idx with
          | zero =>
              rw [List.get?_cons_zero] at hg
              have hgl : low = g := Option.some_inj.mp hg
              subst hgl
              unfold QuineMcCluskey.eliminate_suboptimal
              exact ⟨low, List.mem_singleton.mpr rfl, hpg⟩
          | succ m =>
              rw [List.get?_cons_succ, List.get?_nil] at hg
              exact Option.noConfusion hg
      | cons up rest2 =>
          intro j0 hsl p idx g hp hg hpg
          have hshift : ∀ idx g2, (up :: rest2).get? idx = some g2 →
              ∀ i ∈ g2, Good k U i ∧ bitCount i.mask = (j0 + 1) + idx := by
            intro idx g2 hg2 i hi
            have := hsl (idx + 1) g2 (by rw [List.get?_cons_succ]; exact hg2) i hi
            refine ⟨this.1, ?_⟩
            omega
          unfold QuineMcCluskey.eliminate_suboptimal
          cases idx with
          | zero =>
              rw [List.get?_cons_zero] at hg
              have hgl : low = g := Option.some_inj.mp hg
              subst hgl
              have hkeep : p ∈ low.filter (fun li =>
                  !(up.any (fun ui => decide (li.minterms ⊆ ui.minterms)))) := by
                apply List.mem_filter.mpr
                refine ⟨hpg, ?_⟩
                rw [Bool.not_eq_true', List.any_eq_false]
                intro ui hui
                simp only [decide_eq_true_eq]
                intro hsub
                have hui2 := hsl 1 up (by rw [List.get?_cons_succ, List.get?_cons_zero])
                  ui hui
                have hpbc := (hsl 0 low rfl p hpg).2
                exact not_prime_of_minterms_sub hp.1 hui2.1 hsub
                  (by rw [hpbc, hui2.2]; omega) hp
              have hkne : ¬ (low.filter (fun li =>
                  !(up.any (fun ui => decide (li.minterms ⊆ ui.minterms))))).isEmpty = true := by
                rw [List.isEmpty_iff]
                intro h0
                rw [h0] at hkeep
                exact List.not_mem_nil p hkeep
              rw [if_neg hkne]
              exact ⟨_, List.mem_cons_self _ _, hkeep⟩
          | succ m =>
              rw [List.get?_cons_succ] at hg
              obtain ⟨g2, hg2, hpg2⟩ := ih (j0 + 1) hshift p m g hp hg hpg
              by_cases hk : (low.filter (fun li =>
                  !(up.any (fun ui => decide (li.minterms ⊆ ui.minterms))))).isEmpty
              · rw [if_pos hk]
                exact ⟨g2, hg2, hpg2⟩
              · rw [if_neg hk]
                exact ⟨g2, List.mem_cons_of_mem _ hg2, hpg2⟩

theorem size_one_stage_facts {k : Nat} {U : Finset Nat} {ms : List Nat}
    (hms : ∀ x, x ∈ ms ↔ x < 2 ^ k ∧ x ∈ U) :
    (∀ i ∈ QuineMcCluskey.create_size_one_implicants ms,
      Good k U i ∧ bitCount i.mask = 0) ∧
    (∀ x, Good k U x → bitCount x.mask = 0 →
      x ∈ QuineMcCluskey.create_size_one_implicants ms) := by
  constructor
  · intro i hi
    refine ⟨good_size_one (fun m hm => (hms m).mp hm) i hi, ?_⟩
    unfold QuineMcCluskey.create_size_one_implicants at hi
    obtain ⟨m, hm, heq⟩ := List.mem_map.mp hi
    subst heq
    exact bitCount_zero
  · intro x hx hbc
    have hm0 : x.mask = 0 := bitCount_eq_zero hbc
    have hmt : x.minterms = {x.value} := by
      rw [hx.2.2.2.1, hm0, cubeSet_mask_zero k x.value hx.1]
    have hvU : x.value ∈ U := hx.2.2.2.2 (by
      rw [hmt]
      exact Finset.mem_singleton_self _)
    unfold QuineMcCluskey.create_size_one_implicants
    apply List.mem_map.mpr
    refine ⟨x.value, (hms x.value).mpr ⟨hx.1, hvU⟩, ?_⟩
    obtain ⟨mt, v, m⟩ := x
    dsimp only [] at hm0 hmt ⊢
    rw [hm0, hmt]

theorem dedup_foldl_pairwise :
    ∀ (l : List Implicant) (acc : List Implicant × Finset (Finset Nat)),
      acc.1.Pairwise (fun a b => a.minterms ≠ b.minterms) →
      (∀ x ∈ acc.1, x.minterms ∈ acc.2) →
      (l.foldl
        (fun acc imp =>
          if imp.minterms ∈ acc.2 then acc else (acc.1 ++ [imp], insert imp.minterms acc.2))
        acc).1.Pairwise (fun a b => a.minterms ≠ b.minterms) := by
  intro l
  induction l with
  | nil =>
      intro acc hpw hinv
      exact hpw
  | cons imp l ih =>
      intro acc hpw hinv
      rw [List.foldl_cons]
      by_cases hc : imp.minterms ∈ acc.2
      · rw [if_pos hc]
        exact ih acc hpw hinv
      · rw [if_neg hc]
        apply ih
        · apply List.pairwise_append.mpr
          refine ⟨hpw, List.pairwise_singleton _ _, ?_⟩
          intro a ha b hb
          simp only [List.mem_singleton] at hb
          intro heq
          apply hc
          rw [← hb, ← heq]
          exact hinv a ha
        · intro x hx
          rcases List.mem_append.mp hx with h4 | h4
          · exact Finset.mem_insert_of_mem (hinv x h4)
          · simp only [List.mem_singleton] at h4
            subst h4
            exact Finset.mem_insert_self _ _

theorem dedupByMinterms_pairwise (l : List Implicant) :
    (QuineMcCluskey.dedupByMinterms l).Pairwise (fun a b => a.minterms ≠ b.minterms) := by
  unfold QuineMcCluskey.dedupByMinterms
  exact dedup_foldl_pairwise l ([], ∅) (List.Pairwise.nil)
    (fun x hx => absurd hx (List.not_mem_nil x))

theorem merge_stages_flatten_pairwise {k : Nat} {U : Finset Nat} :
    ∀ (n j : Nat) (cur : List Implicant),
      (∀ i ∈ cur, Good k U i ∧ bitCount i.mask = j) →
      cur.Pairwise (fun a b => a.minterms ≠ b.minterms) →
      ((QuineMcCluskey.merge_stages n cur).flatten).Pairwise
        (fun a b => a.minterms ≠ b.minterms) := by
  intro n
  induction n with
  | zero =>
      intro j cur hcur hpw
      unfold QuineMcCluskey.merge_stages
      simpa using hpw
  | succ n ih =>
      intro j cur hcur hpw
      unfold QuineMcCluskey.merge_stages
      by_cases hmerged : (QuineMcCluskey.merge_implicants cur).isEmpty
      · rw [if_pos hmerged]
        simpa using hpw
      · rw [if_neg hmerged]
        rw [List.flatten_cons]
        have hmgood : ∀ i ∈ QuineMcCluskey.merge_implicants cur,
            Good k U i ∧ bitCount i.mask = j + 1 := by
          intro i hi
          exact mergeCandidates_good_succ hcur i (dedupByMinterms_sub _ i hi)
        apply List.pairwise_append.mpr
        refine ⟨hpw, ih (j + 1) _ hmgood (dedupByMinterms_pairwise _), ?_⟩
        intro a ha b hb
        obtain ⟨g, hg, hbg⟩ := List.mem_flatten.mp hb
        obtain ⟨idx, hget⟩ := List.mem_iff_get?.mp hg
        obtain ⟨hbgood, hbbc⟩ := merge_stages_stage_bc n (j + 1) _ hmgood idx g hget b hbg
        obtain ⟨hagood, habc⟩ := hcur a ha
        intro heq
        have hca := good_card hagood
        have hcb := good_card hbgood
        rw [heq, hcb, habc, hbbc] at hca
        have hlt : (2 : Nat) ^ j < 2 ^ (j + 1 + idx) :=
          Nat.pow_lt_pow_right one_lt_two (by omega)
        omega

theorem eliminate_flatten_sublist :
    ∀ (sl : List (List Implicant)),
      ((QuineMcCluskey.eliminate_suboptimal sl).flatten).Sublist sl.flatten := by
  intro sl
  induction sl with
  | nil =>
      unfold QuineMcCluskey.eliminate_suboptimal
      exact List.Sublist.refl _
  | cons low rest ih =>
      cases rest with
      | nil =>
          unfold QuineMcCluskey.eliminate_suboptimal
          exact List.Sublist.refl _
      | cons up rest2 =>
          unfold QuineMcCluskey.eliminate_suboptimal
          by_cases hk : (low.filter (fun li =>
              !(up.any (fun ui => decide (li.minterms ⊆ ui.minterms))))).isEmpty
          · rw [if_pos hk]
            rw [List.flatten_cons]
            simpa using (List.nil_sublist low).append ih
          · rw [if_neg hk]
            rw [List.flatten_cons, List.flatten_cons]
            exact List.Sublist.append (List.filter_sublist low) ih

theorem pool_pairwise {k : Nat} {U : Finset Nat} {ms : List Nat}
    (hms : ∀ x, x ∈ ms ↔ x < 2 ^ k ∧ x ∈ U) (hnd : ms.Nodup) :
    ((QuineMcCluskey.eliminate_suboptimal
      (QuineMcCluskey.merge_stages k
        (QuineMcCluskey.create_size_one_implicants ms))).flatten).Pairwise
      (fun a b => a.minterms ≠ b.minterms) := by
  apply List.Pairwise.sublist (eliminate_flatten_sublist _)
  apply merge_stages_flatten_pairwise k 0 _ (size_one_stage_facts hms).1
  unfold QuineMcCluskey.create_size_one_implicants
  apply List.pairwise_map.mpr
  apply List.Pairwise.imp ?_ hnd
  intro a b hne
  dsimp only []
  intro heq
  exact hne (Finset.singleton_injective heq)

theorem pool_prime_iff {k : Nat} {U : Finset Nat} {ms : List Nat}
    (hms : ∀ x, x ∈ ms ↔ x < 2 ^ k ∧ x ∈ U) :
    ∀ imp, imp ∈ (QuineMcCluskey.eliminate_suboptimal
      (QuineMcCluskey.merge_stages k
        (QuineMcCluskey.create_size_one_implicants ms))).flatten ↔ IsPrime k U imp := by
  have hfacts := size_one_stage_facts hms
  set cur := QuineMcCluskey.create_size_one_implicants ms with hcur
  set sl := QuineMcCluskey.merge_stages k cur with hsl
  have hstage : ∀ idx g, sl.get? idx = some g →
      ∀ i ∈ g, Good k U i ∧ bitCount i.mask = 0 + idx := by
    intro idx g hget i hi
    have := merge_stages_stage_bc k 0 cur hfacts.1 idx g hget i hi
    simpa using this
  have hcompidx : ∀ idx x, Good k U x → bitCount x.mask = 0 + idx → idx < sl.length →
      ∃ g, sl.get? idx = some g ∧ x ∈ g := by
    intro idx x hx hbc hlen
    have h := merge_stages_complete k 0 cur hfacts.1 hfacts.2 (by omega) x hx (Nat.zero_le _)
    have hidx : bitCount x.mask - 0 = idx := by omega
    rw [hidx] at h
    exact h
  have hlast : ∀ x, Good k U x → bitCount x.mask < 0 + sl.length := by
    intro x hx
    have := merge_stages_last k 0 cur hfacts.1 hfacts.2 (by omega) x hx
    simpa using this
  intro imp
  constructor
  · intro himp
    obtain ⟨g, hg, himpg⟩ := List.mem_flatten.mp himp
    exact eliminate_groups_prime sl 0 hstage hcompidx hlast g hg imp himpg
  · intro hp
    have h := merge_stages_complete k 0 cur hfacts.1 hfacts.2 (by omega) imp hp.1
      (Nat.zero_le _)
    obtain ⟨g, hget, himpg⟩ := h
    obtain ⟨g2, hg2, himp2⟩ := prime_in_eliminate sl 0 hstage imp _ g hp hget himpg
    exact List.mem_flatten.mpr ⟨g2, hg2, himp2⟩

/-- Total literal count of a list of implicants. -/
def litsum (variable_count : Nat) (l : List Implicant) : Nat :=
  (l.map (Implicant.literal_count variable_count)).sum

/-- The Petrick bit encoding of a set of candidate implicants. -/
def encodeImps (cands : List Implicant) (S : List Implicant) : Nat :=
  S.foldl (fun a imp => a ||| 2 ^ cands.indexOf imp) 0

theorem and_self_eq (a : Nat) : a &&& a = a := by
  apply Nat.eq_of_testBit_eq
  intro c
  rw [Nat.testBit_land]
  cases a.testBit c <;> rfl

theorem absorb_foldl_mono :
    ∀ (l acc : List Nat), ∀ x ∈ acc, x ∈ l.foldl
      (fun kept term =>
        if kept.any (fun kt =>
            decide (bitCount kt < bitCount term) && decide (kt &&& term = kt)) then
          kept
        else
          kept ++ [term]) acc := by
  intro l
  induction l with
  | nil =>
      intro acc x hx
      exact hx
  | cons t l ih =>
      intro acc x hx
      rw [List.foldl_cons]
      by_cases hc : acc.any (fun kt =>
          decide (bitCount kt < bitCount t) && decide (kt &&& t = kt))
      · rw [if_pos hc]
        exact ih acc x hx
      · rw [if_neg hc]
        exact ih _ x (List.mem_append.mpr (Or.inl hx))

theorem absorb_cover (terms : List Nat) :
    ∀ t ∈ terms, ∃ u ∈ QuineMcCluskey.absorb terms, u &&& t = u := by
  have aux : ∀ (l acc : List Nat), ∀ t ∈ l, ∃ u ∈ l.foldl
      (fun kept term =>
        if kept.any (fun kt =>
            decide (bitCount kt < bitCount term) && decide (kt &&& term = kt)) then
          kept
        else
          kept ++ [term]) acc, u &&& t = u := by
    intro l
    induction l with
    | nil =>
        intro acc t ht
        exact absurd ht (List.not_mem_nil t)
    | cons t0 l ih =>
        intro acc t ht
        rw [List.foldl_cons]
        rcases List.mem_cons.mp ht with h4 | h4
        · subst h4
          by_cases hc : acc.any (fun kt =>
              decide (bitCount kt < bitCount t) && decide (kt &&& t = kt))
          · rw [if_pos hc]
            obtain ⟨kt, hkt, hcond⟩ := List.any_eq_true.mp hc
            rw [Bool.and_eq_true] at hcond
            exact ⟨kt, absorb_foldl_mono l acc kt hkt, of_decide_eq_true hcond.2⟩
          · rw [if_neg hc]
            exact ⟨t, absorb_foldl_mono l _ t
              (List.mem_append.mpr (Or.inr (List.mem_singleton.mpr rfl))),
              and_self_eq t⟩
        · by_cases hc : acc.any (fun kt =>
              decide (bitCount kt < bitCount t0) && decide (kt &&& t0 = kt))
          · rw [if_pos hc]
            exact ih acc t h4
          · rw [if_neg hc]
            exact ih _ t h4
  intro t ht
  unfold QuineMcCluskey.absorb
  exact aux _ [] t ((List.perm_insertionSort _ terms).symm.mem_iff.mp ht)

/-- Completeness of the Petrick product fold: every bit vector hitting
every clause dominates some surviving encoded solution. -/
theorem petrick_fold_complete :
    ∀ (clauses : List (List Nat)) (sols0 sols : List Nat),
      clauses.foldl (fun acc clause =>
        match acc with
        | none => some clause
        | some sols => some (QuineMcCluskey.absorb
            ((sols.flatMap (fun a => clause.map (fun b => a ||| b))).dedup)))
        (some sols0) = some sols →
      ∀ x, (∃ a ∈ sols0, a &&& x = a) →
        (∀ c ∈ clauses, ∃ t ∈ c, t &&& x = t) →
        ∃ z ∈ sols, z &&& x = z := by
  intro clauses
  induction clauses with
  | nil =>
      intro sols0 sols h x hx hc
      rw [List.foldl_nil] at h
      injection h with h2
      subst h2
      exact hx
  | cons c rest ih =>
      intro sols0 sols h x hx hc
      rw [List.foldl_cons] at h
      obtain ⟨a, ha, hax⟩ := hx
      obtain ⟨t, ht, htx⟩ := hc c (List.mem_cons_self c rest)
      have hmem : a ||| t ∈ (sols0.flatMap (fun a => c.map (fun b => a ||| b))).dedup := by
        rw [List.mem_dedup]
        exact List.mem_flatMap.mpr ⟨a, ha, List.mem_map.mpr ⟨t, ht, rfl⟩⟩
      obtain ⟨u, hu, hut⟩ := absorb_cover _ _ hmem
      have hox : (a ||| t) &&& x = a ||| t := or_sub_of_subs hax htx
      refine ih _ sols h x ⟨u, hu, and_sub_trans hut hox⟩ ?_
      intro c2 hc2
      exact hc c2 (List.mem_cons_of_mem c hc2)

theorem encode_acc (cands : List Implicant) :
    ∀ (S : List Implicant) (a : Nat),
      S.foldl (fun a imp => a ||| 2 ^ cands.indexOf imp) a =
        a ||| S.foldl (fun a imp => a ||| 2 ^ cands.indexOf imp) 0 := by
  intro S
  induction S with
  | nil =>
      intro a
      simp [Nat.or_zero]
  | cons i S ih =>
      intro a
      rw [List.foldl_cons, List.foldl_cons, ih (a ||| 2 ^ cands.indexOf i),
        ih (0 ||| 2 ^ cands.indexOf i), Nat.zero_or, Nat.or_assoc]

theorem encode_testBit (cands : List Implicant) :
    ∀ (S : List Implicant) (b : Nat),
      (encodeImps cands S).testBit b = true ↔ ∃ imp ∈ S, cands.indexOf imp = b := by
  intro S
  induction S with
  | nil =>
      intro b
      unfold encodeImps
      rw [List.foldl_nil]
      simp
  | cons i S ih =>
      intro b
      unfold encodeImps at *
      rw [List.foldl_cons, encode_acc, Nat.zero_or, Nat.testBit_lor, Nat.testBit_two_pow]
      constructor
      · intro h4
        rcases Bool.or_eq_true_iff.mp h4 with h5 | h5
        · exact ⟨i, List.mem_cons_self i S, of_decide_eq_true h5⟩
        · obtain ⟨imp, himp, hidx⟩ := (ih b).mp h5
          exact ⟨imp, List.mem_cons_of_mem i himp, hidx⟩
      · rintro ⟨imp, himp, hidx⟩
        rcases List.mem_cons.mp himp with h5 | h5
        · subst h5
          rw [hidx]
          simp
        · rw [(ih b).mpr ⟨imp, h5, hidx⟩]
          simp

theorem or_eq_self_of_testBit {a b : Nat} (h : a.testBit b = true) :
    a ||| 2 ^ b = a := by
  apply Nat.eq_of_testBit_eq
  intro c
  rw [Nat.testBit_lor, Nat.testBit_two_pow]
  by_cases hbc : b = c
  · subst hbc
    rw [h]
    rfl
  · simp [hbc]

theorem bitCount_or_two_pow_gen {a b : Nat} (h : a.testBit b = false) :
    bitCount (a ||| 2 ^ b) = bitCount a + 1 := by
  set K := bitLength a + b + 1 with hK
  have ha : a < 2 ^ K := by
    have h1 := lt_two_pow_bitLength a
    have h2 : (2 : Nat) ^ bitLength a ≤ 2 ^ K := Nat.pow_le_pow_right two_pos (by omega)
    omega
  exact bitCount_or_two_pow ha (by omega) h

theorem bitCount_or_two_pow_le (a b : Nat) :
    bitCount (a ||| 2 ^ b) ≤ bitCount a + 1 := by
  cases hab : a.testBit b
  · rw [bitCount_or_two_pow_gen hab]
  · rw [or_eq_self_of_testBit hab]
    omega

theorem encode_bitCount_le (cands : List Implicant) :
    ∀ (S : List Implicant), bitCount (encodeImps cands S) ≤ S.length := by
  intro S
  induction S with
  | nil =>
      unfold encodeImps
      rw [List.foldl_nil, bitCount_zero]
      exact Nat.le_refl 0
  | cons i S ih =>
      unfold encodeImps at *
      rw [List.foldl_cons, encode_acc, Nat.zero_or, Nat.or_comm]
      calc bitCount (S.foldl (fun a imp => a ||| 2 ^ cands.indexOf imp) 0 |||
            2 ^ cands.indexOf i) ≤
          bitCount (S.foldl (fun a imp => a ||| 2 ^ cands.indexOf imp) 0) + 1 :=
            bitCount_or_two_pow_le _ _
        _ ≤ S.length + 1 := by omega
        _ = (i :: S).length := by rw [List.length_cons]

theorem indexOf_inj_mem {cands : List Implicant} {a b : Implicant}
    (ha : a ∈ cands) (hb : b ∈ cands) (h : cands.indexOf a = cands.indexOf b) :
    a = b := by
  have hla : cands.indexOf a < cands.length := List.indexOf_lt_length.mpr ha
  have hlb : cands.indexOf b < cands.length := List.indexOf_lt_length.mpr hb
  have h1 : cands[cands.indexOf a] = a := List.getElem_indexOf hla
  have h2 : cands[cands.indexOf b] = b := List.getElem_indexOf hlb
  rw [← h1, ← h2]
  congr 1

theorem encode_bitCount_eq (cands : List Implicant) :
    ∀ (S : List Implicant), S.Nodup → (∀ i ∈ S, i ∈ cands) →
      bitCount (encodeImps cands S) = S.length := by
  intro S
  induction S with
  | nil =>
      intro hnd hsub
      unfold encodeImps
      rw [List.foldl_nil, bitCount_zero, List.length_nil]
  | cons i S ih =>
      intro hnd hsub
      have hnd2 := List.nodup_cons.mp hnd
      have hbit : (encodeImps cands S).testBit (cands.indexOf i) = false := by
        cases hb : (encodeImps cands S).testBit (cands.indexOf i)
        · rfl
        · obtain ⟨imp, himp, hidx⟩ := (encode_testBit cands S _).mp hb
          have := indexOf_inj_mem (hsub imp (List.mem_cons_of_mem i himp))
            (hsub i (List.mem_cons_self i S)) hidx
          rw [this] at himp
          exact absurd himp hnd2.1
      unfold encodeImps at *
      rw [List.foldl_cons, encode_acc, Nat.zero_or, Nat.or_comm,
        bitCount_or_two_pow_gen hbit,
        ih hnd2.2 (fun x hx => hsub x (List.mem_cons_of_mem i hx)), List.length_cons]

theorem decode_fold_eq (cands : List Implicant) (x : Nat) :
    ∀ (bits : List Nat) (acc out : List Implicant),
      bits.foldl (fun acc bit =>
        match acc with
        | none => none
        | some sol =>
            if (x >>> bit) &&& 1 = 1 then
              (cands.get? bit).map (fun imp => sol ++ [imp])
            else
              some sol) (some acc) = some out →
      out = acc ++ bits.filterMap (fun b =>
        if (x >>> b) &&& 1 = 1 then cands.get? b else none) ∧
      ∀ b ∈ bits, (x >>> b) &&& 1 = 1 → b < cands.length := by
  intro bits
  induction bits with
  | nil =>
      intro acc out h
      rw [List.foldl_nil] at h
      injection h with h2
      subst h2
      rw [List.filterMap_nil, List.append_nil]
      exact ⟨rfl, fun b hb => absurd hb (List.not_mem_nil b)⟩
  | cons bit bits ih =>
      intro acc out h
      rw [List.foldl_cons] at h
      by_cases hbit : (x >>> bit) &&& 1 = 1
      · simp only [hbit, if_true] at h
        cases hget : cands.get? bit with
        | none =>
            rw [hget] at h
            simp only [Option.map_none'] at h
            rw [decode_fold_none] at h
            exact Option.noConfusion h
        | some imp0 =>
            rw [hget] at h
            simp only [Option.map_some'] at h
            obtain ⟨heq, hbnd⟩ := ih (acc ++ [imp0]) out h
            have hblt : bit < cands.length := by
              by_contra hc
              push_neg at hc
              rw [List.get?_eq_none.mpr hc] at hget
              exact Option.noConfusion hget
            refine ⟨?_, ?_⟩
            · rw [List.filterMap_cons_some (by rw [if_pos hbit, hget]), heq,
                List.append_assoc, List.singleton_append]
            · intro b hb hxb
              rcases List.mem_cons.mp hb with h4 | h4
              · subst h4
                exact hblt
              · exact hbnd b h4 hxb
      · simp only [hbit, if_false] at h
        obtain ⟨heq, hbnd⟩ := ih acc out h
        refine ⟨?_, ?_⟩
        · rw [List.filterMap_cons_none (by rw [if_neg hbit]), heq]
        · intro b hb hxb
          rcases List.mem_cons.mp hb with h4 | h4
          · subst h4
            exact absurd hxb hbit
          · exact hbnd b h4 hxb

theorem countP_range_eq_card (p : Nat → Bool) :
    ∀ n, (List.range n).countP p = ((Finset.range n).filter (fun b => p b = true)).card := by
  intro n
  induction n with
  | zero =>
      rfl
  | succ n ih =>
      rw [List.range_succ, List.countP_append, ih, Finset.range_succ,
        Finset.filter_insert, List.countP_cons, List.countP_nil]
      have hn : n ∉ (Finset.range n).filter (fun b => p b = true) := by
        intro hc
        have := Finset.mem_range.mp (Finset.mem_filter.mp hc).1
        omega
      cases hp : p n
      · rw [if_neg (show ¬ (false = true) by simp)]
        simp
      · rw [show (if (true = true) then
            insert n ((Finset.range n).filter (fun b => p b = true))
          else (Finset.range n).filter (fun b => p b = true)) =
            insert n ((Finset.range n).filter (fun b => p b = true)) from rfl,
          Finset.card_insert_of_not_mem hn]
        simp

theorem countP_range_bitCount {x n : Nat} (hx : x < 2 ^ n) :
    (List.range n).countP (fun b => decide ((x >>> b) &&& 1 = 1)) = bitCount x := by
  rw [countP_range_eq_card, bitCount_eq_card n x hx]
  congr 1
  apply Finset.filter_congr
  intro b hb
  rw [shiftRight_and_one]
  cases hxb : x.testBit b <;> simp

theorem filterMap_decode_length (cands : List Implicant) (x : Nat) :
    ∀ (bits : List Nat), (∀ b ∈ bits, (x >>> b) &&& 1 = 1 → b < cands.length) →
      (bits.filterMap (fun b =>
        if (x >>> b) &&& 1 = 1 then cands.get? b else none)).length =
      bits.countP (fun b => decide ((x >>> b) &&& 1 = 1)) := by
  intro bits
  induction bits with
  | nil =>
      intro hbnd
      rfl
  | cons bit bits ih =>
      intro hbnd
      have hrest := fun b hb => hbnd b (List.mem_cons_of_mem bit hb)
      by_cases hbit : (x >>> bit) &&& 1 = 1
      · have hblt := hbnd bit (List.mem_cons_self bit bits) hbit
        cases hget : cands.get? bit with
        | none =>
            rw [List.get?_eq_none] at hget
            omega
        | some imp0 =>
            rw [List.filterMap_cons_some (by rw [if_pos hbit, hget]),
              List.length_cons, ih hrest, List.countP_cons]
            simp [hbit]
      · rw [List.filterMap_cons_none (by rw [if_neg hbit]), ih hrest,
          List.countP_cons]
        have htb : x.testBit bit = false := by
          rw [shiftRight_and_one] at hbit
          cases htb2 : x.testBit bit
          · rfl
          · rw [htb2] at hbit
            simp at hbit
        simp [hbit]
        exact htb

theorem filterMap_decode_nodup {cands : List Implicant} (hnd : cands.Nodup) (x : Nat) :
    ∀ (bits : List Nat), bits.Nodup →
      (bits.filterMap (fun b =>
        if (x >>> b) &&& 1 = 1 then cands.get? b else none)).Nodup := by
  intro bits
  induction bits with
  | nil =>
      intro hbnd
      exact List.Pairwise.nil
  | cons bit bits ih =>
      intro hbnd
      have hbnd2 := List.nodup_cons.mp hbnd
      by_cases hbit : (x >>> bit) &&& 1 = 1
      · cases hget : cands.get? bit with
        | none =>
            rw [List.filterMap_cons_none (by rw [if_pos hbit, hget])]
            exact ih hbnd2.2
        | some imp0 =>
            rw [List.filterMap_cons_some (by rw [if_pos hbit, hget])]
            rw [List.nodup_cons]
            refine ⟨?_, ih hbnd2.2⟩
            intro hc
            obtain ⟨b, hb, hgb⟩ := List.mem_filterMap.mp hc
            by_cases hxb : (x >>> b) &&& 1 = 1
            · rw [if_pos hxb] at hgb
              have hblt : bit < cands.length := by
                by_contra hcc
                push_neg at hcc
                rw [List.get?_eq_none.mpr hcc] at hget
                exact Option.noConfusion hget
              have hbeq : bit = b := List.get?_inj hblt hnd (by rw [hget, hgb])
              rw [hbeq] at hbnd2
              exact hbnd2.1 hb
            · rw [if_neg hxb] at hgb
              exact Option.noConfusion hgb
      · rw [List.filterMap_cons_none (by rw [if_neg hbit])]
        exact ih hbnd2.2

/-- Full characterisation of one decoded Petrick solution: distinct
implicants, one per set bit of the encoding, and exactly the candidates
at the set-bit positions. -/
theorem decode_full {cands : List Implicant} {x : Nat} {out : List Implicant}
    (hnd : cands.Nodup) (h : QuineMcCluskey.decode_solution cands x = some out) :
    out.Nodup ∧ out.length = bitCount x ∧
    ∀ imp, imp ∈ out ↔ ∃ b, ∃ hb : b < cands.length,
      x.testBit b = true ∧ cands.get ⟨b, hb⟩ = imp := by
  unfold QuineMcCluskey.decode_solution at h
  obtain ⟨heq, hbnd⟩ := decode_fold_eq cands x _ [] out h
  rw [List.nil_append] at heq
  subst heq
  refine ⟨filterMap_decode_nodup hnd x _ (List.nodup_range _), ?_, ?_⟩
  · rw [filterMap_decode_length cands x _ (fun b hb => hbnd b hb)]
    exact countP_range_bitCount (lt_two_pow_bitLength x)
  · intro imp
    rw [List.mem_filterMap]
    constructor
    · rintro ⟨b, hb, hgb⟩
      by_cases hxb : (x >>> b) &&& 1 = 1
      · rw [if_pos hxb] at hgb
        have hblt : b < cands.length := by
          by_contra hcc
          push_neg at hcc
          rw [List.get?_eq_none.mpr hcc] at hgb
          exact Option.noConfusion hgb
        have htb : x.testBit b = true := by
          rw [shiftRight_and_one] at hxb
          cases htb2 : x.testBit b
          · rw [htb2] at hxb
            simp at hxb
          · rfl
        refine ⟨b, hblt, htb, ?_⟩
        have := List.get?_eq_get hblt
        rw [hgb] at this
        exact (Option.some_inj.mp this).symm
      · rw [if_neg hxb] at hgb
        exact Option.noConfusion hgb
    · rintro ⟨b, hb, htb, hgb⟩
      refine ⟨b, List.mem_range.mpr (testBit_lt_bitLength x b htb), ?_⟩
      have hxb : (x >>> b) &&& 1 = 1 := by
        rw [shiftRight_and_one, htb]
        rfl
      rw [if_pos hxb, List.get?_eq_get hb, hgb]

theorem foldl_addNew_nodup {α : Type} [DecidableEq α] :
    ∀ (l acc : List α), acc.Nodup →
      (l.foldl (fun a i => if i ∈ a then a else a ++ [i]) acc).Nodup := by
  intro l
  induction l with
  | nil =>
      intro acc h
      exact h
  | cons i l ih =>
      intro acc h
      rw [List.foldl_cons]
      by_cases hi : i ∈ acc
      · rw [if_pos hi]
        exact ih acc h
      · rw [if_neg hi]
        apply ih
        apply (List.perm_append_singleton i acc).nodup_iff.mpr
        rw [List.nodup_cons]
        exact ⟨hi, h⟩

theorem petrick_candidates_nodup (pool : List Implicant) (ms : List Nat) :
    (QuineMcCluskey.petrick_candidates pool ms).Nodup := by
  unfold QuineMcCluskey.petrick_candidates
  have aux : ∀ (ms2 : List Nat) (acc : List Implicant), acc.Nodup →
      (ms2.foldl (fun acc m =>
        (QuineMcCluskey.implicants_fulfilling pool m).foldl
          (fun acc2 imp => if imp ∈ acc2 then acc2 else acc2 ++ [imp]) acc) acc).Nodup := by
    intro ms2
    induction ms2 with
    | nil =>
        intro acc h
        exact h
    | cons m ms2 ih =>
        intro acc h
        rw [List.foldl_cons]
        exact ih _ (foldl_addNew_nodup _ acc h)
  exact aux ms [] List.nodup_nil

theorem min?_spec : ∀ {l : List Nat} {mn : Nat}, l.min? = some mn →
    mn ∈ l ∧ ∀ b ∈ l, mn ≤ b := by
  intro l
  induction l with
  | nil =>
      intro mn h
      rw [List.min?_nil] at h
      exact Option.noConfusion h
  | cons a l ih =>
      intro mn h
      rw [List.min?_cons] at h
      injection h with h2
      cases hl : l.min? with
      | none =>
          rw [hl] at h2
          simp only [Option.elim] at h2
          have hlnil : l = [] := List.min?_eq_none_iff.mp hl
          subst hlnil
          rw [← h2]
          refine ⟨List.mem_cons_self a [], ?_⟩
          intro b hb
          rcases List.mem_cons.mp hb with h4 | h4
          · subst h4
            exact Nat.le_refl _
          · exact absurd h4 (List.not_mem_nil b)
      | some m2 =>
          rw [hl] at h2
          simp only [Option.elim] at h2
          obtain ⟨hm2mem, hm2all⟩ := ih hl
          subst h2
          constructor
          · by_cases h5 : a ≤ m2
            · have h6 : min a m2 = a := by omega
              rw [h6]
              exact List.mem_cons_self a l
            · have h6 : min a m2 = m2 := by omega
              rw [h6]
              exact List.mem_cons_of_mem a hm2mem
          · intro b hb
            rcases List.mem_cons.mp hb with h4 | h4
            · subst h4
              omega
            · have := hm2all b h4
              omega

/-- Full optimality specification of Petrick selection: every returned
additional set is distinct-element with the common minimal implicant
count and minimal literal sum, and every distinct-element sub-pool cover
of the remaining minterms is at least as large, at least as literal-heavy
when tied in size, and is itself among the returned sets when tied in
both measures. -/
theorem petrick_spec {variable_count : Nat} {pool : List Implicant}
    {remaining_sorted : List Nat} {optimal : List (List Implicant)}
    (h : QuineMcCluskey.find_minimal_expression_petricks_method variable_count pool
      remaining_sorted = some optimal)
    (hne : remaining_sorted ≠ []) :
    ∃ cnt lits0,
      (∀ additional ∈ optimal,
        additional.Nodup ∧ additional.length = cnt ∧
        litsum variable_count additional = lits0) ∧
      ∀ S : List Implicant, S.Nodup → (∀ i ∈ S, i ∈ pool) →
        (∀ m ∈ remaining_sorted, ∃ i ∈ S, m ∈ i.minterms) →
        cnt ≤ S.length ∧
        (S.length = cnt → lits0 ≤ litsum variable_count S ∧
          (litsum variable_count S = lits0 →
            ∃ additional ∈ optimal, S.toFinset = additional.toFinset)) := by
  classical
  unfold QuineMcCluskey.find_minimal_expression_petricks_method at h
  simp only [] at h
  split at h
  · exact Option.noConfusion h
  next sols hposs =>
  split at h
  · exact Option.noConfusion h
  next filtered hfil =>
  split at h
  · exact Option.noConfusion h
  next decoded hdec =>
  split at h
  · exact Option.noConfusion h
  next mn hmn =>
  injection h with hopt
  set cands := QuineMcCluskey.petrick_candidates pool remaining_sorted with hcands
  have hcnd : cands.Nodup := petrick_candidates_nodup pool remaining_sorted
  unfold QuineMcCluskey.filter_min_bit_count at hfil
  split at hfil
  · exact Option.noConfusion hfil
  next mval hmval =>
  injection hfil with hfilt
  obtain ⟨hmvalmem, hmvalle⟩ := min?_spec hmval
  have hhits : ∀ (S : List Implicant), (∀ i ∈ S, i ∈ pool) →
      (∀ m ∈ remaining_sorted, ∃ i ∈ S, m ∈ i.minterms) →
      ∃ z ∈ sols, z &&& encodeImps cands S = z := by
    intro S hpool hcov
    have hclausehit : ∀ m ∈ remaining_sorted, ∃ t ∈
        ((QuineMcCluskey.implicants_fulfilling pool m).map
          (fun imp => 1 <<< cands.indexOf imp)).dedup,
        t &&& encodeImps cands S = t := by
      intro m hm
      obtain ⟨i, hiS, him⟩ := hcov m hm
      have hiff : i ∈ QuineMcCluskey.implicants_fulfilling pool m := by
        unfold QuineMcCluskey.implicants_fulfilling
        exact List.mem_filter.mpr ⟨hpool i hiS, decide_eq_true him⟩
      refine ⟨1 <<< cands.indexOf i,
        List.mem_dedup.mpr (List.mem_map.mpr ⟨i, hiff, rfl⟩), ?_⟩
      rw [Nat.one_shiftLeft]
      exact (two_pow_and_eq_iff _ _).mpr ((encode_testBit cands S _).mpr ⟨i, hiS, rfl⟩)
    cases hrs : remaining_sorted.map (fun m =>
        ((QuineMcCluskey.implicants_fulfilling pool m).map
          (fun imp => 1 <<< cands.indexOf imp)).dedup) with
    | nil =>
        rw [List.map_eq_nil_iff] at hrs
        exact absurd hrs hne
    | cons c0 rest =>
        rw [hrs, List.foldl_cons] at hposs
        have hcl : ∀ c ∈ c0 :: rest, ∃ t ∈ c, t &&& encodeImps cands S = t := by
          intro c hc
          have hcmem : c ∈ remaining_sorted.map (fun m =>
              ((QuineMcCluskey.implicants_fulfilling pool m).map
                (fun imp => 1 <<< cands.indexOf imp)).dedup) := by
            rw [hrs]
            exact hc
          obtain ⟨m, hm, hceq⟩ := List.mem_map.mp hcmem
          rw [← hceq]
          exact hclausehit m hm
        apply petrick_fold_complete rest c0 sols hposs
        · exact hcl c0 (List.mem_cons_self c0 rest)
        · intro c hc
          exact hcl c (List.mem_cons_of_mem c0 hc)
  refine ⟨mval, mn, ?_, ?_⟩
  · intro additional hadd
    rw [← hopt] at hadd
    obtain ⟨p, hp, hpeq⟩ := List.mem_map.mp hadd
    have hpfil := List.mem_filter.mp hp
    have hpmn : p.1 = mn := of_decide_eq_true hpfil.2
    obtain ⟨imps0, himps0, hpeq2⟩ := List.mem_map.mp hpfil.1
    have haddd : additional ∈ decoded := by
      rw [← hpeq, ← hpeq2]
      exact himps0
    obtain ⟨xval, hxfil, hxdec⟩ := optionMapM_mem _ _ _ hdec additional haddd
    have hxval : bitCount xval = mval := by
      rw [← hfilt] at hxfil
      exact of_decide_eq_true (List.mem_filter.mp hxfil).2
    obtain ⟨hnodup, hlen, hchar⟩ := decode_full hcnd hxdec
    refine ⟨hnodup, by rw [hlen, hxval], ?_⟩
    have haddimps : imps0 = additional := by
      rw [← hpeq, ← hpeq2]
    have hp1 : p.1 = (imps0.map (Implicant.literal_count variable_count)).sum := by
      rw [← hpeq2]
    rw [← haddimps]
    unfold litsum
    rw [← hp1, hpmn]
  · intro S hSnd hSpool hScov
    obtain ⟨z, hzsols, hzx⟩ := hhits S hSpool hScov
    have hzbc : mval ≤ bitCount z := hmvalle _ (List.mem_map.mpr ⟨z, hzsols, rfl⟩)
    have hxle : bitCount (encodeImps cands S) ≤ S.length := encode_bitCount_le cands S
    have hzle : bitCount z ≤ bitCount (encodeImps cands S) := bitCount_mono_of_sub hzx
    refine ⟨by omega, ?_⟩
    intro hlen
    have hSuseful : ∀ i ∈ S, ∃ m ∈ remaining_sorted, m ∈ i.minterms := by
      intro i0 hi0
      by_contra hc
      push_neg at hc
      have hcov2 : ∀ m ∈ remaining_sorted, ∃ i ∈ S.erase i0, m ∈ i.minterms := by
        intro m hm
        obtain ⟨i, hiS, him⟩ := hScov m hm
        have hne2 : i ≠ i0 := by
          intro heq
          rw [heq] at him
          exact hc m hm him
        exact ⟨i, (List.mem_erase_of_ne hne2).mpr hiS, him⟩
      obtain ⟨z2, hz2sols, hz2x⟩ := hhits (S.erase i0)
        (fun i hi => hSpool i (List.mem_of_mem_erase hi)) hcov2
      have h1 : mval ≤ bitCount z2 := hmvalle _ (List.mem_map.mpr ⟨z2, hz2sols, rfl⟩)
      have h2 : bitCount z2 ≤ bitCount (encodeImps cands (S.erase i0)) :=
        bitCount_mono_of_sub hz2x
      have h3 : bitCount (encodeImps cands (S.erase i0)) ≤ (S.erase i0).length :=
        encode_bitCount_le cands (S.erase i0)
      have h4 : (S.erase i0).length = S.length - 1 := List.length_erase_of_mem hi0
      have h5 : 0 < S.length := List.length_pos_of_mem hi0
      omega
    have hScands : ∀ i ∈ S, i ∈ cands := by
      intro i hi
      obtain ⟨m, hm, him⟩ := hSuseful i hi
      apply (petrick_candidates_facts pool remaining_sorted).1 m hm
      unfold QuineMcCluskey.implicants_fulfilling
      exact List.mem_filter.mpr ⟨hSpool i hi, decide_eq_true him⟩
    have hxbc : bitCount (encodeImps cands S) = S.length :=
      encode_bitCount_eq cands S hSnd hScands
    have hzeq : z = encodeImps cands S := eq_of_sub_of_bitCount_eq hzx (by omega)
    have hxsols : encodeImps cands S ∈ sols := by
      rw [← hzeq]
      exact hzsols
    have hxfil2 : encodeImps cands S ∈ filtered := by
      rw [← hfilt]
      exact List.mem_filter.mpr ⟨hxsols, decide_eq_true (by omega)⟩
    obtain ⟨D, hD, hDdec⟩ := optionMapM_mem_fwd _ hdec _ hxfil2
    obtain ⟨hDnd, hDlen, hDchar⟩ := decode_full hcnd hDdec
    have hset : ∀ imp, imp ∈ S ↔ imp ∈ D := by
      intro imp
      rw [hDchar imp]
      constructor
      · intro himp
        have hilt : cands.indexOf imp < cands.length :=
          List.indexOf_lt_length.mpr (hScands imp himp)
        refine ⟨cands.indexOf imp, hilt,
          (encode_testBit cands S _).mpr ⟨imp, himp, rfl⟩, ?_⟩
        simp only [List.get_eq_getElem]
        exact List.getElem_indexOf hilt
      · rintro ⟨b, hb, htb, hgb⟩
        obtain ⟨i, hiS, hidx⟩ := (encode_testBit cands S b).mp htb
        subst hidx
        have h7 : cands.get ⟨cands.indexOf i, hb⟩ = i := by
          simp only [List.get_eq_getElem]
          exact List.getElem_indexOf hb
        rw [← hgb, h7]
        exact hiS
    have hperm : S.Perm D := (List.perm_ext_iff_of_nodup hSnd hDnd).mpr hset
    have hlitsum : litsum variable_count S = litsum variable_count D := by
      unfold litsum
      exact List.Perm.sum_eq (hperm.map _)
    have hDcat : ((D.map (Implicant.literal_count variable_count)).sum, D) ∈
        decoded.map (fun imps =>
          ((imps.map (Implicant.literal_count variable_count)).sum, imps)) :=
      List.mem_map.mpr ⟨D, hD, rfl⟩
    have hmnle : mn ≤ (D.map (Implicant.literal_count variable_count)).sum :=
      (min?_spec hmn).2 _ (List.mem_map.mpr ⟨_, hDcat, rfl⟩)
    have hDlit : litsum variable_count D = (D.map
        (Implicant.literal_count variable_count)).sum := rfl
    refine ⟨by omega, ?_⟩
    intro htie
    refine ⟨D, ?_, ?_⟩
    · rw [← hopt]
      apply List.mem_map.mpr
      refine ⟨((D.map (Implicant.literal_count variable_count)).sum, D), ?_, rfl⟩
      apply List.mem_filter.mpr
      refine ⟨hDcat, decide_eq_true ?_⟩
      show (D.map (Implicant.literal_count variable_count)).sum = mn
      omega
    · ext imp
      rw [List.mem_toFinset, List.mem_toFinset]
      exact hset imp

theorem good_order {k : Nat} {U : Finset Nat} {imp : Implicant} (h : Good k U imp) :
    imp.order = bitCount imp.mask := by
  unfold Implicant.order
  rw [good_card h, bitLength_two_pow]
  omega

theorem good_literal_count {k : Nat} {U : Finset Nat} {imp : Implicant}
    (h : Good k U imp) :
    Implicant.literal_count k imp = k - bitCount imp.mask := by
  unfold Implicant.literal_count
  rw [good_order h]

theorem litsum_cons (vc : Nat) (a : Implicant) (l : List Implicant) :
    litsum vc (a :: l) = Implicant.literal_count vc a + litsum vc l := by
  unfold litsum
  rw [List.map_cons, List.sum_cons]

theorem litsum_append (vc : Nat) (l1 l2 : List Implicant) :
    litsum vc (l1 ++ l2) = litsum vc l1 + litsum vc l2 := by
  unfold litsum
  rw [List.map_append, List.sum_append]

theorem filter_split_length {α : Type} (p : α → Bool) :
    ∀ (l : List α), (l.filter p).length + (l.filter (fun a => !p a)).length = l.length := by
  intro l
  induction l with
  | nil => rfl
  | cons a l ih =>
      cases hp : p a
      · rw [List.filter_cons_of_neg (by rw [hp]; exact Bool.false_ne_true),
          List.filter_cons_of_pos (by rw [hp]; rfl), List.length_cons, List.length_cons]
        omega
      · rw [List.filter_cons_of_pos (by rw [hp]), List.filter_cons_of_neg
          (by rw [hp]; simp), List.length_cons, List.length_cons]
        omega

theorem filter_split_litsum (vc : Nat) (p : Implicant → Bool) :
    ∀ (l : List Implicant),
      litsum vc (l.filter p) + litsum vc (l.filter (fun a => !p a)) = litsum vc l := by
  intro l
  induction l with
  | nil => rfl
  | cons a l ih =>
      cases hp : p a
      · rw [List.filter_cons_of_neg (by rw [hp]; exact Bool.false_ne_true),
          List.filter_cons_of_pos (by rw [hp]; rfl), litsum_cons, litsum_cons]
        omega
      · rw [List.filter_cons_of_pos (by rw [hp]), List.filter_cons_of_neg
          (by rw [hp]; simp), litsum_cons, litsum_cons]
        omega

/-- Any invariant-satisfying implicant list improves to a distinct prime
implicant list that covers at least as much with no more implicants and no
more literals, strictly fewer literals when some element was not prime. -/
theorem prime_cover_improve {k : Nat} {U : Finset Nat} :
    ∀ (comp : List Implicant), (∀ i ∈ comp, Good k U i) →
      ∃ comp2 : List Implicant,
        comp2.Nodup ∧
        (∀ i ∈ comp2, IsPrime k U i) ∧
        (∀ m, (∃ i ∈ comp, m ∈ i.minterms) → ∃ i ∈ comp2, m ∈ i.minterms) ∧
        comp2.length ≤ comp.length ∧
        litsum k comp2 ≤ litsum k comp ∧
        ((∃ i ∈ comp, ¬ IsPrime k U i) → litsum k comp2 < litsum k comp) := by
  intro comp
  induction comp with
  | nil =>
      intro hgood
      refine ⟨[], List.nodup_nil, ?_, ?_, Nat.le_refl _, Nat.le_refl _, ?_⟩
      · intro i hi
        exact absurd hi (List.not_mem_nil i)
      · rintro m ⟨i, hi, hmi⟩
        exact absurd hi (List.not_mem_nil i)
      · rintro ⟨i, hi, hnp⟩
        exact absurd hi (List.not_mem_nil i)
  | cons i rest ih =>
      intro hgood
      have hgi : Good k U i := hgood i (List.mem_cons_self i rest)
      obtain ⟨p, hp, hpsub, hpbc, hpstrict⟩ := prime_extend hgi
      obtain ⟨rest2, hr2nd, hr2p, hr2cov, hr2len, hr2lit, hr2strict⟩ :=
        ih (fun x hx => hgood x (List.mem_cons_of_mem i hx))
      have hlitpi : Implicant.literal_count k p ≤ Implicant.literal_count k i := by
        rw [good_literal_count hp.1, good_literal_count hgi]
        omega
      have hlitpi2 : ¬ IsPrime k U i →
          Implicant.literal_count k p < Implicant.literal_count k i := by
        intro hnp
        have hbclt := hpstrict hnp
        have hble := bitCount_le k p.mask hp.1.2.1
        rw [good_literal_count hp.1, good_literal_count hgi]
        omega
      by_cases hmem : p ∈ rest2
      · refine ⟨rest2, hr2nd, hr2p, ?_, by rw [List.length_cons]; omega, ?_, ?_⟩
        · rintro m ⟨x, hx, hmx⟩
          rcases List.mem_cons.mp hx with h4 | h4
          · refine ⟨p, hmem, ?_⟩
            rw [h4] at hmx
            exact hpsub hmx
          · exact hr2cov m ⟨x, h4, hmx⟩
        · rw [litsum_cons]
          omega
        · rintro ⟨x, hx, hnp⟩
          rw [litsum_cons]
          rcases List.mem_cons.mp hx with h4 | h4
          · rw [h4] at hnp
            have := hlitpi2 hnp
            omega
          · have := hr2strict ⟨x, h4, hnp⟩
            omega
      · refine ⟨p :: rest2, List.nodup_cons.mpr ⟨hmem, hr2nd⟩, ?_, ?_, ?_, ?_, ?_⟩
        · intro x hx
          rcases List.mem_cons.mp hx with h4 | h4
          · rw [h4]
            exact hp
          · exact hr2p x h4
        · rintro m ⟨x, hx, hmx⟩
          rcases List.mem_cons.mp hx with h4 | h4
          · refine ⟨p, List.mem_cons_self p rest2, ?_⟩
            rw [h4] at hmx
            exact hpsub hmx
          · obtain ⟨y, hy, hmy⟩ := hr2cov m ⟨x, h4, hmx⟩
            exact ⟨y, List.mem_cons_of_mem p hy, hmy⟩
        · rw [List.length_cons, List.length_cons]
          omega
        · rw [litsum_cons, litsum_cons]
          omega
        · rintro ⟨x, hx, hnp⟩
          rw [litsum_cons, litsum_cons]
          rcases List.mem_cons.mp hx with h4 | h4
          · rw [h4] at hnp
            have := hlitpi2 hnp
            omega
          · have := hr2strict ⟨x, h4, hnp⟩
            omega

/-- Minimality of the whole minimization pipeline after the output column
has been read: every returned solution uses distinct implicants, no
invariant-satisfying distinct-implicant cover of the mandatory minterms is
smaller or equally large with fewer total literals, and every cover tied
on both measures is one of the returned solutions. -/
theorem all_solutions_core_minimal {names : List String} {k : Nat}
    {entries : List Entry} {emit_dnf : Bool}
    (hlen : entries.length = 2 ^ k)
    {sol : QuineMcCluskeySolution}
    (hres : QuineMcCluskey.all_solutions_core names k entries emit_dnf =
      some (Sum.inr sol)) :
    ∀ additional ∈ sol.additional_implicants,
      (sol.required_implicants ++ additional).Nodup ∧
      ∀ comp : List Implicant, comp.Nodup →
        (∀ i ∈ comp, Good k (QuineMcCluskey.mandatorySet entries emit_dnf ∪
          QuineMcCluskey.dcSet entries) i) →
        (∀ j, ∀ hj : j < entries.length,
          entries[j] = (if emit_dnf then Entry.High else Entry.Low) →
          ∃ i ∈ comp, j ∈ i.minterms) →
        (sol.required_implicants ++ additional).length ≤ comp.length ∧
        (comp.length = (sol.required_implicants ++ additional).length →
          litsum k (sol.required_implicants ++ additional) ≤ litsum k comp) ∧
        (comp.length = (sol.required_implicants ++ additional).length →
          litsum k comp = litsum k (sol.required_implicants ++ additional) →
          ∃ additional2 ∈ sol.additional_implicants,
            comp.toFinset = (sol.required_implicants ++ additional2).toFinset) := by
  classical
  unfold QuineMcCluskey.all_solutions_core at hres
  dsimp only [] at hres
  split at hres
  next hempty =>
    exact Sum.noConfusion (Option.some_inj.mp hres)
  next hempty =>
  split at hres
  · exact Option.noConfusion hres
  next optimal heq =>
  have hsol2 := Sum.inr.inj (Option.some_inj.mp hres)
  subst hsol2
  dsimp only []
  set U := QuineMcCluskey.mandatorySet entries emit_dnf ∪
    QuineMcCluskey.dcSet entries with hU
  set ms := (List.range entries.length).filter (fun i => decide (i ∈ U)) with hms
  set pool := (QuineMcCluskey.eliminate_suboptimal
    (QuineMcCluskey.merge_stages k
      (QuineMcCluskey.create_size_one_implicants ms))).flatten with hpool
  set rminterms := QuineMcCluskey.determine_required_minterms pool
    (QuineMcCluskey.mandatorySet entries emit_dnf) with hrmin
  set required := (QuineMcCluskey.eliminate_required_implicants pool rminterms).1
    with hreq
  set pool2 := (QuineMcCluskey.eliminate_required_implicants pool rminterms).2
    with hpool2
  set remaining := QuineMcCluskey.compute_remaining_minterms
    (QuineMcCluskey.mandatorySet entries emit_dnf) required with hrem
  set rsorted := (List.range entries.length).filter (fun i => decide (i ∈ remaining))
    with hrs
  have hmsiff : ∀ x, x ∈ ms ↔ x < 2 ^ k ∧ x ∈ U := by
    intro x
    rw [hms, List.mem_filter]
    constructor
    · rintro ⟨h1, h2⟩
      refine ⟨?_, of_decide_eq_true h2⟩
      have := List.mem_range.mp h1
      omega
    · rintro ⟨h1, h2⟩
      exact ⟨List.mem_range.mpr (by omega), decide_eq_true h2⟩
  have hmsnd : ms.Nodup := by
    rw [hms]
    exact (List.nodup_range _).filter _
  have hpoolprime : ∀ imp, imp ∈ pool ↔ IsPrime k U imp := by
    rw [hpool]
    exact pool_prime_iff hmsiff
  have hpoolpw : pool.Pairwise (fun a b => a.minterms ≠ b.minterms) := by
    rw [hpool]
    exact pool_pairwise hmsiff hmsnd
  have hpoolnd : pool.Nodup :=
    hpoolpw.imp (fun hne heq => hne (congrArg Implicant.minterms heq))
  have hpoolgood : ∀ imp ∈ pool, Good k U imp :=
    fun imp h => ((hpoolprime imp).mp h).1
  have hreqnd : required.Nodup := by
    rw [hreq]
    unfold QuineMcCluskey.eliminate_required_implicants
    exact hpoolnd.filter _
  have hreqsub : ∀ i ∈ required, i ∈ pool := by
    rw [hreq]
    exact (eliminate_required_sub pool rminterms).1
  have hpool2_mem : ∀ i, i ∈ pool → i ∉ required → i ∈ pool2 := by
    intro i hi hni
    rw [hpool2]
    unfold QuineMcCluskey.eliminate_required_implicants
    apply List.mem_filter.mpr
    refine ⟨hi, ?_⟩
    rw [Bool.not_eq_true']
    apply decide_eq_false
    intro hcon
    apply hni
    rw [hreq]
    unfold QuineMcCluskey.eliminate_required_implicants
    exact List.mem_filter.mpr ⟨hi, decide_eq_true hcon⟩
  have hpool2_not_req : ∀ i ∈ pool2, i ∉ required := by
    intro i hi hir
    rw [hpool2] at hi
    unfold QuineMcCluskey.eliminate_required_implicants at hi
    have h2 := (List.mem_filter.mp hi).2
    rw [Bool.not_eq_true'] at h2
    have h3 := of_decide_eq_false h2
    rw [hreq] at hir
    unfold QuineMcCluskey.eliminate_required_implicants at hir
    exact h3 (of_decide_eq_true (List.mem_filter.mp hir).2)
  have hforced : ∀ P : List Implicant, (∀ i ∈ P, i ∈ pool) →
      (∀ j, ∀ hj : j < entries.length,
        entries[j] = (if emit_dnf then Entry.High else Entry.Low) →
        ∃ i ∈ P, j ∈ i.minterms) →
      ∀ r ∈ required, r ∈ P := by
    intro P hPpool hPcov r hr
    rw [hreq] at hr
    unfold QuineMcCluskey.eliminate_required_implicants at hr
    have hrpool := List.mem_of_mem_filter hr
    have hrpred := of_decide_eq_true (List.mem_filter.mp hr).2
    obtain ⟨mr, hmr⟩ := hrpred
    rw [Finset.mem_inter] at hmr
    have hmrrm := hmr.1
    rw [hrmin] at hmrrm
    unfold QuineMcCluskey.determine_required_minterms at hmrrm
    obtain ⟨hmrM2, hcount⟩ := Finset.mem_filter.mp hmrrm
    obtain ⟨hjlt, hjent⟩ := mem_mandatorySet.mp hmrM2
    obtain ⟨p, hpP, hpmr⟩ := hPcov mr hjlt hjent
    have hppool := hPpool p hpP
    by_cases hrp : r = p
    · rw [hrp]
      exact hpP
    · exfalso
      have h1 : r ∈ pool.filter (fun imp => decide (mr ∈ imp.minterms)) :=
        List.mem_filter.mpr ⟨hrpool, decide_eq_true hmr.2⟩
      have h2 : p ∈ pool.filter (fun imp => decide (mr ∈ imp.minterms)) :=
        List.mem_filter.mpr ⟨hppool, decide_eq_true hpmr⟩
      have h3 := two_le_length_of_mem_ne h1 h2 hrp
      rw [← List.countP_eq_length_filter] at h3
      omega
  intro additional hadd
  have hpetx : ∃ cnt lits0,
      (additional.Nodup ∧ additional.length = cnt ∧ litsum k additional = lits0 ∧
        ∀ i ∈ additional, i ∈ pool2) ∧
      ∀ S : List Implicant, S.Nodup → (∀ i ∈ S, i ∈ pool2) →
        (∀ m ∈ rsorted, ∃ i ∈ S, m ∈ i.minterms) →
        cnt ≤ S.length ∧ (S.length = cnt → lits0 ≤ litsum k S ∧
          (litsum k S = lits0 →
            ∃ additional2 ∈ optimal, S.toFinset = additional2.toFinset)) := by
    by_cases hrse : rsorted.isEmpty
    · rw [if_pos hrse] at heq
      have hopt : optimal = [[]] := (Option.some_inj.mp heq).symm
      rw [hopt] at hadd
      have hanil : additional = [] := by
        rcases List.mem_cons.mp hadd with h4 | h4
        · exact h4
        · exact absurd h4 (List.not_mem_nil additional)
      subst hanil
      refine ⟨0, 0, ⟨List.nodup_nil, rfl, rfl,
        fun i hi => absurd hi (List.not_mem_nil i)⟩, ?_⟩
      intro S hSnd hSsub hScov
      refine ⟨Nat.zero_le _, ?_⟩
      intro hSlen
      have hSnil : S = [] := List.length_eq_zero.mp hSlen
      subst hSnil
      refine ⟨Nat.le_refl 0, ?_⟩
      intro hSlit
      refine ⟨[], ?_, rfl⟩
      rw [hopt]
      exact List.mem_cons_self [] []
    · rw [if_neg hrse] at heq
      have hne2 : rsorted ≠ [] := by
        intro h0
        rw [h0] at hrse
        exact hrse rfl
      obtain ⟨cnt, lits0, hret, hSspec⟩ := petrick_spec heq hne2
      obtain ⟨hsubpool2, hcovrs⟩ := find_minimal_facts heq additional hadd
      obtain ⟨hnd, hlen2, hlit2⟩ := hret additional hadd
      exact ⟨cnt, lits0, ⟨hnd, hlen2, hlit2, hsubpool2⟩, hSspec⟩
  obtain ⟨cnt, lits0, ⟨hand, halen, halit, hasub⟩, hSspec⟩ := hpetx
  have hdisj : ∀ i ∈ additional, i ∉ required :=
    fun i hi => hpool2_not_req i (hasub i hi)
  have hchnd : (required ++ additional).Nodup :=
    List.Nodup.append hreqnd hand (fun a ha hab => hdisj a hab ha)
  have hchlen : (required ++ additional).length = required.length + cnt := by
    rw [List.length_append, halen]
  have hchlit : litsum k (required ++ additional) = litsum k required + lits0 := by
    rw [litsum_append, halit]
  have hanalysis : ∀ P : List Implicant, P.Nodup → (∀ i ∈ P, i ∈ pool) →
      (∀ j, ∀ hj : j < entries.length,
        entries[j] = (if emit_dnf then Entry.High else Entry.Low) →
        ∃ i ∈ P, j ∈ i.minterms) →
      (required ++ additional).length ≤ P.length ∧
      (P.length = (required ++ additional).length →
        litsum k (required ++ additional) ≤ litsum k P ∧
        (litsum k P = litsum k (required ++ additional) →
          ∃ additional2 ∈ optimal,
            P.toFinset = (required ++ additional2).toFinset)) := by
    intro P hPnd hPpool hPcov
    set S := P.filter (fun i => !(decide (i ∈ required))) with hS
    set R := P.filter (fun i => decide (i ∈ required)) with hR
    have hsplitlen : R.length + S.length = P.length := by
      rw [hR, hS]
      exact filter_split_length _ P
    have hsplitlit : litsum k R + litsum k S = litsum k P := by
      rw [hR, hS]
      exact filter_split_litsum k _ P
    have hSnd : S.Nodup := by
      rw [hS]
      exact hPnd.filter _
    have hRnd : R.Nodup := by
      rw [hR]
      exact hPnd.filter _
    have hRmem : ∀ i, i ∈ R ↔ i ∈ required := by
      intro i
      rw [hR, List.mem_filter]
      constructor
      · rintro ⟨h1, h2⟩
        exact of_decide_eq_true h2
      · intro h1
        exact ⟨hforced P hPpool hPcov i h1, decide_eq_true h1⟩
    have hRperm : R.Perm required :=
      (List.perm_ext_iff_of_nodup hRnd hreqnd).mpr hRmem
    have hRlen : R.length = required.length := hRperm.length_eq
    have hRlit : litsum k R = litsum k required := by
      unfold litsum
      exact List.Perm.sum_eq (hRperm.map _)
    have hSpool2 : ∀ i ∈ S, i ∈ pool2 := by
      intro i hi
      rw [hS, List.mem_filter] at hi
      have h1 := hPpool i hi.1
      have h2 : i ∉ required := by
        have h3 := hi.2
        rw [Bool.not_eq_true'] at h3
        exact of_decide_eq_false h3
      exact hpool2_mem i h1 h2
    have hScov : ∀ m ∈ rsorted, ∃ i ∈ S, m ∈ i.minterms := by
      intro m hm
      rw [hrs, List.mem_filter] at hm
      have hmrem := of_decide_eq_true hm.2
      rw [hrem, mem_compute_remaining] at hmrem
      obtain ⟨hmM, hmnreq⟩ := hmrem
      obtain ⟨hjlt2, hjent2⟩ := mem_mandatorySet.mp hmM
      obtain ⟨i, hiP, hmi⟩ := hPcov m hjlt2 hjent2
      have hinreq : i ∉ required := fun hcon => hmnreq i hcon hmi
      refine ⟨i, ?_, hmi⟩
      rw [hS, List.mem_filter]
      refine ⟨hiP, ?_⟩
      rw [Bool.not_eq_true']
      exact decide_eq_false hinreq
    obtain ⟨hcnt, hrest⟩ := hSspec S hSnd hSpool2 hScov
    refine ⟨by omega, ?_⟩
    intro hPlen
    have hSlen : S.length = cnt := by omega
    obtain ⟨hlit1, htiefun⟩ := hrest hSlen
    refine ⟨by omega, ?_⟩
    intro hPlit
    have hSlit : litsum k S = lits0 := by omega
    obtain ⟨additional2, hadd2, hset2⟩ := htiefun hSlit
    refine ⟨additional2, hadd2, ?_⟩
    rw [List.toFinset_append]
    ext x
    rw [List.mem_toFinset, Finset.mem_union, List.mem_toFinset, List.mem_toFinset]
    constructor
    · intro hx
      by_cases hxr : x ∈ required
      · exact Or.inl hxr
      · right
        have hxS : x ∈ S := by
          rw [hS, List.mem_filter]
          refine ⟨hx, ?_⟩
          rw [Bool.not_eq_true']
          exact decide_eq_false hxr
        have h6 : x ∈ S.toFinset := List.mem_toFinset.mpr hxS
        rw [hset2] at h6
        exact List.mem_toFinset.mp h6
    · intro hx
      rcases hx with h4 | h4
      · have h5 := (hRmem x).mpr h4
        rw [hR] at h5
        exact List.mem_of_mem_filter h5
      · have h6 : x ∈ S.toFinset := by
          rw [hset2]
          exact List.mem_toFinset.mpr h4
        have h5 := List.mem_toFinset.mp h6
        rw [hS] at h5
        exact List.mem_of_mem_filter h5
  refine ⟨hchnd, ?_⟩
  intro comp hcompnd hcompgood hcompcov
  obtain ⟨comp2, h2nd, h2p, h2cov, h2len, h2lit, h2strict⟩ :=
    prime_cover_improve comp hcompgood
  have h2pool : ∀ i ∈ comp2, i ∈ pool :=
    fun i hi => (hpoolprime i).mpr (h2p i hi)
  have h2cov2 : ∀ j, ∀ hj : j < entries.length,
      entries[j] = (if emit_dnf then Entry.High else Entry.Low) →
      ∃ i ∈ comp2, j ∈ i.minterms := by
    intro j hj hjt
    obtain ⟨i, hiC, hji⟩ := hcompcov j hj hjt
    exact h2cov j ⟨i, hiC, hji⟩
  obtain ⟨ha1, ha2⟩ := hanalysis comp2 h2nd h2pool h2cov2
  refine ⟨by omega, ?_, ?_⟩
  · intro hlen2
    have hc2len : comp2.length = (required ++ additional).length := by omega
    have := (ha2 hc2len).1
    omega
  · intro hlen2 hlit2
    have hallprime : ∀ i ∈ comp, IsPrime k U i := by
      by_contra hcon
      push_neg at hcon
      obtain ⟨i0, hi0, hi0np⟩ := hcon
      have hstrict := h2strict ⟨i0, hi0, hi0np⟩
      have hc2len : comp2.length = (required ++ additional).length := by omega
      have := (ha2 hc2len).1
      omega
    have hcomppool : ∀ i ∈ comp, i ∈ pool :=
      fun i hi => (hpoolprime i).mpr (hallprime i hi)
    obtain ⟨hb1, hb2⟩ := hanalysis comp hcompnd hcomppool hcompcov
    obtain ⟨hb3, hb4⟩ := hb2 hlen2
    exact hb4 hlit2

/-- **C2.** For a well-formed value table and an output name whose column
the minimizer processes (no `Undefined` entries), every solution returned
by `all_solutions` is minimal: its implicant set (required plus any
returned additional set) is duplicate-free, and any duplicate-free
competitor list of implicant cubes over the `k` input variables whose
minterms stay inside the usable rows and which covers every mandatory row
(High rows for DNF, Low rows for CNF) has at least as many implicants;
when it has exactly as many, its total literal count (`k` minus the order,
summed) is at least that of the returned solution; and when tied on both
counts it equals (as a set) one of the returned solutions. -/
theorem claim_C2 (vt : ValueTable) (n : String) (emit_dnf : Bool) (st : CompactStorage)
    (hwf : vt.WellFormed)
    (hst : vt.named_output n = some st)
    (hnund : ∀ j < st.table_entry_count, st.getItem j ≠ Entry.Undefined)
    (sol : QuineMcCluskeySolution)
    (hsol : QuineMcCluskey.all_solutions vt n emit_dnf = some (Sum.inr sol))
    (additional : List Implicant)
    (hadd : additional ∈ sol.additional_implicants) :
    (sol.required_implicants ++ additional).Nodup ∧
    ∀ comp : List Implicant, comp.Nodup →
      (∀ i ∈ comp, Good vt.input_variable_count
        (QuineMcCluskey.mandatorySet st.entryList emit_dnf ∪
          QuineMcCluskey.dcSet st.entryList) i) →
      (∀ j, ∀ hj : j < st.entryList.length,
        st.entryList[j] = (if emit_dnf then Entry.High else Entry.Low) →
        ∃ i ∈ comp, j ∈ i.minterms) →
      (sol.required_implicants ++ additional).length ≤ comp.length ∧
      (comp.length = (sol.required_implicants ++ additional).length →
        litsum vt.input_variable_count (sol.required_implicants ++ additional) ≤
          litsum vt.input_variable_count comp) ∧
      (comp.length = (sol.required_implicants ++ additional).length →
        litsum vt.input_variable_count comp =
          litsum vt.input_variable_count (sol.required_implicants ++ additional) →
        ∃ additional2 ∈ sol.additional_implicants,
          comp.toFinset = (sol.required_implicants ++ additional2).toFinset) := by
  classical
  have hvc : st.variable_count = vt.input_variable_count :=
    hwf.2 st (named_output_mem hst)
  have hlen : st.entryList.length = 2 ^ vt.input_variable_count := by
    rw [CompactStorage.entryList_length, hvc]
  have hiter : vt.iter_output_variable n = some st.entryList := by
    unfold ValueTable.iter_output_variable
    rw [hst]
    rfl
  have hcore : QuineMcCluskey.all_solutions_core vt.input_variable_names
      vt.input_variable_count st.entryList emit_dnf = some (Sum.inr sol) := by
    rw [← hsol]
    unfold QuineMcCluskey.all_solutions
    rw [hiter]
  exact all_solutions_core_minimal hlen hcore additional hadd

theorem claim_C2_witness :
    (([⟨{1}, 1, 0⟩] : List Implicant) ++ ([] : List Implicant)).Nodup ∧
    (([⟨{1}, 1, 0⟩] : List Implicant) ++ ([] : List Implicant)).length ≤
      ([⟨{1}, 1, 0⟩] : List Implicant).length := by
  have h := claim_C2 (ValueTable.mk ["A"] ["Y"] [⟨1, 4⟩]) "Y" true ⟨1, 4⟩
    (by decide) (by decide) (by decide)
    ⟨true, ["A"], [⟨{1}, 1, 0⟩], [[]]⟩ (by decide) [] (by decide)
  refine ⟨h.1, ?_⟩
  refine (h.2 [⟨{1}, 1, 0⟩] (by decide) ?_ ?_).1
  · intro i hi
    rw [List.mem_singleton] at hi
    subst hi
    exact ⟨by decide, by decide, by decide, by decide, by decide⟩
  · intro j hj hjt
    have hj2 : j < 2 := hj
    interval_cases j
    · have h9 : Entry.Low = (if true = true then Entry.High else Entry.Low) := hjt
      exact absurd h9 (by decide)
    · exact ⟨⟨{1}, 1, 0⟩, List.mem_singleton.mpr rfl, by decide⟩

end Digtick
